import Mathlib

/-!
# Astrolog `interpret.cpp`: custom interpretation styles

A shallow embedding of the line parser, the key codec, the single-file style
loader and the lookup resolvers of `interpret.cpp`, with the properties of its
specification stated and settled against it.

Representation.  A C string is the list of its characters before the
terminating NUL.  A `char *` that may be `NULL` is an `Option`.  C `int`s are
`Int`, and a number read from text is reduced to the 32 bits of the `int` that
holds it.  A C array indexed by an `int` is a function on `Int`.  A growable
array `(items, count, alloc)` is the list of its first `count` items together
with the capacity `alloc`.  Allocation never fails.
-/

namespace Astrolog

/-- C string contents: the characters before the terminating NUL. -/
abbrev Sz := List Char

/-! ## Helpers declared in `astrolog.h` -/

/-- Modelled from the spec: `FBetween(v, v1, v2)` of `astrolog.h`, the
inclusive range test ("validated to the inclusive range 1..12"). -/
def FBetween (v v1 v2 : Int) : Bool := decide (v1 ≤ v) && decide (v ≤ v2)

/-- Modelled from the spec: `ChCap` of `astrolog.h`, the upper case of an
ASCII letter, used by the case-insensitive comparison. -/
def ChCap (c : Char) : Char :=
  if 'a' ≤ c ∧ c ≤ 'z' then Char.ofNat (c.toNat - 32) else c

/-- Modelled from the spec: `FEqSz` of `astrolog.h`, exact string equality
("the encoded query key equals an entry's stored key string exactly"). -/
def FEqSz (a b : Sz) : Bool := decide (a = b)

/-- Modelled from the spec: `FEqSzI` of `astrolog.h`, string equality up to
the case of ASCII letters ("case-insensitive match"). -/
def FEqSzI (a b : Sz) : Bool := decide (a.map ChCap = b.map ChCap)

/-- The characters `isspace` accepts in the C locale. -/
def isspace (c : Char) : Bool :=
  c = ' ' || c = '\t' || c = '\n' || c = '\x0b' || c = '\x0c' || c = '\r'

/-- The test `c >= '0' && c <= '9'`. -/
def isDigit (c : Char) : Bool := decide ('0' ≤ c) && decide (c ≤ '9')

/-- The value read from a run of leading decimal digits, continuing from the
accumulator. -/
def atoiDigits : Sz → Nat → Nat
  | [], acc => acc
  | c :: cs, acc => if isDigit c then atoiDigits cs (acc * 10 + (c.toNat - 48)) else acc

/-- The conversion of a `long` to a C `int` of 32 bits: the low 32 bits of the
value, read in two's complement. -/
def toInt32 (z : Int) : Int := (z + 2147483648) % 4294967296 - 2147483648

/-- The result of `strtol` for a sign and the value of a run of decimal
digits, with a `long` of 64 bits: the signed value, held at `LONG_MAX` or
`LONG_MIN` when it lies outside the range. -/
def strtolValue (negative : Bool) (n : Nat) : Int :=
  if negative then max (-(n : Int)) (-9223372036854775808)
  else min (n : Int) 9223372036854775807

/-- The C `int` that `atoi` returns and that a conversion `%d` stores for a
sign and the value of a run of digits: the result of `strtol` converted to
`int`.  Up to 2147483647 it is the value itself; 4294967295 gives -1. -/
def cIntOf (negative : Bool) (n : Nat) : Int := toInt32 (strtolValue negative n)

/-- Modelled from the spec: `NFromSz` of `astrolog.h` ("digits parsed as a
numeric id"), which is C's `atoi`: leading white space is skipped, an optional
sign is read, then the leading decimal digits; anything after them is
ignored, and no digits give 0.  The result is a C `int`, computed as the C
library does it with a `long` of 64 bits and an `int` of 32 bits. -/
def NFromSz (s : Sz) : Int :=
  match s.dropWhile isspace with
  | '-' :: r => cIntOf true (atoiDigits r 0)
  | '+' :: r => cIntOf false (atoiDigits r 0)
  | r => cIntOf false (atoiDigits r 0)

/-- The string length `CchSz`. -/
def CchSz (s : Sz) : Nat := s.length

/-! ## `ParseLine` -/

/-- The loop of `ParseLine` that ends the string at the first `#` or `;`. -/
def cutComment : Sz → Sz
  | [] => []
  | c :: cs => if c = '#' ∨ c = ';' then [] else c :: cutComment cs

/-- The loop `while (*p == ' ' || *p == '\t' || *p == '\r' || *p == '\n') p++`. -/
def skipBlank : Sz → Sz
  | [] => []
  | c :: cs => if c = ' ' ∨ c = '\t' ∨ c = '\r' ∨ c = '\n' then skipBlank cs else c :: cs

/-- The loop `while (*p == ' ' || *p == '\t' || *p == '\r') p++`. -/
def skipBlank3 : Sz → Sz
  | [] => []
  | c :: cs => if c = ' ' ∨ c = '\t' ∨ c = '\r' then skipBlank3 cs else c :: cs

/-- The search for the separator: the text before the first `:` and the text
after it, or nothing when the string holds no `:`. -/
def splitColon : Sz → Option (Sz × Sz)
  | [] => none
  | c :: cs =>
    if c = ':' then some ([], cs)
    else match splitColon cs with
      | none => none
      | some (k, v) => some (c :: k, v)

/-- A backward loop `while (pch >= start && P(*pch)) *pch-- = chNull`: the
string without its longest suffix of characters satisfying `P`. -/
def trimEnd (P : Char → Bool) (s : Sz) : Sz := (s.reverse.dropWhile P).reverse

/-- The characters removed from the end of a key by `ParseLine`. -/
def keyTail (c : Char) : Bool := c = ' ' || c = '\t' || c = '\r'

/-- The characters removed from the end of a value by `ParseLine`. -/
def valueTail (c : Char) : Bool :=
  c = ' ' || c = '\t' || c = '\r' || c = '\n' || c = '\\'

/-- The function `ParseLine`: `none` is `fFalse`; `some (key, value)` is `fTrue` with the
two strings `*pchKey` and `*pchValue` point to on return. -/
def ParseLine (sz : Sz) : Option (Sz × Sz) :=
  -- Remove comments (everything after # or ;)
  let cut := cutComment sz
  -- Trim leading whitespace
  let body := skipBlank cut
  -- Check for empty line or section header
  match body with
  | [] => none
  | c :: _ =>
    if c = '[' then none
    else
      -- Find separator (:)
      match splitColon body with
      | none => none
      | some (k, v) =>
        -- Trim trailing whitespace from key
        let key := trimEnd keyTail k
        -- Trim leading whitespace from value
        let v1 := skipBlank3 v
        -- Check for empty value
        if v1 = [] then none
        else
          -- Trim trailing whitespace and continuation char from value
          some (key, trimEnd valueTail v1)

/-! ## Declarations of `astrolog.h` taken as parameters -/

/-- The parse modes of `NParseSz` that `interpret.cpp` passes. -/
inductive ParseMode where
  | pmObject
  | pmSign
deriving DecidableEq

/-- The constants, tables and helpers of `astrolog.h` that `interpret.cpp`
uses and whose declarations are not part of the source at hand. -/
structure Header where
  /-- Size of the key buffers. -/
  cchSzMax : Nat
  /-- Size of the line buffer of the loaders. -/
  cchSzLine : Nat
  /-- Number of entries of the object name table. -/
  objMax : Nat
  /-- Number of signs. -/
  cSign : Nat
  /-- Number of aspects. -/
  cAspect : Nat
  /-- Object name table, indices `0 .. objMax-1`. -/
  szObjName : Nat → Sz
  /-- Sign name table, indices `1 .. cSign`. -/
  szSignName : Nat → Sz
  /-- Aspect name table, indices `1 .. cAspect`. -/
  szAspectName : Nat → Sz
  /-- The test for a valid object id. -/
  FValidObj : Int → Bool
  /-- The general token parser, used for the keys of the planet and sign
  sections. -/
  NParseSz : Sz → ParseMode → Int
  /-- Index of the last planet: the objects `1 .. cPlanet` have a data file
  of their own in a style folder. -/
  cPlanet : Nat
  /-- Number of slots of the style list. -/
  cMaxStyle : Nat
  /-- Number of slots of the folder list. -/
  cMaxStyleFolder : Nat
  /-- The sign count is a C `int`. -/
  cSign_int : cSign < 2147483648
  /-- The aspect count is a C `int`. -/
  cAspect_int : cAspect < 2147483648
  /-- The argument of `FValidObj` is a C `int`: no value outside the range of
  an `int` is a valid object id. -/
  FValidObj_int : ∀ o : Int, FValidObj o = true → -2147483648 ≤ o ∧ o < 2147483648

/-- Modelled from the spec: `FValidSign` of `astrolog.h` ("validated against
the sign range"), the signs being numbered `1 .. cSign`. -/
def FValidSign (h : Header) (sign : Int) : Bool := FBetween sign 1 h.cSign

/-! ## Key codec -/

/-- The test `sz[0] == c`, false on the empty string. -/
def firstIs (c : Char) : Sz → Bool
  | [] => false
  | d :: _ => decide (d = c)

/-- The test `sz[0] >= '0' && sz[0] <= '9'`, false on the empty string. -/
def firstDigit : Sz → Bool
  | [] => false
  | d :: _ => isDigit d

/-- The loop `for (pch = sz; *pch && *pch != '+'; pch++)` followed by the test
`*pch != '+'`: the field before the first `+` and the text after it, or
nothing when there is no `+`. -/
def splitPlus : Sz → Option (Sz × Sz)
  | [] => none
  | c :: cs =>
    if c = '+' then some ([], cs)
    else match splitPlus cs with
      | none => none
      | some (f, r) => some (c :: f, r)

/-- A name lookup loop `for (i = start; ...; i++) if (FEqSzI(sz, table[i]))`:
the first of the `n` indices from `start` on whose name equals `sz` up to
case. -/
def findName (table : Nat → Sz) (sz : Sz) : Nat → Nat → Option Nat
  | _, 0 => none
  | start, n + 1 =>
    if FEqSzI sz (table start) then some start else findName table sz (start + 1) n

/-- An object field: a number when it starts with a digit, else a name of
the object table. -/
def parseObjField (h : Header) (sz : Sz) : Option Int :=
  if firstDigit sz then some (NFromSz sz)
  else (findName h.szObjName sz 0 h.objMax).map Int.ofNat

/-- The sign field of a combo key: `*` as first character is the wildcard
`-1`; a field starting with a digit is a number, validated; anything else is
looked up in the sign name table. -/
def parseSignField (h : Header) (sz : Sz) : Option Int :=
  if firstIs '*' sz then some (-1)
  else if firstDigit sz then
    (if FValidSign h (NFromSz sz) then some (NFromSz sz) else none)
  else (findName h.szSignName sz 1 h.cSign).map Int.ofNat

/-- The house field of a combo key: `*` as first character is the wildcard
`-1`; anything else is read as a number, which must lie in `1..12`. -/
def parseHouseField (sz : Sz) : Option Int :=
  if firstIs '*' sz then some (-1)
  else if FBetween (NFromSz sz) 1 12 then some (NFromSz sz)
  else none

/-- The function `FParseComboKey`: `none` is `fFalse`, `some (obj, sign, house)` is `fTrue`
with the three outputs. -/
def FParseComboKey (h : Header) (szKey : Sz) : Option (Int × Int × Int) :=
  -- Copy key to local buffer, then parse planet (number or name) - find first '+'
  match splitPlus (szKey.take (h.cchSzMax - 1)) with
  | none => none
  | some (f1, r1) =>
    match parseObjField h f1 with
    | none => none
    | some obj =>
      if !h.FValidObj obj && obj != -1 then none
      else
        -- Parse sign - find second '+'
        match splitPlus r1 with
        | none => none
        | some (f2, r2) =>
          match parseSignField h f2 with
          | none => none
          | some sign =>
            -- Parse house (the rest after the second '+')
            match parseHouseField r2 with
            | none => none
            | some house => some (obj, sign, house)

/-- The function `NParseAspectKey`: the aspect id, or `-1`. -/
def NParseAspectKey (h : Header) (szKey : Sz) : Int :=
  -- Try numeric
  if firstDigit szKey && decide (0 ≤ NFromSz szKey) && decide (NFromSz szKey ≤ h.cAspect) then
    NFromSz szKey
  else
    -- Try aspect names
    match findName h.szAspectName szKey 1 h.cAspect with
    | some i => i
    | none => -1

/-- The second object field of an aspect-combo key: `*` as first character is
the wildcard `-1`; anything else is an object field. -/
def parseObj2Field (h : Header) (sz : Sz) : Option Int :=
  if firstIs '*' sz then some (-1) else parseObjField h sz

/-- The function `FParseAspectComboKey`: `none` is `fFalse`, `some (obj1, obj2, asp)` is
`fTrue` with the three outputs. -/
def FParseAspectComboKey (h : Header) (szKey : Sz) : Option (Int × Int × Int) :=
  -- Copy key to local buffer, then parse first planet - find first '+'
  match splitPlus (szKey.take (h.cchSzMax - 1)) with
  | none => none
  | some (f1, r1) =>
    match parseObjField h f1 with
    | none => none
    | some obj1 =>
      if !h.FValidObj obj1 && obj1 != -1 then none
      else
        -- Parse second planet - find second '+'
        match splitPlus r1 with
        | none => none
        | some (f2, r2) =>
          match parseObj2Field h f2 with
          | none => none
          | some obj2 =>
            if !h.FValidObj obj2 && obj2 != -1 then none
            else
              -- Parse aspect
              if NParseAspectKey h r2 < 0 then none
              else some (obj1, obj2, NParseAspectKey h r2)

/-! ## Style store and registry -/

/-- One entry `{ key, value }` of a combo collection. -/
structure InterpretationCombo where
  key : Option Sz
  value : Option Sz
deriving DecidableEq

/-- The record of one style, as `interpret.cpp` uses its fields. -/
structure InterpretationStyle where
  filename : Option Sz
  name : Option Sz
  author : Option Sz
  version : Option Sz
  fLoaded : Bool
  planetMeaning : Int → Option Sz
  signDesc : Int → Option Sz
  signDesire : Int → Option Sz
  houseArea : Int → Option Sz
  aspectInteract : Int → Option Sz
  aspectTherefore : Int → Option Sz
  /-- The entries `combos[0 .. comboCount-1]`. -/
  combos : List InterpretationCombo
  comboAlloc : Nat
  /-- The entries `aspectCombos[0 .. aspectComboCount-1]`. -/
  aspectCombos : List InterpretationCombo
  aspectComboAlloc : Nat
  defaultLocation : Option Sz
  defaultAspect : Option Sz

/-- The field `comboCount`. -/
def InterpretationStyle.comboCount (s : InterpretationStyle) : Nat := s.combos.length

/-- The field `aspectComboCount`. -/
def InterpretationStyle.aspectComboCount (s : InterpretationStyle) : Nat :=
  s.aspectCombos.length

/-- The style registry `im`. -/
structure InterpretationManager where
  style : Int → Option InterpretationStyle
  stylePath : Int → Option Sz
  styleCount : Int
  currentStyle : Int

/-! ## Lookup resolvers -/

/-- Decimal digits of a natural number, most significant first, in front of
`acc`; the first argument bounds the number of digits. -/
def fmtNatAux : Nat → Nat → Sz → Sz
  | 0, _, acc => acc
  | fuel + 1, n, acc =>
    if n < 10 then Char.ofNat (48 + n) :: acc
    else fmtNatAux fuel (n / 10) (Char.ofNat (48 + n % 10) :: acc)

/-- The conversion `%d` of `sprintf` on a natural number. -/
def fmtNat (n : Nat) : Sz := fmtNatAux (n + 1) n []

/-- The conversion `%d` of `sprintf`. -/
def fmtInt : Int → Sz
  | Int.ofNat n => fmtNat n
  | Int.negSucc n => '-' :: fmtNat (n + 1)

/-- The key `sprintf(szKey, "%d+%d+%d", a, b, c)`. -/
def keyDDD (a b c : Int) : Sz := fmtInt a ++ '+' :: (fmtInt b ++ '+' :: fmtInt c)

/-- The key `sprintf(szKey, "%d+%d+*", a, b)`. -/
def keyDDS (a b : Int) : Sz := fmtInt a ++ '+' :: (fmtInt b ++ ['+', '*'])

/-- The key `sprintf(szKey, "%d+*+%d", a, c)`. -/
def keyDSD (a c : Int) : Sz := fmtInt a ++ '+' :: '*' :: '+' :: fmtInt c

/-- The key `sprintf(szKey, "*+%d+*", b)`. -/
def keySDS (b : Int) : Sz := '*' :: '+' :: (fmtInt b ++ ['+', '*'])

/-- The key `sprintf(szKey, "*+*+%d", c)`. -/
def keySSD (c : Int) : Sz := '*' :: '+' :: '*' :: '+' :: fmtInt c

/-- The scan `for (i = 0; i < count; i++) if (items[i].key != NULL &&
FEqSz(items[i].key, szKey)) return items[i].value;`: `none` when the loop runs
to its end, `some v` when it returns the pointer `v`. -/
def scanCombos (szKey : Sz) : List InterpretationCombo → Option (Option Sz)
  | [] => none
  | e :: es =>
    match e.key with
    | some k => if FEqSz k szKey then some e.value else scanCombos szKey es
    | none => scanCombos szKey es

/-- The style the resolvers use: `none` when they return `NULL` at once. -/
def currentStyle? (im : InterpretationManager) : Option InterpretationStyle :=
  if im.currentStyle < 0 ∨ im.currentStyle ≥ im.styleCount then none
  else match im.style im.currentStyle with
    | none => none
    | some style => if !style.fLoaded then none else some style

/-- The function `SzGetComboInterpretation`: `none` is `NULL`. -/
def SzGetComboInterpretation (im : InterpretationManager) (obj sign house : Int) :
    Option Sz :=
  match currentStyle? im with
  | none => none
  | some style =>
    -- Try exact match first
    match scanCombos (keyDDD obj sign house) style.combos with
    | some v => v
    | none =>
      -- Try planet+sign wildcard
      match scanCombos (keyDDS obj sign) style.combos with
      | some v => v
      | none =>
        -- Try planet+house wildcard
        match scanCombos (keyDSD obj house) style.combos with
        | some v => v
        | none =>
          -- Try sign wildcard
          match scanCombos (keySDS sign) style.combos with
          | some v => v
          | none =>
            -- Use default template if available
            style.defaultLocation

/-- The function `SzGetAspectInterpretation`: `none` is `NULL`. -/
def SzGetAspectInterpretation (h : Header) (im : InterpretationManager) (asp _nOrb : Int) :
    Option Sz :=
  match currentStyle? im with
  | none => none
  | some style =>
    if asp < 0 ∨ asp > h.cAspect then none else style.aspectInteract asp

/-- The function `SzGetAspectComboInterpretation`: `none` is `NULL`. -/
def SzGetAspectComboInterpretation (im : InterpretationManager) (obj1 obj2 asp : Int) :
    Option Sz :=
  match currentStyle? im with
  | none => none
  | some style =>
    -- Try exact match first
    match scanCombos (keyDDD obj1 obj2 asp) style.aspectCombos with
    | some v => v
    | none =>
      -- Try planet1+planet2 wildcard
      match scanCombos (keyDDS obj1 obj2) style.aspectCombos with
      | some v => v
      | none =>
        -- Try aspect wildcard
        match scanCombos (keySSD asp) style.aspectCombos with
        | some v => v
        | none => none

/-! ## `FLoadInterpretationStyle` -/

/-- The line reads of a loader: `fgets(szLine, n, file)` with `n - 1 = room`
takes characters up to and including the first newline, at most `room` of
them; the result is the line and the unread rest of the file. -/
def fgets : Nat → Sz → Sz × Sz
  | 0, s => ([], s)
  | _, [] => ([], [])
  | room + 1, c :: cs =>
    if c = '\n' then ([c], cs)
    else ((c :: (fgets room cs).1), (fgets room cs).2)

/-- The lines the loop `while (!feof(file)) { if (fgets(...) == NULL) break;
... }` sees, in order; the first argument bounds the number of reads. -/
def readLines (cch : Nat) : Nat → Sz → List Sz
  | 0, _ => []
  | fuel + 1, s =>
    if s = [] then []
    else (fgets (cch - 1) s).1 :: readLines cch fuel (fgets (cch - 1) s).2

/-- The lines of a file as a loader with a line buffer of `cch` characters
reads them. -/
def fileLines (cch : Nat) (content : Sz) : List Sz := readLines cch content.length content

/-- The characters `'\n'` and `'\r'`. -/
def isNlCr (c : Char) : Bool := c = '\n' || c = '\r'

/-- The characters `' '` and `'\t'`. -/
def isSpTab (c : Char) : Bool := c = ' ' || c = '\t'

/-- The loop `while (*p == ' ' || *p == '\t') p++`. -/
def skipSpTab : Sz → Sz
  | [] => []
  | c :: cs => if c = ' ' ∨ c = '\t' then skipSpTab cs else c :: cs

/-- The test `i >= 0 && sz[i] == '\\'` where `i` is the index of the last
character of `core`. -/
def endsBackslash (core : Sz) : Bool := decide (core.getLast? = some '\\')

/-- The section number a header line selects in `FLoadInterpretationStyle`. -/
def sectionOfHeader (pchKey : Sz) : Nat :=
  if FEqSzI pchKey "[metadata]".toList then 1
  else if FEqSzI pchKey "[planet_meanings]".toList then 2
  else if FEqSzI pchKey "[sign_descriptions]".toList then 3
  else if FEqSzI pchKey "[house_areas]".toList then 4
  else if FEqSzI pchKey "[combinations]".toList then 5
  else if FEqSzI pchKey "[aspects]".toList then 6
  else if FEqSzI pchKey "[aspect_combinations]".toList then 8
  else if FEqSzI pchKey "[templates]".toList then 7
  else 0

/-- The increment `COMBO_ALLOC` of the single-file loader. -/
def COMBO_ALLOC : Nat := 64

/-- Write of `table[i] = v`. -/
def setAt (table : Int → Option Sz) (i : Int) (v : Option Sz) : Int → Option Sz :=
  fun j => if j = i then v else table j

/-- The append of `FLoadInterpretationStyle` to the combo collection: the
capacity grows by `COMBO_ALLOC` when the count has reached it, the old entries
are copied, and the new entry is written at index `comboCount`. -/
def appendCombo (style : InterpretationStyle) (key value : Sz) : InterpretationStyle :=
  let alloc := if style.comboCount ≥ style.comboAlloc then style.comboAlloc + COMBO_ALLOC
               else style.comboAlloc
  { style with
    comboAlloc := alloc
    combos := style.combos ++ [{ key := some key, value := some value }] }

/-- The append of `FLoadInterpretationStyle` to the aspect-combo collection. -/
def appendAspectCombo (style : InterpretationStyle) (key value : Sz) : InterpretationStyle :=
  let alloc := if style.aspectComboCount ≥ style.aspectComboAlloc
               then style.aspectComboAlloc + COMBO_ALLOC else style.aspectComboAlloc
  { style with
    aspectComboAlloc := alloc
    aspectCombos := style.aspectCombos ++ [{ key := some key, value := some value }] }

/-- The `switch (iSection)` at `LProcessValue`: what one key/value pair does
to the style. -/
def processValue (h : Header) (iSection : Nat) (style : InterpretationStyle)
    (pchKey pchValue : Sz) : InterpretationStyle :=
  match iSection with
  | 1 =>  -- [metadata]
    if FEqSzI pchKey "name".toList then { style with name := some pchValue }
    else if FEqSzI pchKey "author".toList then { style with author := some pchValue }
    else if FEqSzI pchKey "version".toList then { style with version := some pchValue }
    else style
  | 2 =>  -- [planet_meanings]
    let obj := h.NParseSz pchKey ParseMode.pmObject
    if h.FValidObj obj then
      { style with planetMeaning := setAt style.planetMeaning obj (some pchValue) }
    else style
  | 3 =>  -- [sign_descriptions]
    let sign := h.NParseSz pchKey ParseMode.pmSign
    if FValidSign h sign then
      { style with
        signDesc := setAt style.signDesc sign (some pchValue)
        signDesire := setAt style.signDesire sign (some pchValue) }
    else style
  | 4 =>  -- [house_areas]
    let house := NFromSz pchKey
    if FBetween house 1 12 then
      { style with houseArea := setAt style.houseArea house (some pchValue) }
    else style
  | 5 =>  -- [combinations]
    match FParseComboKey h pchKey with
    | some _ => appendCombo style pchKey pchValue
    | none => style
  | 6 =>  -- [aspects]
    let i := NParseAspectKey h pchKey
    if 0 ≤ i ∧ i ≤ h.cAspect then
      { style with aspectInteract := setAt style.aspectInteract i (some pchValue) }
    else style
  | 8 =>  -- [aspect_combinations]
    match FParseAspectComboKey h pchKey with
    | some _ => appendAspectCombo style pchKey pchValue
    | none => style
  | 7 =>  -- [templates]
    if FEqSzI pchKey "default_location".toList then
      { style with defaultLocation := some pchValue }
    else if FEqSzI pchKey "default_aspect".toList then
      { style with defaultAspect := some pchValue }
    else style
  | _ => style

/-- The variables of the reading loop of `FLoadInterpretationStyle`. -/
structure LoadState where
  style : InterpretationStyle
  iSection : Nat
  fContinuation : Bool
  szContinuation : Option Sz
  szContinuationKey : Option Sz

/-- The end of the loop body from `LProcessValue` on: the pair is processed
and the continuation buffer released. -/
def processAndRelease (h : Header) (st : LoadState) (pchKey pchValue : Sz) : LoadState :=
  { st with
    style := processValue h st.iSection st.style pchKey pchValue
    szContinuation := none }

/-- The continuation branch of the loop body up to the test of the flag, for
the held value and the line just read: the new `fContinuation` and the new
buffer `szNewBuf`. -/
def continueLine (held szLine : Sz) : Bool × Sz :=
  -- Trim leading whitespace on continuation line
  let pchKey := skipSpTab szLine
  -- Check if this continuation line also ends with continuation character
  let core := trimEnd isSpTab (trimEnd isNlCr pchKey)
  let fCont := endsBackslash core
  let pchKey := if fCont then core.dropLast else pchKey
  -- Trim trailing space from accumulated value
  let held := trimEnd isSpTab held
  -- Append to continuation buffer with a single space separator
  (fCont, held ++ ' ' :: pchKey)

/-- The ordinary branch of the loop body up to the header test, for the line
just read: the new `fContinuation` and the line without its newline, and cut
at the continuation backslash when there is one. -/
def stripLine (szLine : Sz) : Bool × Sz :=
  -- Remove newline and carriage return
  let line := trimEnd isNlCr szLine
  -- Check for continuation character in the raw line
  let core := trimEnd isSpTab line
  let fCont := endsBackslash core
  (fCont, if fCont then core.dropLast else line)

/-- One pass through the body of the reading loop of
`FLoadInterpretationStyle`, for the line `szLine` just read. -/
def loadLine (h : Header) (st : LoadState) (szLine : Sz) : LoadState :=
  match st.fContinuation, st.szContinuation with
  | true, some held =>
    -- Handle continuation from previous line
    if !(continueLine held szLine).1 then
      -- Continuation complete - process the accumulated value
      processAndRelease h
        { st with fContinuation := false, szContinuation := some (continueLine held szLine).2 }
        (st.szContinuationKey.getD []) (continueLine held szLine).2
    else
      { st with fContinuation := true, szContinuation := some (continueLine held szLine).2 }
  | _, _ =>
    -- Check for section header BEFORE calling ParseLine
    if firstIs '[' (skipBlank (stripLine szLine).2) then
      { st with
        fContinuation := (stripLine szLine).1
        iSection := sectionOfHeader (skipBlank (stripLine szLine).2) }
    else
      -- Skip empty lines and non-section content
      match ParseLine (stripLine szLine).2 with
      | none => { st with fContinuation := (stripLine szLine).1 }
      | some (key, value) =>
        if (stripLine szLine).1 then
          -- save key and value for next iteration
          { st with
            fContinuation := true
            szContinuation := some value
            szContinuationKey := some key }
        else processAndRelease h { st with fContinuation := false } key value

/-- The style right after `ClearB` and the clone of the file name. -/
def newStyle (szFile : Sz) : InterpretationStyle :=
  { filename := some szFile, name := none, author := none, version := none,
    fLoaded := false,
    planetMeaning := fun _ => none, signDesc := fun _ => none,
    signDesire := fun _ => none, houseArea := fun _ => none,
    aspectInteract := fun _ => none, aspectTherefore := fun _ => none,
    combos := [], comboAlloc := 0, aspectCombos := [], aspectComboAlloc := 0,
    defaultLocation := none, defaultAspect := none }

/-- The state of the loop variables before the first line. -/
def initLoad (szFile : Sz) : LoadState :=
  { style := newStyle szFile, iSection := 0, fContinuation := false,
    szContinuation := none, szContinuationKey := none }

/-- The style `FLoadInterpretationStyle` has built when the reading loop ends:
every line processed, then `fLoaded` set. -/
def loadedStyle (h : Header) (szFile content : Sz) : InterpretationStyle :=
  { ((fileLines h.cchSzLine content).foldl (loadLine h) (initLoad szFile)).style with
    fLoaded := true }

/-- The function `FLoadInterpretationStyle`: `file` is the content of the file named
`szFile`, or `none` when it cannot be opened.  The result is the return value
and the registry after the call. -/
def FLoadInterpretationStyle (h : Header) (im : InterpretationManager) (szFile : Sz)
    (file : Option Sz) : Bool × InterpretationManager :=
  match file with
  | none => (false, im)
  | some content =>
    (true, { im with
      style := fun j => if j = im.styleCount then some (loadedStyle h szFile content)
                        else im.style j })

/-! ## `FLoadAISFileIntoStyle` -/

/-- A backward loop `while (end > start && P(*end)) *end-- = '\0'`: the
characters satisfying `P` are removed from the end, the first character of
the string always staying. -/
def trimEndKeepFirst (P : Char → Bool) : Sz → Sz
  | [] => []
  | c :: cs => c :: trimEnd P cs

/-- The characters the per-folder loader removes from the end of a key, a
value or a continuation line. -/
def isTrail (c : Char) : Bool := c = ' ' || c = '\t' || c = '\n' || c = '\r'

/-- The test `CchSz(sz) > 0 && sz[CchSz(sz)-1] == '\\'`. -/
def lastIsBackslash (sz : Sz) : Bool := decide (sz.getLast? = some '\\')

/-- The conversion `sscanf(szLine, "[%49[^]]", szSection)` on a line that
starts with `[`: the characters after the `[` up to the first `]`, at most
49 of them; `none` when there is none, the buffer then staying as it was. -/
def scanSection : Sz → Option Sz
  | [] => none
  | _ :: rest =>
    if (rest.takeWhile (fun c => !decide (c = ']'))).take 49 = [] then none
    else some ((rest.takeWhile (fun c => !decide (c = ']'))).take 49)

/-- The section number the per-folder loader gives a section name. -/
def aisSectionOf (szSection : Sz) : Nat :=
  if FEqSzI szSection "metadata".toList then 1
  else if FEqSzI szSection "planet_meanings".toList then 2
  else if FEqSzI szSection "sign_descriptions".toList then 3
  else if FEqSzI szSection "house_areas".toList then 4
  else if FEqSzI szSection "combinations".toList then 5
  else if FEqSzI szSection "aspect_combinations".toList then 6
  else 0

/-- The digits a conversion `%d` consumes: their value, continuing from the
accumulator, and the unread rest. -/
def scanDigits : Sz → Nat → Nat × Sz
  | [], acc => (acc, [])
  | c :: cs, acc =>
    if isDigit c then scanDigits cs (acc * 10 + (c.toNat - 48)) else (acc, c :: cs)

/-- One conversion `%d` of `sscanf`: leading white space is skipped, an
optional sign is read, and at least one digit must follow; the result is the
C `int` stored and the unread rest, `none` when the conversion fails. -/
def scanInt (s : Sz) : Option (Int × Sz) :=
  match s.dropWhile isspace with
  | '-' :: r =>
    if firstDigit r then some (cIntOf true (scanDigits r 0).1, (scanDigits r 0).2) else none
  | '+' :: r =>
    if firstDigit r then some (cIntOf false (scanDigits r 0).1, (scanDigits r 0).2) else none
  | r =>
    if firstDigit r then some (cIntOf false (scanDigits r 0).1, (scanDigits r 0).2) else none

/-- The statements `a = b = c = 0; sscanf(pchKey, "%d+%d+%d", &a, &b, &c);`:
the three variables afterwards; a variable whose conversion is not reached
keeps the value 0. -/
def sscanf3 (pchKey : Sz) : Int × Int × Int :=
  match scanInt pchKey with
  | none => (0, 0, 0)
  | some (a, r1) =>
    match r1 with
    | [] => (a, 0, 0)
    | c1 :: r1 =>
      if c1 = '+' then
        match scanInt r1 with
        | none => (a, 0, 0)
        | some (b, r2) =>
          match r2 with
          | [] => (a, b, 0)
          | c2 :: r2 =>
            if c2 = '+' then
              match scanInt r2 with
              | none => (a, b, 0)
              | some (c, _) => (a, b, c)
            else (a, b, 0)
      else (a, 0, 0)

/-- The append of `FLoadAISFileIntoStyle` to the combo collection: when the
count has reached the capacity, the capacity grows by 500 up to 2000, and
nothing is appended when the count has reached the new capacity too. -/
def appendComboCapped (style : InterpretationStyle) (key value : Sz) : InterpretationStyle :=
  if style.comboCount ≥ style.comboAlloc then
    if style.comboCount ≥ min (style.comboAlloc + 500) 2000 then style  -- Already at max
    else
      { style with
        comboAlloc := min (style.comboAlloc + 500) 2000
        combos := style.combos ++ [{ key := some key, value := some value }] }
  else
    { style with combos := style.combos ++ [{ key := some key, value := some value }] }

/-- The append of `FLoadAISFileIntoStyle` to the aspect-combo collection: the
capacity grows by 250 up to 1000. -/
def appendAspectComboCapped (style : InterpretationStyle) (key value : Sz) :
    InterpretationStyle :=
  if style.aspectComboCount ≥ style.aspectComboAlloc then
    if style.aspectComboCount ≥ min (style.aspectComboAlloc + 250) 1000 then style
    else
      { style with
        aspectComboAlloc := min (style.aspectComboAlloc + 250) 1000
        aspectCombos := style.aspectCombos ++ [{ key := some key, value := some value }] }
  else
    { style with
      aspectCombos := style.aspectCombos ++ [{ key := some key, value := some value }] }

/-- The `switch (iSection)` of `FLoadAISFileIntoStyle`: what one key/value
pair does to the style. -/
def aisStore (h : Header) (iSection : Nat) (style : InterpretationStyle)
    (pchKey pchValue : Sz) : InterpretationStyle :=
  match iSection with
  | 2 =>  -- planet_meanings
    if NFromSz pchKey ≥ 1 ∧ NFromSz pchKey < h.objMax then
      { style with planetMeaning := setAt style.planetMeaning (NFromSz pchKey) (some pchValue) }
    else style
  | 3 =>  -- sign_descriptions
    if NFromSz pchKey ≥ 1 ∧ NFromSz pchKey ≤ h.cSign then
      { style with signDesc := setAt style.signDesc (NFromSz pchKey) (some pchValue) }
    else style
  | 4 =>  -- house_areas
    if NFromSz pchKey ≥ 1 ∧ NFromSz pchKey ≤ h.cSign then
      { style with houseArea := setAt style.houseArea (NFromSz pchKey) (some pchValue) }
    else style
  | 5 =>  -- combinations (planet+sign+house)
    if (sscanf3 pchKey).1 > 0 ∧ (sscanf3 pchKey).2.1 > 0 ∧ (sscanf3 pchKey).2.2 > 0 then
      appendComboCapped style pchKey pchValue
    else style
  | 6 =>  -- aspect_combinations
    if (sscanf3 pchKey).1 > 0 ∧ (sscanf3 pchKey).2.1 > 0 then
      appendAspectComboCapped style pchKey pchValue
    else style
  | _ => style

/-- The variables of the reading loop of `FLoadAISFileIntoStyle`.  The array
`szSection` is not initialised: it holds what the last header line left in
it. -/
structure AisState where
  style : InterpretationStyle
  iSection : Nat
  fContinuation : Bool
  szContinuation : Option Sz
  szContinuationKey : Option Sz
  szSection : Sz

/-- The continuation branch of the per-folder loader for the held value and
the line just read: whether the line ends in a backslash, and the new buffer
`szNewBuf`. -/
def aisContinue (held szLine : Sz) : Bool × Sz :=
  if lastIsBackslash (trimEndKeepFirst isTrail (skipSpTab szLine)) then
    -- Remove backslash and continue
    (true, held ++ ' ' :: (trimEndKeepFirst isTrail (skipSpTab szLine)).dropLast)
  else
    (false, held ++ ' ' :: trimEndKeepFirst isTrail (skipSpTab szLine))

/-- One pass through the body of the reading loop of `FLoadAISFileIntoStyle`,
for the line `szLine` just read. -/
def aisLine (h : Header) (st : AisState) (szLine : Sz) : AisState :=
  -- Skip comments and empty lines
  if firstIs '#' szLine || firstIs '\n' szLine || firstIs '\r' szLine then st
  -- Check for section headers
  else if firstIs '[' szLine then
    { st with
      szSection := (scanSection szLine).getD st.szSection
      iSection := aisSectionOf ((scanSection szLine).getD st.szSection) }
  else
    match st.fContinuation, st.szContinuation, st.szContinuationKey with
    | true, some held, some key =>
      -- Handle continuation lines (BEFORE checking for colon)
      if (aisContinue held szLine).1 then
        { st with szContinuation := some (aisContinue held szLine).2 }
      else
        -- Continuation complete - process the accumulated value
        { st with
          szContinuation := some (aisContinue held szLine).2
          fContinuation := false
          style := aisStore h st.iSection st.style key (aisContinue held szLine).2 }
    | _, _, _ =>
      -- Parse key:value pairs
      match splitColon szLine with
      | none => st
      | some (k, v) =>
        -- Check if this value starts a continuation
        if lastIsBackslash (trimEndKeepFirst isTrail (skipSpTab v)) then
          { st with
            fContinuation := true
            szContinuation := some (trimEndKeepFirst isTrail (skipSpTab v)).dropLast
            szContinuationKey := some (trimEndKeepFirst isTrail (skipSpTab k)) }
        else
          { st with
            style := aisStore h st.iSection st.style
              (trimEndKeepFirst isTrail (skipSpTab k)) (trimEndKeepFirst isTrail (skipSpTab v)) }

/-- The loop variables of `FLoadAISFileIntoStyle` before the first line;
`junk` is what the section buffer happens to hold. -/
def aisInit (junk : Sz) (style : InterpretationStyle) : AisState :=
  { style := style, iSection := 0, fContinuation := false,
    szContinuation := none, szContinuationKey := none, szSection := junk }

/-- The function `FLoadAISFileIntoStyle` on an allocated style: `file` is the
content of the file, or `none` when it cannot be opened; the result is the
return value and the style after the call. -/
def FLoadAISFileIntoStyle (h : Header) (junk : Sz) (style : InterpretationStyle)
    (file : Option Sz) : Bool × InterpretationStyle :=
  match file with
  | none => (false, style)  -- Silent fail - file might not exist
  | some content =>
    (true, ((fileLines h.cchSzLine content).foldl (aisLine h) (aisInit junk style)).style)

/-! ## Folder registry -/

/-- The record of one style folder. -/
structure InterpretationFolder where
  name : Option Sz
  displayName : Option Sz
  author : Option Sz
  version : Option Sz
  description : Option Sz
  path : Sz
  fLoaded : Bool
  fActive : Bool
deriving DecidableEq

/-- The folder registry `ifm`; `folder` holds the entries
`folder[0 .. folderCount-1]`. -/
structure InterpretationFolderManager where
  basePath : Sz
  folder : List InterpretationFolder
  activeFolder : Int
  activePath : Sz
deriving DecidableEq

/-- The field `folderCount`. -/
def InterpretationFolderManager.folderCount (ifm : InterpretationFolderManager) : Nat :=
  ifm.folder.length

/-- What the folder functions see of the outside: the environment variable
`HOME`, the directory listings, the file tests and contents, the symbolic
links, and what the uninitialised section buffer of the per-folder loader
holds for a file.  Paths are not cut to the size of their buffers. -/
structure Disk where
  /-- The result of `getenv("HOME")`. -/
  HOME : Option Sz
  /-- The names `readdir` yields for a directory, `none` when `opendir`
  fails. -/
  readdir : Sz → Option (List Sz)
  /-- The test `lstat(path) == 0 && S_ISLNK`. -/
  isLink : Sz → Bool
  /-- The test `stat(path) == 0 && S_ISREG`. -/
  isRegular : Sz → Bool
  /-- The content `fopen(path, "r")` gives access to, `none` when it fails. -/
  content : Sz → Option Sz
  /-- The target `readlink` reads, `none` when it returns no positive
  length. -/
  readlink : Sz → Option Sz
  /-- The content of the section buffer before the first header of a file. -/
  junk : Sz → Sz

/-- The leading blanks a call of `ParseLine` steps over. -/
def blankRun : Sz → Sz
  | [] => []
  | c :: cs => if c = ' ' ∨ c = '\t' ∨ c = '\r' ∨ c = '\n' then c :: blankRun cs else []

/-- The string at `szLine` once `ParseLine` has returned `fTrue`: the call
writes `chNull` over the first comment character, over the `:` and over the
blanks that end the key, so that the string is the leading blanks followed
by the key. -/
def lineAfterParse (szLine key : Sz) : Sz := blankRun (cutComment szLine) ++ key

/-- The variables of the reading loop of `FLoadStyleConfig`. -/
structure ConfigState where
  folder : InterpretationFolder
  inMetadata : Bool

/-- One pass through the body of the reading loop of `FLoadStyleConfig`. -/
def configLine (st : ConfigState) (szLine : Sz) : ConfigState :=
  match ParseLine szLine with
  | none => st
  | some (pchKey, pchValue) =>
    -- Check for section headers
    if firstIs '[' (lineAfterParse szLine pchKey) then
      { st with inMetadata := FEqSzI (lineAfterParse szLine pchKey) "[metadata]".toList }
    else if st.inMetadata then
      if FEqSzI pchKey "name".toList then
        { st with folder := { st.folder with displayName := some pchValue } }
      else if FEqSzI pchKey "author".toList then
        { st with folder := { st.folder with author := some pchValue } }
      else if FEqSzI pchKey "version".toList then
        { st with folder := { st.folder with version := some pchValue } }
      else if FEqSzI pchKey "description".toList then
        { st with folder := { st.folder with description := some pchValue } }
      else st
    else st

/-- The folder with its four text fields set to `NULL`. -/
def clearFolder (folder : InterpretationFolder) : InterpretationFolder :=
  { folder with displayName := none, author := none, version := none, description := none }

/-- The end of `FLoadStyleConfig`: the folder name as fallback display
name. -/
def defaultDisplayName (folder : InterpretationFolder) : InterpretationFolder :=
  if folder.displayName = none then { folder with displayName := folder.name } else folder

/-- The function `FLoadStyleConfig`: `file` is the content of the file at
`szPath`, or `none` when it cannot be opened; the result is the return value
and the folder after the call. -/
def FLoadStyleConfig (h : Header) (folder : InterpretationFolder) (file : Option Sz) :
    Bool × InterpretationFolder :=
  match file with
  | none => (false, folder)
  | some content =>
    (true, defaultDisplayName
      ((fileLines h.cchSzMax content).foldl configLine
        { folder := clearFolder folder, inMetadata := false }).folder)

/-- The comparison `FEqSzI(p, sz)` for a string pointer of a folder record. -/
def eqNameI (p : Option Sz) (sz : Sz) : Bool :=
  match p with
  | some n => FEqSzI n sz
  | none => false

/-- The path of the styles directory. -/
def stylesPath (basePath : Sz) : Sz := basePath ++ "/styles".toList

/-- One pass through the body of the directory loop of
`ScanInterpretationFolders`, for the entry named `d_name`; the loop has ended
once the folder list is full. -/
def scanEntry (h : Header) (disk : Disk) (ifm : InterpretationFolderManager) (d_name : Sz) :
    InterpretationFolderManager :=
  if ifm.folderCount ≥ h.cMaxStyleFolder then ifm
  -- Skip . and ..
  else if firstIs '.' d_name then ifm
  -- Skip symlinks (like "active")
  else if disk.isLink (stylesPath ifm.basePath ++ '/' :: d_name) then ifm
  -- Check if style.conf exists
  else if disk.isRegular (stylesPath ifm.basePath ++ '/' :: d_name ++ "/style.conf".toList) then
    -- This is a valid style folder - load its config
    if (FLoadStyleConfig h
          { name := some d_name, displayName := none, author := none, version := none,
            description := none, path := stylesPath ifm.basePath ++ '/' :: d_name,
            fLoaded := false, fActive := false }
          (disk.content (stylesPath ifm.basePath ++ '/' :: d_name ++ "/style.conf".toList))).1
    then
      { ifm with
        folder := ifm.folder ++
          [{ (FLoadStyleConfig h
              { name := some d_name, displayName := none, author := none, version := none,
                description := none, path := stylesPath ifm.basePath ++ '/' :: d_name,
                fLoaded := false, fActive := false }
              (disk.content
                (stylesPath ifm.basePath ++ '/' :: d_name ++ "/style.conf".toList))).2 with
            fLoaded := true }] }
    else ifm
  else ifm

/-- The text after the last `/` of a link target, the whole target when it
holds no `/`. -/
def lastComponent (target : Sz) : Sz :=
  (target.reverse.takeWhile (fun c => !decide (c = '/'))).reverse

/-- A search loop `for (i = 0; i < folderCount; i++) if (p(folder[i]))`: the
first folder that satisfies `p` with its index, the indices counting from
`i`. -/
def findFolder (p : InterpretationFolder → Bool) :
    List InterpretationFolder → Nat → Option (Nat × InterpretationFolder)
  | [], _ => none
  | f :: fs, i => if p f then some (i, f) else findFolder p fs (i + 1)

/-- The write `folder[i].fActive = fTrue`. -/
def setActiveFlag : List InterpretationFolder → Nat → List InterpretationFolder
  | [], _ => []
  | f :: fs, 0 => { f with fActive := true } :: fs
  | f :: fs, i + 1 => f :: setActiveFlag fs i

/-- The end of `ScanInterpretationFolders`: the folder the `active` link
names, when there is one, becomes the active folder. -/
def resolveActive (disk : Disk) (ifm : InterpretationFolderManager) :
    InterpretationFolderManager :=
  match disk.readlink (ifm.basePath ++ "/styles/active".toList) with
  | none => ifm
  | some target =>
    -- Find the folder with this name
    match findFolder (fun f => eqNameI f.name (lastComponent target)) ifm.folder 0 with
    | none => ifm
    | some (i, _) =>
      { ifm with
        activeFolder := i
        folder := setActiveFlag ifm.folder i
        activePath := ifm.basePath ++ "/styles/".toList ++ lastComponent target }

/-- The function `ScanInterpretationFolders` (the branch compiled without
`WIN`): the return value and the folder registry after the call. -/
def ScanInterpretationFolders (h : Header) (disk : Disk) (ifm : InterpretationFolderManager) :
    Int × InterpretationFolderManager :=
  match disk.readdir (stylesPath ifm.basePath) with
  | none => (0, ifm)  -- Directory doesn't exist yet - not an error, just no styles
  | some entries =>
    (((resolveActive disk (entries.foldl (scanEntry h disk) ifm)).folderCount : Int),
      resolveActive disk (entries.foldl (scanEntry h disk) ifm))

/-- The function `FInitInterpretationFolders` (the branch compiled without
`WIN`): the return value and the folder registry after the call. -/
def FInitInterpretationFolders (h : Header) (disk : Disk) (ifm : InterpretationFolderManager) :
    Bool × InterpretationFolderManager :=
  (decide ((ScanInterpretationFolders h disk
      { ifm with
        basePath := disk.HOME.getD "/tmp".toList ++ "/.astrolog/interpretations".toList
        folder := []
        activeFolder := -1 }).1 ≥ 0),
   (ScanInterpretationFolders h disk
      { ifm with
        basePath := disk.HOME.getD "/tmp".toList ++ "/.astrolog/interpretations".toList
        folder := []
        activeFolder := -1 }).2)

/-- The two registries `im` and `ifm`. -/
structure Registries where
  im : InterpretationManager
  ifm : InterpretationFolderManager

/-- One pass through the loop of `FSetActiveStyle` over the planets: the data
file of object `j`, when there is one, is merged into the style. -/
def loadPlanetFile (h : Header) (disk : Disk) (activePath : Sz)
    (style : InterpretationStyle) (j : Nat) : InterpretationStyle :=
  if disk.isRegular (activePath ++ "/signs/".toList ++ h.szObjName j ++ ".ais".toList) then
    (FLoadAISFileIntoStyle h
      (disk.junk (activePath ++ "/signs/".toList ++ h.szObjName j ++ ".ais".toList)) style
      (disk.content (activePath ++ "/signs/".toList ++ h.szObjName j ++ ".ais".toList))).2
  else style

/-- The style `FSetActiveStyle` builds for a folder: allocated, named after
the display name of the folder, filled from the data files of the objects
`1 .. cPlanet`, then marked loaded. -/
def folderStyle (h : Header) (disk : Disk) (folder : InterpretationFolder) (activePath : Sz) :
    InterpretationStyle :=
  { ((List.range h.cPlanet).foldl (fun style j => loadPlanetFile h disk activePath style (j + 1))
      { newStyle [] with filename := folder.displayName }) with
    fLoaded := true }

/-- The folder registry the search of `FSetActiveStyle` runs on: the registry
itself when it holds a folder, else the registry after
`FInitInterpretationFolders`. -/
def ensureFolders (h : Header) (disk : Disk) (ifm : InterpretationFolderManager) :
    InterpretationFolderManager :=
  if ifm.folderCount = 0 then (FInitInterpretationFolders h disk ifm).2 else ifm

/-- The body of `FSetActiveStyle` once the folder `folder` at index `i`
matches the name. -/
def activateFolder (h : Header) (disk : Disk) (r : Registries) (i : Nat)
    (folder : InterpretationFolder) : Bool × Registries :=
  -- Found it - set as active
  if r.im.styleCount ≥ h.cMaxStyle then
    (false,
      { r with
        ifm := { r.ifm with
          activeFolder := i, folder := setActiveFlag r.ifm.folder i, activePath := folder.path } })
  else
    (true,
      { im :=
          { style := fun j =>
              if j = r.im.styleCount then some (folderStyle h disk folder folder.path)
              else r.im.style j
            stylePath := fun j => if j = r.im.styleCount then folder.name else r.im.stylePath j
            styleCount := r.im.styleCount + 1
            currentStyle := r.im.styleCount }
        ifm := { r.ifm with
          activeFolder := i, folder := setActiveFlag r.ifm.folder i, activePath := folder.path } })

/-- The function `FSetActiveStyle`: the return value and the two registries
after the call. -/
def FSetActiveStyle (h : Header) (disk : Disk) (r : Registries) (szName : Sz) :
    Bool × Registries :=
  -- First ensure we've scanned for folders
  if r.ifm.folderCount = 0 ∧ (FInitInterpretationFolders h disk r.ifm).1 = false then
    (false, { r with ifm := ensureFolders h disk r.ifm })
  else
    -- Search for style by name
    match findFolder (fun f => eqNameI f.name szName || eqNameI f.displayName szName)
        (ensureFolders h disk r.ifm).folder 0 with
    | none => (false, { r with ifm := ensureFolders h disk r.ifm })  -- Style not found
    | some (i, folder) =>
      activateFolder h disk { r with ifm := ensureFolders h disk r.ifm } i folder

/-! ## A concrete header -/

/-- The leading entries of the object name table. -/
def sampleObjName : Nat → Sz
  | 0 => "Earth".toList
  | 1 => "Sun".toList
  | 2 => "Moon".toList
  | 3 => "Mercury".toList
  | 4 => "Venus".toList
  | 5 => "Mars".toList
  | 6 => "Jupiter".toList
  | 7 => "Saturn".toList
  | 8 => "Uranus".toList
  | 9 => "Neptune".toList
  | 10 => "Pluto".toList
  | _ => []

/-- The sign name table. -/
def sampleSignName : Nat → Sz
  | 1 => "Aries".toList
  | 2 => "Taurus".toList
  | 3 => "Gemini".toList
  | 4 => "Cancer".toList
  | 5 => "Leo".toList
  | 6 => "Virgo".toList
  | 7 => "Libra".toList
  | 8 => "Scorpio".toList
  | 9 => "Sagittarius".toList
  | 10 => "Capricorn".toList
  | 11 => "Aquarius".toList
  | 12 => "Pisces".toList
  | _ => []

/-- The leading entries of the aspect name table. -/
def sampleAspectName : Nat → Sz
  | 1 => "Conjunct".toList
  | 2 => "Opposite".toList
  | 3 => "Square".toList
  | 4 => "Trine".toList
  | 5 => "Sextile".toList
  | _ => []

/-- A header to evaluate the definitions on examples: the planets Earth to
Pluto as objects `0 .. 10`, the twelve signs, the five major aspects, key
buffers of 255 characters, a line buffer of 1020, and four slots in each of
the style list and the folder list. -/
def sampleHeader : Header :=
  { cchSzMax := 255, cchSzLine := 1020, objMax := 11, cSign := 12, cAspect := 5,
    szObjName := sampleObjName, szSignName := sampleSignName,
    szAspectName := sampleAspectName,
    FValidObj := fun o => FBetween o 0 10,
    NParseSz := fun sz _ => NFromSz sz,
    cPlanet := 10, cMaxStyle := 4, cMaxStyleFolder := 4,
    cSign_int := by decide, cAspect_int := by decide,
    FValidObj_int := fun o ho => by
      simp only [FBetween, Bool.and_eq_true, decide_eq_true_eq] at ho
      omega }

/-- A registry whose only style is `style`, made the current one. -/
def registryOf (style : InterpretationStyle) : InterpretationManager :=
  { style := fun j => if j = 0 then some style else none,
    stylePath := fun _ => none, styleCount := 1, currentStyle := 0 }

/-! ## The growable arrays, slot by slot -/

/-- A combo array as a loader holds it: the allocated block of slots, the
count and the capacity.  The slots from `count` on are not initialised. -/
structure ComboArray where
  slots : List InterpretationCombo
  count : Nat
  alloc : Nat

/-- The copy loop `for (i = 0; i < count; i++) newCombos[i] = combos[i];`
run for `count` rounds on the new block. -/
def copyCombos (combos : List InterpretationCombo) :
    Nat → List InterpretationCombo → List InterpretationCombo
  | 0, newCombos => newCombos
  | i + 1, newCombos =>
    (copyCombos combos i newCombos).set i (combos.getD i { key := none, value := none })

/-- The append of `FLoadInterpretationStyle`, slot by slot: `fresh` is the
block the allocator returns when the array has to grow. -/
def growAppend (a : ComboArray) (fresh : List InterpretationCombo) (e : InterpretationCombo) :
    ComboArray :=
  if a.count ≥ a.alloc then
    { slots := (copyCombos a.slots a.count fresh).set a.count e
      count := a.count + 1
      alloc := a.alloc + COMBO_ALLOC }
  else
    { slots := a.slots.set a.count e, count := a.count + 1, alloc := a.alloc }

/-- The append of `FLoadAISFileIntoStyle`, slot by slot, for a collection
that grows by `step` up to `ceiling`. -/
def growAppendCapped (step ceiling : Nat) (a : ComboArray) (fresh : List InterpretationCombo)
    (e : InterpretationCombo) : ComboArray :=
  if a.count ≥ a.alloc then
    if a.count ≥ min (a.alloc + step) ceiling then a  -- Already at max
    else
      { slots := (copyCombos a.slots a.count fresh).set a.count e
        count := a.count + 1
        alloc := min (a.alloc + step) ceiling }
  else
    { slots := a.slots.set a.count e, count := a.count + 1, alloc := a.alloc }

/-- The entries of a combo array: its first `count` slots. -/
def ComboArray.entries (a : ComboArray) : List InterpretationCombo := a.slots.take a.count

/-! ## A concrete disk -/

/-- A disk with one style folder `modern` under `/home/u`, whose metadata
file is the one of the specification's scenario and whose data file for the
Sun continues a value over three lines; the link `active` names the
folder. -/
def sampleDisk : Disk :=
  { HOME := some "/home/u".toList
    readdir := fun p =>
      if p = "/home/u/.astrolog/interpretations/styles".toList
      then some [".".toList, "..".toList, "active".toList, "modern".toList] else none
    isLink := fun p => decide (p = "/home/u/.astrolog/interpretations/styles/active".toList)
    isRegular := fun p =>
      decide (p = "/home/u/.astrolog/interpretations/styles/modern/style.conf".toList) ||
      decide (p = "/home/u/.astrolog/interpretations/styles/modern/signs/Sun.ais".toList)
    content := fun p =>
      if p = "/home/u/.astrolog/interpretations/styles/modern/style.conf".toList
      then some "[metadata]\nname: Modern\nauthor: Jane\n".toList
      else if p = "/home/u/.astrolog/interpretations/styles/modern/signs/Sun.ais".toList
      then some "[planet_meanings]\n1: a \\\nb \\\nc\n".toList
      else none
    readlink := fun p =>
      if p = "/home/u/.astrolog/interpretations/styles/active".toList
      then some "modern".toList else none
    junk := fun _ => [] }

/-- A folder record as the scan leaves it, before the metadata file is
read. -/
def folderNamed (name path : String) : InterpretationFolder :=
  { name := some name.toList, displayName := none, author := none, version := none,
    description := none, path := path.toList, fLoaded := false, fActive := false }

/-- The folder registry before the first scan. -/
def emptyFolders : InterpretationFolderManager :=
  { basePath := [], folder := [], activeFolder := -1, activePath := [] }

/-- The loop variables of the per-folder loader while the pair `key: value`
is held for continuation. -/
def aisHolding (st : AisState) (key value : Sz) : AisState :=
  { st with fContinuation := true, szContinuation := some value, szContinuationKey := some key }

/-- The loop variables while the pair `key: value` is held for continuation. -/
def holding (st : LoadState) (key value : Sz) : LoadState :=
  { st with fContinuation := true, szContinuation := some value, szContinuationKey := some key }

/-- A key that starts like a name: its first character is no digit, no `-`
and no `*`. -/
def startsLikeName : Sz → Bool
  | [] => false
  | c :: _ => !isDigit c && c != '-' && c != '*'

/-- The registry before any style is loaded. -/
def emptyRegistry : InterpretationManager :=
  { style := fun _ => none, stylePath := fun _ => none, styleCount := 0, currentStyle := -1 }

/-- The registry after `FLoadInterpretationStyle` has loaded the file
`content` into the empty registry and the caller has counted the new style
and made it the current one. -/
def loadAsCurrent (h : Header) (szFile content : Sz) : InterpretationManager :=
  { (FLoadInterpretationStyle h emptyRegistry szFile (some content)).2 with
    styleCount := 1, currentStyle := 0 }

/-! ## The resolvers as the specification words them -/

/-- The lowest-index entry of a collection whose key is the string `k`. -/
def lowestWithKey (k : Sz) (l : List InterpretationCombo) : Option InterpretationCombo :=
  l.find? (fun e => decide (e.key = some k))

/-- The combo query as the specification words it: the value of the first
entry keyed `obj+sign+house`, failing that `obj+sign+*`, failing that
`obj+*+house`, failing that `*+sign+*`, failing that `defaultLocation`. -/
def comboFallback (style : InterpretationStyle) (obj sign house : Int) : Option Sz :=
  match lowestWithKey (keyDDD obj sign house) style.combos with
  | some e => e.value
  | none =>
    match lowestWithKey (keyDDS obj sign) style.combos with
    | some e => e.value
    | none =>
      match lowestWithKey (keyDSD obj house) style.combos with
      | some e => e.value
      | none =>
        match lowestWithKey (keySDS sign) style.combos with
        | some e => e.value
        | none => style.defaultLocation

/-- The aspect-combo query as the specification words it: the value of the
first entry keyed `obj1+obj2+asp`, failing that `obj1+obj2+*`, failing that
`*+*+asp`, failing that nothing. -/
def aspectComboFallback (style : InterpretationStyle) (obj1 obj2 asp : Int) : Option Sz :=
  match lowestWithKey (keyDDD obj1 obj2 asp) style.aspectCombos with
  | some e => e.value
  | none =>
    match lowestWithKey (keyDDS obj1 obj2) style.aspectCombos with
    | some e => e.value
    | none =>
      match lowestWithKey (keySSD asp) style.aspectCombos with
      | some e => e.value
      | none => none

/-- A collection holds an entry keyed `k`. -/
def hasKey (k : Sz) (l : List InterpretationCombo) : Prop := ∃ e ∈ l, e.key = some k

/-- A reordering of a collection that keeps the relative order of the entries
having equal keys: a permutation in which, for every key, the entries with
that key come in the same order. -/
def KeepsKeyOrder (l l' : List InterpretationCombo) : Prop :=
  l'.Perm l ∧
  ∀ k : Option Sz, l'.filter (fun e => decide (e.key = k)) = l.filter (fun e => decide (e.key = k))

/-- The registry with the combo collection of its current style replaced. -/
def withCurrentCombos (im : InterpretationManager) (l' : List InterpretationCombo) :
    InterpretationManager :=
  { im with
    style := fun j =>
      if j = im.currentStyle then (im.style j).map (fun s => { s with combos := l' })
      else im.style j }

/-- An entry with both strings set. -/
def entry (key value : String) : InterpretationCombo :=
  { key := some key.toList, value := some value.toList }

/-- A loaded style with the given collections and no default texts. -/
def styleOf (combos aspectCombos : List InterpretationCombo) : InterpretationStyle :=
  { newStyle [] with
    fLoaded := true, combos := combos, comboAlloc := COMBO_ALLOC,
    aspectCombos := aspectCombos, aspectComboAlloc := COMBO_ALLOC }

/-! ## The line parser as the specification words it -/

/-- White space: space, tab, carriage return, newline. -/
def isWhite (c : Char) : Bool := c = ' ' || c = '\t' || c = '\r' || c = '\n'

/-- A line cut at its first `#` or `;`. -/
def cutAtComment (s : Sz) : Sz := s.takeWhile (fun c => !(decide (c = '#') || decide (c = ';')))

/-- The text before the first `:`. -/
def beforeColon (s : Sz) : Sz := s.takeWhile (fun c => !decide (c = ':'))

/-- The text after the first `:`. -/
def afterColon (s : Sz) : Sz := (s.dropWhile (fun c => !decide (c = ':'))).drop 1

/-- A string with the characters satisfying `P` removed from both ends. -/
def strip (P : Char → Bool) (s : Sz) : Sz := trimEnd P (s.dropWhile P)

/-- A physical line: a newline, if there is one, is the last character. -/
def NewlineOnlyLast (s : Sz) : Prop := ∀ a b : Sz, s = a ++ '\n' :: b → b = []

/-! ## Fields of a composite key -/

/-- A letter `A`..`Z` or `a`..`z`. -/
def isLetter (c : Char) : Bool :=
  (decide ('A' ≤ c) && decide (c ≤ 'Z')) || (decide ('a' ≤ c) && decide (c ≤ 'z'))

/-- A field of a composite key that is a wildcard or a name: its first
character is `*` or a letter. -/
def starOrName : Sz → Bool
  | [] => false
  | c :: _ => decide (c = '*') || isLetter c

/-! ## A line `key: value` of the house section -/

/-- A value as it stands on a line `key: value`: not empty, with no white
space in front, and neither white space nor a backslash at the end. -/
def plainValue (v : Sz) : Bool :=
  match v.head?, v.getLast? with
  | some c, some d => !isWhite c && !valueTail d
  | _, _ => false

/-- The blanks around the key and the value of a line `key: value`, and the
characters that end the line. -/
structure Spacing where
  beforeKey : Sz
  afterKey : Sz
  beforeValue : Sz
  afterValue : Sz
  lineEnd : Sz

/-- The four runs of blanks hold spaces and tabs only, and the line end holds
newlines and carriage returns only. -/
def Spacing.ok (sp : Spacing) : Bool :=
  sp.beforeKey.all isSpTab && sp.afterKey.all isSpTab && sp.beforeValue.all isSpTab &&
    sp.afterValue.all isSpTab && sp.lineEnd.all isNlCr

/-- The physical line `n: value` with the given spacing. -/
def houseLine (sp : Spacing) (n : Nat) (value : Sz) : Sz :=
  sp.beforeKey ++ (fmtNat n ++ (sp.afterKey ++ ':' ::
    (sp.beforeValue ++ (value ++ (sp.afterValue ++ sp.lineEnd)))))

/-! ## A disk with two style folders -/

/-- A disk with the two style folders `a` and `b` under `/h`, each with an
empty metadata file and no data file, and no `active` link. -/
def twoFolderDisk : Disk :=
  { HOME := some "/h".toList
    readdir := fun p =>
      if p = "/h/.astrolog/interpretations/styles".toList
      then some ["a".toList, "b".toList] else none
    isLink := fun _ => false
    isRegular := fun p =>
      decide (p = "/h/.astrolog/interpretations/styles/a/style.conf".toList) ||
      decide (p = "/h/.astrolog/interpretations/styles/b/style.conf".toList)
    content := fun p =>
      if p = "/h/.astrolog/interpretations/styles/a/style.conf".toList ∨
         p = "/h/.astrolog/interpretations/styles/b/style.conf".toList
      then some [] else none
    readlink := fun _ => none
    junk := fun _ => [] }

/-- The registries after `FSetActiveStyle` has been called with each of the
names in turn, from the first to the last. -/
def activateAll (h : Header) (disk : Disk) (r : Registries) (names : List Sz) : Registries :=
  names.foldl (fun r szName => (FSetActiveStyle h disk r szName).2) r

/-! ## Entries of a style file -/

/-- The value that the continuation lines of an entry complete, starting
from the held value: every line but the last ends in a backslash and the last
one does not; `none` when the lines do not have that shape. -/
def completedValue : Sz → List Sz → Option Sz
  | _, [] => none
  | held, c :: cs =>
    if (continueLine held c).1 then completedValue (continueLine held c).2 cs
    else if cs = [] then some (continueLine held c).2 else none

/-- The pair that the physical lines of one entry make the single-file loader
process: the first line is no header and holds the key and a value; when it
ends in a backslash the lines after it continue the value up to the first one
without a backslash, and otherwise it stands alone.  The result is `none`
when the lines are not those of one entry. -/
def entryPair : List Sz → Option (Sz × Sz)
  | [] => none
  | l0 :: conts =>
    if firstIs '[' (skipBlank (stripLine l0).2) then none
    else
      match ParseLine (stripLine l0).2 with
      | none => none
      | some (key, v0) =>
        if (stripLine l0).1 then (completedValue v0 conts).map (fun v => (key, v))
        else if conts = [] then some (key, v0) else none

/-- Two states of the reading loop of the single-file loader that the lines
still to come cannot tell apart: same style, same section, same held value,
and, when a value is held, same continuation flag and same held key. -/
def SameToRest (a b : LoadState) : Prop :=
  a.style = b.style ∧ a.iSection = b.iSection ∧ a.szContinuation = b.szContinuation ∧
  (a.szContinuation = none ∨
    (a.fContinuation = b.fContinuation ∧ a.szContinuationKey = b.szContinuationKey))

/-! ## A full combo collection -/

/-- The style that `n` accepted entries `1+1+1: A` under `[combinations]`
leave when the per-folder loader stores them one after the other in a freshly
allocated style. -/
def filledStyle (n : Nat) : InterpretationStyle :=
  Nat.iterate (fun s => aisStore sampleHeader 5 s "1+1+1".toList "A".toList) n (newStyle [])

/-- A style whose combo collection is full: 2000 entries in a capacity of
2000, and no aspect combination. -/
def fullComboStyle : InterpretationStyle :=
  { newStyle [] with combos := List.replicate 2000 (entry "1+1+1" "A"), comboAlloc := 2000 }

/-! ## Invariants of the style store -/

/-- Every entry of a collection holds a key and a value. -/
def AllSet (l : List InterpretationCombo) : Prop :=
  ∀ e ∈ l, ∃ k v : Sz, e = { key := some k, value := some v }

/-- The invariant of the style store: each count is at most its capacity, and
every entry below a count holds a key and a value. -/
def StoreInvariant (s : InterpretationStyle) : Prop :=
  s.comboCount ≤ s.comboAlloc ∧ s.aspectComboCount ≤ s.aspectComboAlloc ∧
  AllSet s.combos ∧ AllSet s.aspectCombos

/-- A freshly allocated style: both collections empty with capacity 0. -/
def FreshStore (s : InterpretationStyle) : Prop :=
  s.combos = [] ∧ s.comboAlloc = 0 ∧ s.aspectCombos = [] ∧ s.aspectComboAlloc = 0

/-- The position of a key in the fallback chain of the combo query: it is one
of the four keys the query builds, and no key tried before it is present in
the collection. -/
def FirstInComboChain (k : Sz) (l : List InterpretationCombo) (obj sign house : Int) : Prop :=
  k = keyDDD obj sign house ∨
  (k = keyDDS obj sign ∧ ¬ hasKey (keyDDD obj sign house) l) ∨
  (k = keyDSD obj house ∧ ¬ hasKey (keyDDD obj sign house) l ∧ ¬ hasKey (keyDDS obj sign) l) ∨
  (k = keySDS sign ∧ ¬ hasKey (keyDDD obj sign house) l ∧ ¬ hasKey (keyDDS obj sign) l ∧
    ¬ hasKey (keyDSD obj house) l)

/-- The position of a key in the fallback chain of the aspect-combo query. -/
def FirstInAspectChain (k : Sz) (l : List InterpretationCombo) (obj1 obj2 asp : Int) : Prop :=
  k = keyDDD obj1 obj2 asp ∨
  (k = keyDDS obj1 obj2 ∧ ¬ hasKey (keyDDD obj1 obj2 asp) l) ∨
  (k = keySSD asp ∧ ¬ hasKey (keyDDD obj1 obj2 asp) l ∧ ¬ hasKey (keyDDS obj1 obj2) l)

/-! ## Lemmas on the scan -/

theorem scanCombos_eq_lowest (k : Sz) (l : List InterpretationCombo) :
    scanCombos k l = (lowestWithKey k l).map (fun e => e.value) := by
  induction l with
  | nil => rfl
  | cons e es ih =>
    cases hk : e.key with
    | none => simp [scanCombos, lowestWithKey, hk, List.find?] at ih ⊢; exact ih
    | some k' =>
      by_cases hkk : k' = k
      · simp [scanCombos, lowestWithKey, hk, hkk, FEqSz, List.find?]
      · simp [scanCombos, lowestWithKey, hk, hkk, FEqSz, List.find?] at ih ⊢; exact ih

theorem lowestWithKey_eq_none (k : Sz) (l : List InterpretationCombo) :
    lowestWithKey k l = none ↔ ¬ hasKey k l := by
  simp [lowestWithKey, hasKey, List.find?_eq_none]

theorem lowestWithKey_some_mem {k : Sz} {l : List InterpretationCombo}
    {e : InterpretationCombo} (h : lowestWithKey k l = some e) : e ∈ l ∧ e.key = some k := by
  unfold lowestWithKey at h
  have h1 := List.find?_some h
  have h2 := List.mem_of_find?_eq_some h
  exact ⟨h2, by simpa using h1⟩

/-- The lowest-index reading of `lowestWithKey`: it yields `e` exactly when
`e` sits at some index `i`, is keyed `k`, and no entry below `i` is keyed
`k`. -/
theorem lowestWithKey_eq_some_iff (k : Sz) (l : List InterpretationCombo)
    (e : InterpretationCombo) :
    lowestWithKey k l = some e ↔
      ∃ i : Nat, l[i]? = some e ∧ e.key = some k ∧
        ∀ j : Nat, j < i → ∀ e' : InterpretationCombo, l[j]? = some e' → e'.key ≠ some k := by
  induction l with
  | nil => simp [lowestWithKey]
  | cons a as ih =>
    by_cases ha : a.key = some k
    · constructor
      · intro h
        have : a = e := by simpa [lowestWithKey, List.find?, ha] using h
        subst this
        exact ⟨0, by simp, ha, by intro j hj; omega⟩
      · rintro ⟨i, hi, hek, hlow⟩
        cases i with
        | zero =>
          have : a = e := by simpa using hi
          subst this
          simp [lowestWithKey, List.find?, ha]
        | succ i => exact absurd ha (hlow 0 (by omega) a (by simp))
    · have hstep : lowestWithKey k (a :: as) = lowestWithKey k as := by
        simp [lowestWithKey, List.find?, ha]
      rw [hstep, ih]
      constructor
      · rintro ⟨i, hi, hek, hlow⟩
        refine ⟨i + 1, by simpa using hi, hek, ?_⟩
        intro j hj e' he'
        cases j with
        | zero =>
          have : a = e' := by simpa using he'
          subst this
          exact ha
        | succ j => exact hlow j (by omega) e' (by simpa using he')
      · rintro ⟨i, hi, hek, hlow⟩
        cases i with
        | zero =>
          have : a = e := by simpa using hi
          subst this
          exact absurd hek ha
        | succ i =>
          refine ⟨i, by simpa using hi, hek, ?_⟩
          intro j hj e' he'
          exact hlow (j + 1) (by omega) e' (by simpa using he')

theorem currentStyle?_eq_some {im : InterpretationManager} {style : InterpretationStyle}
    (h0 : 0 ≤ im.currentStyle) (h1 : im.currentStyle < im.styleCount)
    (hs : im.style im.currentStyle = some style) (hl : style.fLoaded = true) :
    currentStyle? im = some style := by
  have hn : ¬ (im.currentStyle < 0 ∨ im.currentStyle ≥ im.styleCount) := by omega
  simp [currentStyle?, hn, hs, hl]

theorem currentStyle?_eq_none {im : InterpretationManager}
    (h : im.currentStyle < 0 ∨ im.styleCount ≤ im.currentStyle ∨
      im.style im.currentStyle = none ∨
      ∃ s, im.style im.currentStyle = some s ∧ s.fLoaded = false) :
    currentStyle? im = none := by
  unfold currentStyle?
  split
  · rfl
  · rename_i hn
    rcases h with h | h | h | ⟨s, hs, hl⟩
    · exact absurd (Or.inl h) hn
    · exact absurd (Or.inr h) hn
    · simp [h]
    · simp [hs, hl]

theorem SzGetComboInterpretation_of_style {im : InterpretationManager}
    {style : InterpretationStyle} (h : currentStyle? im = some style) (obj sign house : Int) :
    SzGetComboInterpretation im obj sign house = comboFallback style obj sign house := by
  simp only [SzGetComboInterpretation, h, comboFallback, scanCombos_eq_lowest]
  cases lowestWithKey (keyDDD obj sign house) style.combos <;>
  cases lowestWithKey (keyDDS obj sign) style.combos <;>
  cases lowestWithKey (keyDSD obj house) style.combos <;>
  cases lowestWithKey (keySDS sign) style.combos <;> rfl

theorem SzGetAspectComboInterpretation_of_style {im : InterpretationManager}
    {style : InterpretationStyle} (h : currentStyle? im = some style) (obj1 obj2 asp : Int) :
    SzGetAspectComboInterpretation im obj1 obj2 asp =
      aspectComboFallback style obj1 obj2 asp := by
  simp only [SzGetAspectComboInterpretation, h, aspectComboFallback, scanCombos_eq_lowest]
  cases lowestWithKey (keyDDD obj1 obj2 asp) style.aspectCombos <;>
  cases lowestWithKey (keyDDS obj1 obj2) style.aspectCombos <;>
  cases lowestWithKey (keySSD asp) style.aspectCombos <;> rfl

theorem lowestWithKey_eq_head_filter (k : Sz) (l : List InterpretationCombo) :
    lowestWithKey k l = (l.filter (fun e => decide (e.key = some k))).head? := by
  induction l with
  | nil => rfl
  | cons a as ih =>
    by_cases ha : a.key = some k
    · simp [lowestWithKey, List.find?, List.filter, ha]
    · simp [lowestWithKey, List.find?, List.filter, ha] at ih ⊢

theorem lowestWithKey_congr {l l' : List InterpretationCombo} (h : KeepsKeyOrder l l')
    (k : Sz) : lowestWithKey k l' = lowestWithKey k l := by
  rw [lowestWithKey_eq_head_filter, lowestWithKey_eq_head_filter, h.2 (some k)]

theorem comboFallback_congr {s : InterpretationStyle} {l' : List InterpretationCombo}
    (h : KeepsKeyOrder s.combos l') (obj sign house : Int) :
    comboFallback { s with combos := l' } obj sign house = comboFallback s obj sign house := by
  simp only [comboFallback, lowestWithKey_congr h]

/-! ## The combo query (C1, C3, C4) -/

/-- C1: `SzGetComboInterpretation` returns no result when the current-style
index is outside `[0, styleCount)` or the current style is absent or not
loaded.  Otherwise it returns the value of the lowest-index entry keyed with
the decimal text `obj+sign+house`, failing that of the one keyed `obj+sign+*`,
failing that `obj+*+house`, failing that `*+sign+*`, failing that the style's
`defaultLocation`; and, every stored entry holding a value, it returns no
result exactly when none of the four keys is present and `defaultLocation` is
unset.  The last part spells out "lowest-index entry keyed `k`": the entry at
an index `i` with that key such that no entry below `i` has it. -/
theorem SzGetComboInterpretation_chain (im : InterpretationManager) (obj sign house : Int) :
    ((im.currentStyle < 0 ∨ im.styleCount ≤ im.currentStyle ∨
        im.style im.currentStyle = none ∨
        ∃ s, im.style im.currentStyle = some s ∧ s.fLoaded = false) →
      SzGetComboInterpretation im obj sign house = none) ∧
    (∀ style : InterpretationStyle,
      0 ≤ im.currentStyle → im.currentStyle < im.styleCount →
      im.style im.currentStyle = some style → style.fLoaded = true →
      SzGetComboInterpretation im obj sign house = comboFallback style obj sign house ∧
      ((∀ e ∈ style.combos, e.value ≠ none) →
        (SzGetComboInterpretation im obj sign house = none ↔
          ¬ hasKey (keyDDD obj sign house) style.combos ∧
          ¬ hasKey (keyDDS obj sign) style.combos ∧
          ¬ hasKey (keyDSD obj house) style.combos ∧
          ¬ hasKey (keySDS sign) style.combos ∧
          style.defaultLocation = none))) ∧
    (∀ (k : Sz) (l : List InterpretationCombo) (e : InterpretationCombo),
      lowestWithKey k l = some e ↔
        ∃ i : Nat, l[i]? = some e ∧ e.key = some k ∧
          ∀ j : Nat, j < i → ∀ e' : InterpretationCombo, l[j]? = some e' → e'.key ≠ some k) := by
  refine ⟨fun h => ?_, fun style h0 h1 hs hl => ?_, lowestWithKey_eq_some_iff⟩
  · simp [SzGetComboInterpretation, currentStyle?_eq_none h]
  · have hcur := currentStyle?_eq_some h0 h1 hs hl
    refine ⟨SzGetComboInterpretation_of_style hcur obj sign house, fun hval => ?_⟩
    rw [SzGetComboInterpretation_of_style hcur]
    simp only [← lowestWithKey_eq_none]
    unfold comboFallback
    have key : ∀ k e, lowestWithKey k style.combos = some e → e.value ≠ none :=
      fun k e he => hval e (lowestWithKey_some_mem he).1
    cases h1 : lowestWithKey (keyDDD obj sign house) style.combos with
    | some e => simpa using key _ e h1
    | none =>
      cases h2 : lowestWithKey (keyDDS obj sign) style.combos with
      | some e => simpa using key _ e h2
      | none =>
        cases h3 : lowestWithKey (keyDSD obj house) style.combos with
        | some e => simpa using key _ e h3
        | none =>
          cases h4 : lowestWithKey (keySDS sign) style.combos with
          | some e => simpa using key _ e h4
          | none => simp

/-- C1 at a concrete registry: with the entries `0+*+2: C` and `0+1+*: B`,
the query (0, 1, 2) gives `B`, and the keys read as decimal text. -/
theorem SzGetComboInterpretation_chain_witness :
    SzGetComboInterpretation (registryOf (styleOf [entry "0+*+2" "C", entry "0+1+*" "B"] []))
        0 1 2 = some "B".toList ∧
      keyDDD 0 1 2 = "0+1+2".toList ∧ keyDDD (-7) 10 120 = "-7+10+120".toList :=
  ⟨(((SzGetComboInterpretation_chain
      (registryOf (styleOf [entry "0+*+2" "C", entry "0+1+*" "B"] [])) 0 1 2).2.1
      (styleOf [entry "0+*+2" "C", entry "0+1+*" "B"] [])
      (by decide) (by decide) rfl rfl).1).trans (by decide), by decide, by decide⟩

/-- C3: with a loaded current style, `SzGetAspectComboInterpretation` returns
the value of the lowest-index aspect-combo entry keyed `obj1+obj2+asp`,
failing that of the one keyed `obj1+obj2+*`, failing that `*+*+asp`, and
otherwise no result, whatever `defaultAspect` and `defaultLocation` hold.
With the aspect-combos `{"0+4+*": "X"}` alone, the query (0,4,1) gives `X` and
the query (0,5,1) gives no result. -/
theorem SzGetAspectComboInterpretation_chain (im : InterpretationManager)
    (style : InterpretationStyle) (obj1 obj2 asp : Int)
    (h0 : 0 ≤ im.currentStyle) (h1 : im.currentStyle < im.styleCount)
    (hs : im.style im.currentStyle = some style) (hl : style.fLoaded = true) :
    SzGetAspectComboInterpretation im obj1 obj2 asp =
        aspectComboFallback style obj1 obj2 asp ∧
      (¬ hasKey (keyDDD obj1 obj2 asp) style.aspectCombos →
        ¬ hasKey (keyDDS obj1 obj2) style.aspectCombos →
        ¬ hasKey (keySSD asp) style.aspectCombos →
        SzGetAspectComboInterpretation im obj1 obj2 asp = none) ∧
      (style.aspectCombos = [entry "0+4+*" "X"] →
        SzGetAspectComboInterpretation im 0 4 1 = some "X".toList ∧
        SzGetAspectComboInterpretation im 0 5 1 = none) := by
  have hcur := currentStyle?_eq_some h0 h1 hs hl
  refine ⟨SzGetAspectComboInterpretation_of_style hcur _ _ _, ?_, ?_⟩
  · intro n1 n2 n3
    rw [SzGetAspectComboInterpretation_of_style hcur]
    rw [← lowestWithKey_eq_none] at n1 n2 n3
    simp [aspectComboFallback, n1, n2, n3]
  · intro hc
    rw [SzGetAspectComboInterpretation_of_style hcur,
      SzGetAspectComboInterpretation_of_style hcur]
    simp only [aspectComboFallback, hc]
    decide

/-- C3 at a concrete registry whose style also sets both default texts. -/
theorem SzGetAspectComboInterpretation_chain_witness :
    SzGetAspectComboInterpretation
        (registryOf { styleOf [] [entry "0+4+*" "X"] with
          defaultAspect := some "d".toList, defaultLocation := some "l".toList }) 0 4 1
        = some "X".toList ∧
      SzGetAspectComboInterpretation
        (registryOf { styleOf [] [entry "0+4+*" "X"] with
          defaultAspect := some "d".toList, defaultLocation := some "l".toList }) 0 5 1
        = none :=
  (SzGetAspectComboInterpretation_chain
    (registryOf { styleOf [] [entry "0+4+*" "X"] with
      defaultAspect := some "d".toList, defaultLocation := some "l".toList })
    { styleOf [] [entry "0+4+*" "X"] with
      defaultAspect := some "d".toList, defaultLocation := some "l".toList }
    0 4 1 (by decide) (by decide) rfl rfl).2.2 rfl

/-- C4: for a loaded current style, the result of `SzGetComboInterpretation`
is unchanged by any reordering of the combo collection that keeps the
relative order of the entries having equal keys.  An entry keyed
`obj+sign+house` decides the result wherever it sits; when there is none, an
entry keyed `obj+sign+*` does, whatever else the collection holds.  With the
combos `{"0+1+1": "A"}` and `{"0+1+*": "B"}` in either order, the query
(0,1,1) gives `A` and the query (0,1,2) gives `B`. -/
theorem SzGetComboInterpretation_reorder (im : InterpretationManager)
    (style : InterpretationStyle) (l' : List InterpretationCombo) (obj sign house : Int)
    (h0 : 0 ≤ im.currentStyle) (h1 : im.currentStyle < im.styleCount)
    (hs : im.style im.currentStyle = some style) (hl : style.fLoaded = true)
    (hord : KeepsKeyOrder style.combos l') :
    SzGetComboInterpretation (withCurrentCombos im l') obj sign house =
        SzGetComboInterpretation im obj sign house ∧
      (∀ e, lowestWithKey (keyDDD obj sign house) style.combos = some e →
        SzGetComboInterpretation im obj sign house = e.value) ∧
      (¬ hasKey (keyDDD obj sign house) style.combos →
        ∀ e, lowestWithKey (keyDDS obj sign) style.combos = some e →
        SzGetComboInterpretation im obj sign house = e.value) ∧
      ((style.combos = [entry "0+1+1" "A", entry "0+1+*" "B"] ∨
          style.combos = [entry "0+1+*" "B", entry "0+1+1" "A"]) →
        SzGetComboInterpretation im 0 1 1 = some "A".toList ∧
        SzGetComboInterpretation im 0 1 2 = some "B".toList) := by
  have hcur := currentStyle?_eq_some h0 h1 hs hl
  have hcur' : currentStyle? (withCurrentCombos im l') = some { style with combos := l' } := by
    apply @currentStyle?_eq_some (withCurrentCombos im l') _ h0 h1
    · simp [withCurrentCombos, hs]
    · exact hl
  refine ⟨?_, ?_, ?_, ?_⟩
  · rw [SzGetComboInterpretation_of_style hcur', SzGetComboInterpretation_of_style hcur,
      comboFallback_congr hord]
  · intro e he
    rw [SzGetComboInterpretation_of_style hcur]
    simp [comboFallback, he]
  · intro hn e he
    rw [← lowestWithKey_eq_none] at hn
    rw [SzGetComboInterpretation_of_style hcur]
    simp [comboFallback, hn, he]
  · intro hc
    rw [SzGetComboInterpretation_of_style hcur, SzGetComboInterpretation_of_style hcur]
    rcases hc with hc | hc
    · have e1 : lowestWithKey (keyDDD 0 1 1) [entry "0+1+1" "A", entry "0+1+*" "B"] =
          some (entry "0+1+1" "A") := by decide
      have e2 : lowestWithKey (keyDDD 0 1 2) [entry "0+1+1" "A", entry "0+1+*" "B"] =
          none := by decide
      have e3 : lowestWithKey (keyDDS 0 1) [entry "0+1+1" "A", entry "0+1+*" "B"] =
          some (entry "0+1+*" "B") := by decide
      simp only [comboFallback, hc, e1, e2, e3]
      exact ⟨rfl, rfl⟩
    · have e1 : lowestWithKey (keyDDD 0 1 1) [entry "0+1+*" "B", entry "0+1+1" "A"] =
          some (entry "0+1+1" "A") := by decide
      have e2 : lowestWithKey (keyDDD 0 1 2) [entry "0+1+*" "B", entry "0+1+1" "A"] =
          none := by decide
      have e3 : lowestWithKey (keyDDS 0 1) [entry "0+1+*" "B", entry "0+1+1" "A"] =
          some (entry "0+1+*" "B") := by decide
      simp only [comboFallback, hc, e1, e2, e3]
      exact ⟨rfl, rfl⟩

/-- C4 at a concrete registry: the wildcarded entry inserted first, the two
entries then swapped. -/
theorem SzGetComboInterpretation_reorder_witness :
    SzGetComboInterpretation
        (withCurrentCombos (registryOf (styleOf [entry "*+1+*" "W", entry "0+1+*" "B"] []))
          [entry "0+1+*" "B", entry "*+1+*" "W"]) 0 1 2 =
      SzGetComboInterpretation
        (registryOf (styleOf [entry "*+1+*" "W", entry "0+1+*" "B"] [])) 0 1 2 ∧
    SzGetComboInterpretation
        (registryOf (styleOf [entry "*+1+*" "W", entry "0+1+*" "B"] [])) 0 1 2 =
      some "B".toList :=
  ⟨(SzGetComboInterpretation_reorder
      (registryOf (styleOf [entry "*+1+*" "W", entry "0+1+*" "B"] []))
      (styleOf [entry "*+1+*" "W", entry "0+1+*" "B"] [])
      [entry "0+1+*" "B", entry "*+1+*" "W"] 0 1 2
      (by decide) (by decide) rfl rfl
      ⟨by decide, fun k => by
        by_cases h1 : k = some "*+1+*".toList
        · subst h1; decide
        · by_cases h2 : k = some "0+1+*".toList
          · subst h2; decide
          · have d1 : decide ((entry "*+1+*" "W").key = k) = false :=
              decide_eq_false (fun h => h1 h.symm)
            have d2 : decide ((entry "0+1+*" "B").key = k) = false :=
              decide_eq_false (fun h => h2 h.symm)
            simp only [List.filter, d1, d2]⟩).1,
   by decide⟩

/-! ## The line parser (C9) -/

theorem cutComment_eq (s : Sz) : cutComment s = cutAtComment s := by
  induction s with
  | nil => rfl
  | cons c cs ih =>
    by_cases h : c = '#' ∨ c = ';'
    · rcases h with h | h <;> simp [cutComment, cutAtComment, List.takeWhile, h]
    · have h1 : c ≠ '#' := fun e => h (Or.inl e)
      have h2 : c ≠ ';' := fun e => h (Or.inr e)
      simp only [cutComment, h, if_false, ih]
      simp [cutAtComment, List.takeWhile, h1, h2]

theorem skipBlank_eq (s : Sz) : skipBlank s = s.dropWhile isWhite := by
  induction s with
  | nil => rfl
  | cons c cs ih =>
    by_cases h : c = ' ' ∨ c = '\t' ∨ c = '\r' ∨ c = '\n'
    · have hw : isWhite c = true := by
        simp only [isWhite, Bool.or_eq_true, decide_eq_true_eq]; tauto
      simp only [skipBlank, h, if_true, ih, List.dropWhile_cons_of_pos hw]
    · have hw : ¬ isWhite c = true := by
        simp only [isWhite, Bool.or_eq_true, decide_eq_true_eq]; tauto
      simp only [skipBlank, h, if_false, List.dropWhile_cons_of_neg hw]

theorem skipBlank3_eq (s : Sz) : skipBlank3 s = s.dropWhile keyTail := by
  induction s with
  | nil => rfl
  | cons c cs ih =>
    by_cases h : c = ' ' ∨ c = '\t' ∨ c = '\r'
    · have hw : keyTail c = true := by
        simp only [keyTail, Bool.or_eq_true, decide_eq_true_eq]; tauto
      simp only [skipBlank3, h, if_true, ih, List.dropWhile_cons_of_pos hw]
    · have hw : ¬ keyTail c = true := by
        simp only [keyTail, Bool.or_eq_true, decide_eq_true_eq]; tauto
      simp only [skipBlank3, h, if_false, List.dropWhile_cons_of_neg hw]

theorem splitColon_some {s k v : Sz} (h : splitColon s = some (k, v)) :
    k = beforeColon s ∧ v = afterColon s ∧ s = k ++ ':' :: v ∧ ':' ∉ k := by
  induction s generalizing k v with
  | nil => simp [splitColon] at h
  | cons c cs ih =>
    by_cases hc : c = ':'
    · subst hc
      simp only [splitColon, if_true, Option.some.injEq, Prod.mk.injEq] at h
      obtain ⟨rfl, rfl⟩ := h
      simp [beforeColon, afterColon, List.takeWhile, List.dropWhile]
    · simp only [splitColon, hc, if_false] at h
      cases hr : splitColon cs with
      | none => simp [hr] at h
      | some kv =>
        obtain ⟨k', v'⟩ := kv
        simp only [hr, Option.some.injEq, Prod.mk.injEq] at h
        obtain ⟨rfl, rfl⟩ := h
        obtain ⟨h1, h2, h3, h4⟩ := ih hr
        refine ⟨?_, ?_, ?_, ?_⟩
        · simp [beforeColon, List.takeWhile, hc] at h1 ⊢; exact h1
        · simp [afterColon, List.dropWhile, hc] at h2 ⊢; exact h2
        · simp [← h3]
        · simp only [List.mem_cons, not_or]
          exact ⟨fun e => hc e.symm, h4⟩

theorem trimEnd_initial (P : Char → Bool) (s : Sz) : trimEnd P s <+: s := by
  unfold trimEnd
  have := List.dropWhile_suffix (l := s.reverse) P
  rw [← List.reverse_prefix] at this
  simpa using this

theorem trimEnd_getLast? (P : Char → Bool) (s : Sz) (c : Char)
    (h : (trimEnd P s).getLast? = some c) : P c = false := by
  unfold trimEnd at h
  rw [List.getLast?_reverse] at h
  have := List.head?_dropWhile_not P s.reverse
  rw [h] at this
  exact this

theorem head?_of_initial {a b : Sz} (h : a <+: b) (c : Char) (hc : a.head? = some c) :
    b.head? = some c := by
  obtain ⟨t, rfl⟩ := h
  cases a with
  | nil => simp at hc
  | cons x xs => simpa using hc

theorem dropWhile_head?_not (P : Char → Bool) (s : Sz) (c : Char)
    (h : (s.dropWhile P).head? = some c) : P c = false := by
  have := List.head?_dropWhile_not P s
  rw [h] at this
  exact this

theorem dropWhile_eq_self_of_head (P : Char → Bool) (s : Sz)
    (h : ∀ c, s.head? = some c → P c = false) : s.dropWhile P = s := by
  cases s with
  | nil => rfl
  | cons x xs =>
    have := h x rfl
    simp [List.dropWhile, this]

theorem mem_of_initial {a b : Sz} (h : a <+: b) {c : Char} (hc : c ∈ a) : c ∈ b :=
  h.subset hc

theorem mem_of_final {a b : Sz} (h : a <:+ b) {c : Char} (hc : c ∈ a) : c ∈ b :=
  h.subset hc

theorem not_mem_cutAtComment (s : Sz) : '#' ∉ cutAtComment s ∧ ';' ∉ cutAtComment s := by
  constructor <;> intro h <;> have := List.mem_takeWhile_imp h <;> simp at this

/-- On a physical line the choice between the two leading sets does not show
in the value. -/
theorem value_uniform (a : Sz) (hnl : ∀ x y : Sz, a = x ++ '\n' :: y → y = []) :
    trimEnd valueTail (a.dropWhile keyTail) = trimEnd valueTail (a.dropWhile isWhite) := by
  induction a with
  | nil => rfl
  | cons c cs ih =>
    by_cases hk : keyTail c = true
    · have hw : isWhite c = true := by
        simp only [keyTail, isWhite, Bool.or_eq_true, decide_eq_true_eq] at hk ⊢
        tauto
      rw [List.dropWhile_cons_of_pos hk, List.dropWhile_cons_of_pos hw]
      apply ih
      intro x y hxy
      exact hnl (c :: x) y (by simp [hxy])
    · by_cases hn : c = '\n'
      · subst hn
        have hcs : cs = [] := hnl [] cs rfl
        subst hcs
        decide
      · have hw : ¬ isWhite c = true := by
          simp only [keyTail, isWhite, Bool.or_eq_true, decide_eq_true_eq] at hk ⊢
          tauto
        rw [List.dropWhile_cons_of_neg hk, List.dropWhile_cons_of_neg hw]

/-- C9: `ParseLine` reports content only if the line, cut at its first `#` or
`;` and stripped of leading white space, is non-empty, does not start with
`[` and contains a `:`.  The key is then the text before the first `:` of
that cut line with surrounding spaces, tabs and carriage returns removed, and
the value is the text after that `:` with leading spaces, tabs and carriage
returns and trailing white space and backslashes removed, which on a physical
line (a newline only as last character) is the text with surrounding white
space and trailing backslashes removed.  The key contains no `:`, neither
string contains `#` or `;`, and neither starts or ends with a space or
tab. -/
theorem ParseLine_content (sz key value : Sz) (h : ParseLine sz = some (key, value)) :
    (cutAtComment sz).dropWhile isWhite ≠ [] ∧
    ((cutAtComment sz).dropWhile isWhite).head? ≠ some '[' ∧
    ':' ∈ (cutAtComment sz).dropWhile isWhite ∧
    key = strip keyTail (beforeColon ((cutAtComment sz).dropWhile isWhite)) ∧
    value = trimEnd valueTail
      ((afterColon ((cutAtComment sz).dropWhile isWhite)).dropWhile keyTail) ∧
    (NewlineOnlyLast sz →
      value = trimEnd valueTail
        ((afterColon ((cutAtComment sz).dropWhile isWhite)).dropWhile isWhite)) ∧
    ':' ∉ key ∧ '#' ∉ key ∧ ';' ∉ key ∧ '#' ∉ value ∧ ';' ∉ value ∧
    key.head? ≠ some ' ' ∧ key.head? ≠ some '\t' ∧
    key.getLast? ≠ some ' ' ∧ key.getLast? ≠ some '\t' ∧
    value.head? ≠ some ' ' ∧ value.head? ≠ some '\t' ∧
    value.getLast? ≠ some ' ' ∧ value.getLast? ≠ some '\t' := by
  unfold ParseLine at h
  simp only [cutComment_eq, skipBlank_eq, skipBlank3_eq] at h
  generalize hbody : (cutAtComment sz).dropWhile isWhite = body at h ⊢
  cases body with
  | nil => simp at h
  | cons c cs =>
    simp only [] at h
    by_cases hc : c = '['
    · simp [hc] at h
    · simp only [hc, if_false] at h
      cases hsp : splitColon (c :: cs) with
      | none => simp [hsp] at h
      | some kv =>
        obtain ⟨k, v⟩ := kv
        simp only [hsp] at h
        by_cases hv : v.dropWhile keyTail = []
        · simp [hv] at h
        · simp only [hv, if_false, Option.some.injEq, Prod.mk.injEq] at h
          obtain ⟨hkey, hval⟩ := h
          obtain ⟨hk, hva, hcat, hkc⟩ := splitColon_some hsp
          -- membership facts
          have hbody_cut : (c :: cs) <:+ cutAtComment sz := by
            rw [← hbody]; exact List.dropWhile_suffix _
          have hk_body : k <+: (c :: cs) := ⟨':' :: v, hcat.symm⟩
          have hv_body : v <:+ (c :: cs) := ⟨k ++ [':'], by rw [hcat]; simp⟩
          have hkey_k : key <+: k := by rw [← hkey]; exact trimEnd_initial _ _
          have hv1_v : v.dropWhile keyTail <:+ v := List.dropWhile_suffix _
          have hval_v1 : value <+: v.dropWhile keyTail := by
            rw [← hval]; exact trimEnd_initial _ _
          have key_in_cut : ∀ x, x ∈ key → x ∈ cutAtComment sz := fun x hx =>
            mem_of_final hbody_cut (mem_of_initial hk_body (mem_of_initial hkey_k hx))
          have val_in_cut : ∀ x, x ∈ value → x ∈ cutAtComment sz := fun x hx =>
            mem_of_final hbody_cut (mem_of_final hv_body
              (mem_of_final hv1_v (mem_of_initial hval_v1 hx)))
          have hcut := not_mem_cutAtComment sz
          -- the head of the body is not white
          have hcw : isWhite c = false :=
            dropWhile_head?_not isWhite (cutAtComment sz) c (by rw [hbody]; rfl)
          have hck : keyTail c = false := by
            simp only [keyTail, isWhite, Bool.or_eq_false_iff, decide_eq_false_iff_not] at hcw ⊢
            tauto
          have hkhead : ∀ x, k.head? = some x → keyTail x = false := by
            intro x hx
            have := head?_of_initial hk_body x hx
            simp only [List.head?_cons, Option.some.injEq] at this
            rw [← this]; exact hck
          have hkeyhead : ∀ x, key.head? = some x → keyTail x = false := fun x hx =>
            hkhead x (head?_of_initial hkey_k x hx)
          have hkeylast : ∀ x, key.getLast? = some x → keyTail x = false := fun x hx =>
            trimEnd_getLast? keyTail k x (by rw [hkey]; exact hx)
          have hvalhead : ∀ x, value.head? = some x → keyTail x = false := fun x hx =>
            dropWhile_head?_not keyTail v x (head?_of_initial hval_v1 x hx)
          have hvallast : ∀ x, value.getLast? = some x → valueTail x = false := fun x hx =>
            trimEnd_getLast? valueTail _ x (by rw [hval]; exact hx)
          refine ⟨by simp, by simpa using hc, by rw [hcat]; simp, ?_, ?_, ?_,
            fun hm => hkc (mem_of_initial hkey_k hm),
            fun hm => hcut.1 (key_in_cut _ hm), fun hm => hcut.2 (key_in_cut _ hm),
            fun hm => hcut.1 (val_in_cut _ hm), fun hm => hcut.2 (val_in_cut _ hm),
            fun e => by simpa [keyTail] using hkeyhead _ e,
            fun e => by simpa [keyTail] using hkeyhead _ e,
            fun e => by simpa [keyTail] using hkeylast _ e,
            fun e => by simpa [keyTail] using hkeylast _ e,
            fun e => by simpa [keyTail] using hvalhead _ e,
            fun e => by simpa [keyTail] using hvalhead _ e,
            fun e => by simpa [valueTail] using hvallast _ e,
            fun e => by simpa [valueTail] using hvallast _ e⟩
          · rw [← hkey, hk.symm, strip, dropWhile_eq_self_of_head keyTail k hkhead]
          · rw [← hval, hva]
          · intro hline
            rw [← hval, ← hva]
            apply value_uniform
            intro x y hxy
            -- the value part is a suffix of a prefix of the line
            obtain ⟨pre, hpre⟩ := hbody_cut
            obtain ⟨rest, hrest⟩ : ∃ rest, sz = cutAtComment sz ++ rest :=
              ⟨_, (List.takeWhile_append_dropWhile _ sz).symm⟩
            rw [← hpre, hcat, hxy] at hrest
            have : y ++ rest = [] :=
              hline (pre ++ k ++ ':' :: x) (y ++ rest) (hrest.trans (by simp))
            exact (List.append_eq_nil.mp this).1

/-- C9 at the line `  name : Modern  # c`: the key is `name` and the value
`Modern`. -/
theorem ParseLine_content_witness :
    ParseLine "  name : Modern  # c".toList = some ("name".toList, "Modern".toList) ∧
      ':' ∉ "name".toList :=
  ⟨by decide,
    (ParseLine_content "  name : Modern  # c".toList "name".toList "Modern".toList
      (by decide)).2.2.2.2.2.2.1⟩

/-! ## The key codec (C7, C8) -/

theorem splitPlus_some {s f r : Sz} (h : splitPlus s = some (f, r)) :
    s = f ++ '+' :: r ∧ '+' ∉ f := by
  induction s generalizing f r with
  | nil => simp [splitPlus] at h
  | cons c cs ih =>
    by_cases hc : c = '+'
    · subst hc
      simp only [splitPlus, if_true, Option.some.injEq, Prod.mk.injEq] at h
      obtain ⟨rfl, rfl⟩ := h
      simp
    · simp only [splitPlus, hc, if_false] at h
      cases hr : splitPlus cs with
      | none => simp [hr] at h
      | some fr =>
        obtain ⟨f', r'⟩ := fr
        simp only [hr, Option.some.injEq, Prod.mk.injEq] at h
        obtain ⟨rfl, rfl⟩ := h
        obtain ⟨h1, h2⟩ := ih hr
        refine ⟨by simp [← h1], ?_⟩
        simp only [List.mem_cons, not_or]
        exact ⟨fun e => hc e.symm, h2⟩

theorem splitPlus_append {f : Sz} (r : Sz) (hf : '+' ∉ f) :
    splitPlus (f ++ '+' :: r) = some (f, r) := by
  induction f with
  | nil => simp [splitPlus]
  | cons c cs ih =>
    simp only [List.mem_cons, not_or] at hf
    have hc : ¬ c = '+' := fun e => hf.1 e.symm
    simp [splitPlus, hc, ih hf.2]

theorem findName_some {table : Nat → Sz} {sz : Sz} {start n i : Nat}
    (h : findName table sz start n = some i) :
    start ≤ i ∧ i < start + n ∧ FEqSzI sz (table i) = true := by
  induction n generalizing start with
  | zero => simp [findName] at h
  | succ n ih =>
    by_cases he : FEqSzI sz (table start) = true
    · simp only [findName, he, if_true, Option.some.injEq] at h
      subst h
      exact ⟨le_refl _, by omega, he⟩
    · simp only [findName, he] at h
      obtain ⟨h1, h2, h3⟩ := ih h
      exact ⟨by omega, by omega, h3⟩

theorem isDigit_not_special {d : Char} (h : isDigit d = true) :
    isspace d = false ∧ d ≠ '-' ∧ d ≠ '+' ∧ d ≠ '*' := by
  refine ⟨?_, ?_, ?_, ?_⟩
  · cases hs : isspace d with
    | false => rfl
    | true =>
      simp only [isspace, Bool.or_eq_true, decide_eq_true_eq] at hs
      rcases hs with ((((hs | hs) | hs) | hs) | hs) | hs <;> subst hs <;>
        exact absurd h (by decide)
  · rintro rfl; exact absurd h (by decide)
  · rintro rfl; exact absurd h (by decide)
  · rintro rfl; exact absurd h (by decide)

theorem toInt32_of_range {z : Int} (h1 : -2147483648 ≤ z) (h2 : z < 2147483648) :
    toInt32 z = z := by
  unfold toInt32
  omega

theorem toInt32_range (z : Int) : -2147483648 ≤ toInt32 z ∧ toInt32 z < 2147483648 := by
  unfold toInt32
  omega

theorem cIntOf_small {n : Nat} (hn : n < 2147483648) : cIntOf false n = (n : Int) := by
  have e : strtolValue false n = (n : Int) := by
    simp only [strtolValue, Bool.false_eq_true, if_false]
    omega
  unfold cIntOf
  rw [e]
  exact toInt32_of_range (by omega) (by omega)

theorem cIntOf_range (negative : Bool) (n : Nat) :
    -2147483648 ≤ cIntOf negative n ∧ cIntOf negative n < 2147483648 :=
  toInt32_range _

theorem NFromSz_of_firstDigit {s : Sz} (h : firstDigit s = true) :
    NFromSz s = cIntOf false (atoiDigits s 0) := by
  cases s with
  | nil => simp [firstDigit] at h
  | cons d cs =>
    simp only [firstDigit] at h
    obtain ⟨h1, h2, h3, _⟩ := isDigit_not_special h
    unfold NFromSz
    have hd : (d :: cs).dropWhile isspace = d :: cs := by
      simp [List.dropWhile, h1]
    rw [hd]
    split
    · rename_i r heq
      simp only [List.cons.injEq] at heq
      exact absurd heq.1 h2
    · rename_i r heq
      simp only [List.cons.injEq] at heq
      exact absurd heq.1 h3
    · rfl

/-- An object field read from a name is an index of the name table; read
from digits it is a C `int`. -/
theorem parseObjField_range {h : Header} {s : Sz} {o : Int}
    (hp : parseObjField h s = some o) :
    (firstDigit s = true ∧ o = NFromSz s) ∨ (firstDigit s = false ∧ 0 ≤ o) := by
  unfold parseObjField at hp
  by_cases hd : firstDigit s = true
  · rw [if_pos hd] at hp
    cases hp
    exact Or.inl ⟨hd, rfl⟩
  · rw [if_neg hd] at hp
    cases hf : findName h.szObjName s 0 h.objMax with
    | none => simp [hf] at hp
    | some i =>
      rw [hf] at hp
      cases hp
      exact Or.inr ⟨by simpa using hd, Int.ofNat_nonneg _⟩

/-- The test `!FValidObj(obj) && obj != -1` lets through the valid ids and
`-1`. -/
theorem passes_check_iff {h : Header} {o : Int} :
    ¬ ((!h.FValidObj o && o != -1) = true) ↔ (h.FValidObj o = true ∨ o = -1) := by
  cases hv : h.FValidObj o <;> simp

theorem validObj_of_check {h : Header} {o : Int} (h0 : 0 ≤ o)
    (hc : ¬ ((!h.FValidObj o && o != -1) = true)) : h.FValidObj o = true := by
  cases hv : h.FValidObj o with
  | true => rfl
  | false =>
    exfalso
    apply hc
    have : o ≠ -1 := by omega
    simp [hv, this]

theorem check_of_validObj {h : Header} {o : Int} (hv : h.FValidObj o = true) :
    ¬ ((!h.FValidObj o && o != -1) = true) := by
  simp [hv]

/-- What `FParseComboKey` accepts, field by field. -/
theorem FParseComboKey_eq_some (h : Header) (szKey : Sz) (obj sign house : Int) :
    FParseComboKey h szKey = some (obj, sign, house) ↔
      ∃ f1 r1 f2 r2, splitPlus (szKey.take (h.cchSzMax - 1)) = some (f1, r1) ∧
        parseObjField h f1 = some obj ∧ (h.FValidObj obj = true ∨ obj = -1) ∧
        splitPlus r1 = some (f2, r2) ∧
        parseSignField h f2 = some sign ∧ parseHouseField r2 = some house := by
  constructor
  · intro hk
    unfold FParseComboKey at hk
    cases h1 : splitPlus (List.take (h.cchSzMax - 1) szKey) with
    | none => simp [h1] at hk
    | some fr =>
      obtain ⟨f1, r1⟩ := fr
      simp only [h1] at hk
      cases h2 : parseObjField h f1 with
      | none => simp [h2] at hk
      | some o =>
        simp only [h2] at hk
        by_cases h3 : (!h.FValidObj o && o != -1) = true
        · rw [if_pos h3] at hk; cases hk
        · rw [if_neg h3] at hk
          have hov := passes_check_iff.mp h3
          cases h4 : splitPlus r1 with
          | none => simp [h4] at hk
          | some fr2 =>
            obtain ⟨f2, r2⟩ := fr2
            simp only [h4] at hk
            cases h5 : parseSignField h f2 with
            | none => simp [h5] at hk
            | some sg =>
              simp only [h5] at hk
              cases h6 : parseHouseField r2 with
              | none => simp [h6] at hk
              | some ho =>
                simp only [h6, Option.some.injEq, Prod.mk.injEq] at hk
                obtain ⟨rfl, rfl, rfl⟩ := hk
                exact ⟨f1, r1, f2, r2, rfl, h2, hov, h4, h5, h6⟩
  · rintro ⟨f1, r1, f2, r2, h1, h2, h3, h4, h5, h6⟩
    unfold FParseComboKey
    simp only [h1, h2, h4, h5, h6]
    rw [if_neg (passes_check_iff.mpr h3)]

/-- What `FParseAspectComboKey` accepts, field by field. -/
theorem FParseAspectComboKey_eq_some (h : Header) (szKey : Sz) (obj1 obj2 asp : Int) :
    FParseAspectComboKey h szKey = some (obj1, obj2, asp) ↔
      ∃ f1 r1 f2 r2, splitPlus (szKey.take (h.cchSzMax - 1)) = some (f1, r1) ∧
        parseObjField h f1 = some obj1 ∧ (h.FValidObj obj1 = true ∨ obj1 = -1) ∧
        splitPlus r1 = some (f2, r2) ∧
        parseObj2Field h f2 = some obj2 ∧ (obj2 = -1 ∨ h.FValidObj obj2 = true) ∧
        NParseAspectKey h r2 = asp ∧ 0 ≤ asp := by
  constructor
  · intro hk
    unfold FParseAspectComboKey at hk
    cases h1 : splitPlus (List.take (h.cchSzMax - 1) szKey) with
    | none => simp [h1] at hk
    | some fr =>
      obtain ⟨f1, r1⟩ := fr
      simp only [h1] at hk
      cases h2 : parseObjField h f1 with
      | none => simp [h2] at hk
      | some o =>
        simp only [h2] at hk
        by_cases h3 : (!h.FValidObj o && o != -1) = true
        · rw [if_pos h3] at hk; cases hk
        · rw [if_neg h3] at hk
          have hov := passes_check_iff.mp h3
          cases h4 : splitPlus r1 with
          | none => simp [h4] at hk
          | some fr2 =>
            obtain ⟨f2, r2⟩ := fr2
            simp only [h4] at hk
            cases h5 : parseObj2Field h f2 with
            | none => simp [h5] at hk
            | some o2 =>
              simp only [h5] at hk
              by_cases h6 : (!h.FValidObj o2 && o2 != -1) = true
              · rw [if_pos h6] at hk; cases hk
              · rw [if_neg h6] at hk
                by_cases h7 : NParseAspectKey h r2 < 0
                · rw [if_pos h7] at hk; cases hk
                · rw [if_neg h7] at hk
                  simp only [Option.some.injEq, Prod.mk.injEq] at hk
                  obtain ⟨rfl, rfl, rfl⟩ := hk
                  refine ⟨f1, r1, f2, r2, rfl, h2, hov, h4, h5, ?_, rfl, by omega⟩
                  by_cases ho : o2 = -1
                  · exact Or.inl ho
                  · right
                    cases hv : h.FValidObj o2 with
                    | true => rfl
                    | false => exact absurd (by simp [hv, ho]) h6
  · rintro ⟨f1, r1, f2, r2, h1, h2, h3, h4, h5, h6, h7, h8⟩
    unfold FParseAspectComboKey
    simp only [h1, h2, h4, h5]
    rw [if_neg (passes_check_iff.mpr h3)]
    have h9 : ¬ ((!h.FValidObj obj2 && obj2 != -1) = true) := by
      rcases h6 with h6 | h6 <;> simp [h6]
    rw [if_neg h9, h7, if_neg (by omega)]

theorem parseSignField_range {h : Header} {sz : Sz} {sign : Int}
    (hp : parseSignField h sz = some sign) :
    (sign = -1 ∧ firstIs '*' sz = true) ∨ FValidSign h sign = true := by
  unfold parseSignField at hp
  by_cases hs1 : firstIs '*' sz = true
  · rw [if_pos hs1] at hp
    cases hp
    exact Or.inl ⟨rfl, hs1⟩
  · rw [if_neg hs1] at hp
    by_cases hs2 : firstDigit sz = true
    · rw [if_pos hs2] at hp
      by_cases hs3 : FValidSign h (NFromSz sz) = true
      · rw [if_pos hs3] at hp
        cases hp
        exact Or.inr hs3
      · rw [if_neg hs3] at hp; cases hp
    · rw [if_neg hs2] at hp
      cases hf : findName h.szSignName sz 1 h.cSign with
      | none => simp [hf] at hp
      | some i =>
        obtain ⟨b1, b2, _⟩ := findName_some hf
        rw [hf] at hp
        cases hp
        right
        simp only [FValidSign, FBetween, Bool.and_eq_true, decide_eq_true_eq]
        constructor
        · show (1 : Int) ≤ (i : Int)
          exact_mod_cast b1
        · have : i ≤ h.cSign := by omega
          show (i : Int) ≤ (h.cSign : Int)
          exact_mod_cast this

theorem parseHouseField_range {sz : Sz} {house : Int}
    (hp : parseHouseField sz = some house) :
    (house = -1 ∧ firstIs '*' sz = true) ∨ (1 ≤ house ∧ house ≤ 12) := by
  unfold parseHouseField at hp
  by_cases hs1 : firstIs '*' sz = true
  · rw [if_pos hs1] at hp
    cases hp
    exact Or.inl ⟨rfl, hs1⟩
  · rw [if_neg hs1] at hp
    by_cases hs2 : FBetween (NFromSz sz) 1 12 = true
    · rw [if_pos hs2] at hp
      cases hp
      simp only [FBetween, Bool.and_eq_true, decide_eq_true_eq] at hs2
      exact Or.inr hs2
    · rw [if_neg hs2] at hp; cases hp

theorem NParseAspectKey_range (h : Header) (s : Sz) (hn : 0 ≤ NParseAspectKey h s) :
    NParseAspectKey h s ≤ h.cAspect := by
  unfold NParseAspectKey at hn ⊢
  split
  · rename_i hc
    simp only [Bool.and_eq_true, decide_eq_true_eq] at hc
    exact hc.2
  · rename_i hc
    rw [if_neg hc] at hn
    cases hf : findName h.szAspectName s 1 h.cAspect with
    | none => simp [hf] at hn
    | some i =>
      obtain ⟨h1, h2, _⟩ := findName_some hf
      have : i ≤ h.cAspect := by omega
      show (i : Int) ≤ (h.cAspect : Int)
      exact_mod_cast this

theorem firstDigit_of_field {key f r : Sz} {n : Nat}
    (hs : splitPlus (key.take n) = some (f, r)) (hf : firstDigit f = true) :
    firstDigit key = true := by
  obtain ⟨e, _⟩ := splitPlus_some hs
  cases f with
  | nil => simp [firstDigit] at hf
  | cons d ds =>
    cases key with
    | nil => simp at e
    | cons k ks =>
      cases n with
      | zero => simp at e
      | succ n =>
        simp only [List.take_succ_cons, List.cons_append, List.cons.injEq] at e
        rw [e.1]
        exact hf

theorem object_minus_one {h : Header} {key f r : Sz} {n : Nat} {o : Int}
    (hs : splitPlus (key.take n) = some (f, r)) (hp : parseObjField h f = some o)
    (ho : o = -1) : firstDigit key = true := by
  rcases parseObjField_range hp with ⟨hd, _⟩ | ⟨_, h0⟩
  · exact firstDigit_of_field hs hd
  · omega

/-- C7 fails on the code: the key `4294967295+1+1` is reported valid by
`FParseComboKey` with the object `-1`, and the key `4294967295+1+1` by
`FParseAspectComboKey` with the first object `-1`: the digits are read into a
C `int`, where they give `-1`, the value that the validity test lets through
as the wildcard.  The id `-1` is no valid object id. -/
theorem decode_in_domain_counterexample :
    FParseComboKey sampleHeader "4294967295+1+1".toList = some (-1, 1, 1) ∧
    FParseAspectComboKey sampleHeader "4294967295+1+1".toList = some (-1, 1, 1) ∧
    sampleHeader.FValidObj (-1) = false := by
  decide

/-- C7 as amended: a key that `FParseComboKey` reports valid decodes to an
object that is a valid object id or `-1`, a sign that is `-1` (the field then
starts with `*`) or a valid sign id, and a house that is `-1` (the field then
starts with `*`) or in `1..12`; a key that `FParseAspectComboKey` reports
valid decodes to a first object that is a valid object id or `-1`, a second
object that is `-1` or a valid object id, and an aspect id in the aspect
range `0..cAspect`.  The object and the first object are `-1` only for a key
that starts with a digit: the digits of the field then give `-1` as a C
`int`; a name never does, and a field `*` is not accepted there. -/
theorem decode_in_domain (h : Header) (szKey : Sz) :
    (∀ obj sign house : Int, FParseComboKey h szKey = some (obj, sign, house) →
      (h.FValidObj obj = true ∨ obj = -1) ∧ (sign = -1 ∨ FValidSign h sign = true) ∧
      (house = -1 ∨ (1 ≤ house ∧ house ≤ 12)) ∧
      (obj = -1 → firstDigit szKey = true)) ∧
    (∀ obj1 obj2 asp : Int, FParseAspectComboKey h szKey = some (obj1, obj2, asp) →
      (h.FValidObj obj1 = true ∨ obj1 = -1) ∧ (obj2 = -1 ∨ h.FValidObj obj2 = true) ∧
      (0 ≤ asp ∧ asp ≤ h.cAspect) ∧
      (obj1 = -1 → firstDigit szKey = true)) := by
  constructor
  · intro obj sign house hk
    obtain ⟨f1, r1, f2, r2, h1, h2, h3, _, h5, h6⟩ := (FParseComboKey_eq_some ..).mp hk
    refine ⟨h3, ?_, ?_, fun ho => object_minus_one h1 h2 ho⟩
    · rcases parseSignField_range h5 with hs | hs
      · exact Or.inl hs.1
      · exact Or.inr hs
    · rcases parseHouseField_range h6 with hs | hs
      · exact Or.inl hs.1
      · exact Or.inr hs
  · intro obj1 obj2 asp hk
    obtain ⟨f1, r1, f2, r2, h1, h2, h3, _, _, h6, h7, h8⟩ :=
      (FParseAspectComboKey_eq_some ..).mp hk
    refine ⟨h3, h6, ⟨h8, ?_⟩, fun ho => object_minus_one h1 h2 ho⟩
    rw [← h7] at h8 ⊢
    exact NParseAspectKey_range h r2 h8

/-- C7 as amended, at the keys `Sun+*+12` and `1+*+Trine` of the sample
header. -/
theorem decode_in_domain_witness :
    FParseComboKey sampleHeader "Sun+*+12".toList = some (1, -1, 12) ∧
    FParseAspectComboKey sampleHeader "1+*+Trine".toList = some (1, -1, 4) ∧
    (sampleHeader.FValidObj 1 = true ∨ (1 : Int) = -1) :=
  ⟨by decide, by decide,
    ((decode_in_domain sampleHeader "Sun+*+12".toList).1 1 (-1) 12 (by decide)).1⟩

theorem count_plus_of_accept {key f1 r1 f2 r2 : Sz} {n : Nat}
    (h1 : splitPlus (key.take n) = some (f1, r1)) (h4 : splitPlus r1 = some (f2, r2)) :
    2 ≤ key.count '+' := by
  obtain ⟨e1, _⟩ := splitPlus_some h1
  obtain ⟨e2, _⟩ := splitPlus_some h4
  have hle := (List.take_sublist n key).count_le '+'
  rw [e1, e2] at hle
  simp only [List.count_append, List.count_cons_self] at hle
  omega

theorem parseHouseField_star (r : Sz) : parseHouseField ('*' :: r) = some (-1) := by
  simp [parseHouseField, firstIs]

theorem parseSignField_star (h : Header) (r : Sz) : parseSignField h ('*' :: r) = some (-1) := by
  simp [parseSignField, firstIs]

theorem parseObj2Field_star (h : Header) (r : Sz) : parseObj2Field h ('*' :: r) = some (-1) := by
  simp [parseObj2Field, firstIs]

/-- C8, the claim as stated fails: `FParseComboKey` accepts `1+2+*+4`, a key
with three `+`, and `1+*x+1`, a key with a character after the `*` of a
field; `FParseAspectComboKey` accepts `1+*x+1` too. -/
theorem lenient_fields_counterexample :
    FParseComboKey sampleHeader "1+2+*+4".toList = some (1, 2, -1) ∧
    FParseComboKey sampleHeader "1+*x+1".toList = some (1, -1, 1) ∧
    FParseAspectComboKey sampleHeader "1+*x+1".toList = some (1, -1, 1) := by
  decide

/-- C8 as amended: `FParseComboKey` and `FParseAspectComboKey` reject every
key with fewer than two `+` characters.  A field that starts with `*` is a
wildcard whatever follows the `*`: for a key that fits the buffer, the
characters after a leading `*` of the house field (further `+` included), of
the sign field, or of the second object field of an aspect-combo key do not
change the result. -/
theorem lenient_fields (h : Header) :
    (∀ key : Sz, key.count '+' < 2 →
      FParseComboKey h key = none ∧ FParseAspectComboKey h key = none) ∧
    (∀ f1 f2 r : Sz, '+' ∉ f1 → '+' ∉ f2 →
      (f1 ++ '+' :: (f2 ++ '+' :: '*' :: r)).length < h.cchSzMax →
      FParseComboKey h (f1 ++ '+' :: (f2 ++ '+' :: '*' :: r)) =
        FParseComboKey h (f1 ++ '+' :: (f2 ++ ['+', '*']))) ∧
    (∀ f1 x r : Sz, '+' ∉ f1 → '+' ∉ x →
      (f1 ++ '+' :: '*' :: (x ++ '+' :: r)).length < h.cchSzMax →
      FParseComboKey h (f1 ++ '+' :: '*' :: (x ++ '+' :: r)) =
        FParseComboKey h (f1 ++ '+' :: '*' :: '+' :: r)) ∧
    (∀ f1 x r : Sz, '+' ∉ f1 → '+' ∉ x →
      (f1 ++ '+' :: '*' :: (x ++ '+' :: r)).length < h.cchSzMax →
      FParseAspectComboKey h (f1 ++ '+' :: '*' :: (x ++ '+' :: r)) =
        FParseAspectComboKey h (f1 ++ '+' :: '*' :: '+' :: r)) := by
  refine ⟨?_, ?_, ?_, ?_⟩
  · intro key hcount
    constructor
    · cases hk : FParseComboKey h key with
      | none => rfl
      | some t =>
        obtain ⟨o, sg, ho⟩ := t
        obtain ⟨f1, r1, f2, r2, h1, _, _, h4, _, _⟩ := (FParseComboKey_eq_some ..).mp hk
        have := count_plus_of_accept h1 h4
        omega
    · cases hk : FParseAspectComboKey h key with
      | none => rfl
      | some t =>
        obtain ⟨o, sg, ho⟩ := t
        obtain ⟨f1, r1, f2, r2, h1, _, _, h4, _⟩ := (FParseAspectComboKey_eq_some ..).mp hk
        have := count_plus_of_accept h1 h4
        omega
  · intro f1 f2 r hf1 hf2 hlen
    have hlen2 : (f1 ++ '+' :: (f2 ++ ['+', '*'])).length < h.cchSzMax := by
      simp only [List.length_append, List.length_cons, List.length_nil] at hlen ⊢
      omega
    unfold FParseComboKey
    rw [List.take_of_length_le (by omega), List.take_of_length_le (by omega),
      splitPlus_append _ hf1, splitPlus_append _ hf1]
    simp only []
    rw [show f2 ++ ['+', '*'] = f2 ++ '+' :: ['*'] from rfl,
      splitPlus_append _ hf2, splitPlus_append _ hf2]
    simp only [parseHouseField_star]
  · intro f1 x r hf1 hx hlen
    have hlen2 : (f1 ++ '+' :: '*' :: '+' :: r).length < h.cchSzMax := by
      simp only [List.length_append, List.length_cons] at hlen ⊢
      omega
    have hx1 : '+' ∉ ('*' :: x) := by
      simp only [List.mem_cons, not_or]
      exact ⟨by decide, hx⟩
    have hx2 : '+' ∉ ['*'] := by decide
    unfold FParseComboKey
    rw [List.take_of_length_le (by omega), List.take_of_length_le (by omega),
      splitPlus_append _ hf1, splitPlus_append _ hf1]
    simp only []
    rw [show '*' :: (x ++ '+' :: r) = ('*' :: x) ++ '+' :: r from rfl,
      show '*' :: '+' :: r = ['*'] ++ '+' :: r from rfl,
      splitPlus_append _ hx1, splitPlus_append _ hx2]
    simp only [parseSignField_star]
  · intro f1 x r hf1 hx hlen
    have hlen2 : (f1 ++ '+' :: '*' :: '+' :: r).length < h.cchSzMax := by
      simp only [List.length_append, List.length_cons] at hlen ⊢
      omega
    have hx1 : '+' ∉ ('*' :: x) := by
      simp only [List.mem_cons, not_or]
      exact ⟨by decide, hx⟩
    have hx2 : '+' ∉ ['*'] := by decide
    unfold FParseAspectComboKey
    rw [List.take_of_length_le (by omega), List.take_of_length_le (by omega),
      splitPlus_append _ hf1, splitPlus_append _ hf1]
    simp only []
    rw [show '*' :: (x ++ '+' :: r) = ('*' :: x) ++ '+' :: r from rfl,
      show '*' :: '+' :: r = ['*'] ++ '+' :: r from rfl,
      splitPlus_append _ hx1, splitPlus_append _ hx2]
    simp only [parseObj2Field_star]

/-- C8 as amended, at the keys `1+2` (one `+`: rejected) and `1+2+*+4` (decoded
as `1+2+*` is). -/
theorem lenient_fields_witness :
    FParseComboKey sampleHeader "1+2".toList = none ∧
    FParseComboKey sampleHeader "1+2+*+4".toList =
      FParseComboKey sampleHeader "1+2+*".toList :=
  ⟨((lenient_fields sampleHeader).1 "1+2".toList (by decide)).1,
   (lenient_fields sampleHeader).2.1 "1".toList "2".toList "+4".toList
     (by decide) (by decide) (by decide)⟩

/-! ## Encoding against decoding (C5, C6) -/

theorem digit_char : ∀ d : Nat, d < 10 →
    isDigit (Char.ofNat (48 + d)) = true ∧ (Char.ofNat (48 + d)).toNat - 48 = d := by
  decide

theorem fmtNatAux_digits (fuel n : Nat) (acc : Sz) (hacc : ∀ c ∈ acc, isDigit c = true) :
    ∀ c ∈ fmtNatAux fuel n acc, isDigit c = true := by
  induction fuel generalizing n acc with
  | zero => exact hacc
  | succ fuel ih =>
    unfold fmtNatAux
    split
    · rename_i hn
      intro c hc
      rcases List.mem_cons.mp hc with rfl | hc
      · exact (digit_char n hn).1
      · exact hacc c hc
    · apply ih
      intro c hc
      rcases List.mem_cons.mp hc with rfl | hc
      · exact (digit_char (n % 10) (Nat.mod_lt _ (by decide))).1
      · exact hacc c hc

theorem fmtNatAux_firstDigit (fuel n : Nat) (acc : Sz) (hn : n < fuel) :
    firstDigit (fmtNatAux fuel n acc) = true := by
  induction fuel generalizing n acc with
  | zero => omega
  | succ fuel ih =>
    unfold fmtNatAux
    split
    · rename_i h10
      exact (digit_char n h10).1
    · rename_i h10
      apply ih
      have := Nat.div_lt_self (n := n) (k := 10) (by omega) (by decide)
      omega

theorem atoiDigits_fmtNatAux (fuel n : Nat) (acc : Sz) (hn : n < fuel) :
    atoiDigits (fmtNatAux fuel n acc) 0 = atoiDigits acc n := by
  induction fuel generalizing n acc with
  | zero => omega
  | succ fuel ih =>
    unfold fmtNatAux
    split
    · rename_i h10
      obtain ⟨d1, d2⟩ := digit_char n h10
      simp [atoiDigits, d1, d2]
    · rename_i h10
      have hlt := Nat.div_lt_self (n := n) (k := 10) (by omega) (by decide)
      rw [ih (n / 10) _ (by omega)]
      obtain ⟨d1, d2⟩ := digit_char (n % 10) (Nat.mod_lt _ (by decide))
      have : n / 10 * 10 + n % 10 = n := by omega
      simp [atoiDigits, d1, d2, this]

theorem fmtNat_firstDigit (n : Nat) : firstDigit (fmtNat n) = true :=
  fmtNatAux_firstDigit _ _ _ (Nat.lt_succ_self n)

theorem fmtNat_digits (n : Nat) : ∀ c ∈ fmtNat n, isDigit c = true :=
  fmtNatAux_digits _ _ _ (by simp)

theorem fmtNat_no_plus (n : Nat) : '+' ∉ fmtNat n := fun hm =>
  absurd (fmtNat_digits n _ hm) (by decide)

theorem fmtNat_length_pos (n : Nat) : 0 < (fmtNat n).length := by
  have := fmtNat_firstDigit n
  cases hf : fmtNat n with
  | nil => simp [hf, firstDigit] at this
  | cons c cs => simp

theorem NFromSz_fmtNat (n : Nat) (hn : n < 2147483648) : NFromSz (fmtNat n) = (n : Int) := by
  rw [NFromSz_of_firstDigit (fmtNat_firstDigit n)]
  have : atoiDigits (fmtNat n) 0 = n := by
    unfold fmtNat
    rw [atoiDigits_fmtNatAux _ _ _ (Nat.lt_succ_self n)]
    rfl
  rw [this]
  exact cIntOf_small hn

theorem fmtInt_of_nonneg {z : Int} (hz : 0 ≤ z) : fmtInt z = fmtNat z.toNat := by
  cases z with
  | ofNat n => rfl
  | negSucc n => exact absurd hz (by simp)

theorem fmtInt_facts {z : Int} (hz : 0 ≤ z) :
    firstDigit (fmtInt z) = true ∧ '+' ∉ fmtInt z ∧
      (z < 2147483648 → NFromSz (fmtInt z) = z) ∧
      0 < (fmtInt z).length ∧ firstIs '*' (fmtInt z) = false := by
  rw [fmtInt_of_nonneg hz]
  refine ⟨fmtNat_firstDigit _, fmtNat_no_plus _, ?_, fmtNat_length_pos _, ?_⟩
  · intro hz2
    rw [NFromSz_fmtNat _ (by omega)]; exact Int.toNat_of_nonneg hz
  · have := fmtNat_firstDigit z.toNat
    cases hf : fmtNat z.toNat with
    | nil => rfl
    | cons c cs =>
      rw [hf] at this
      simp only [firstDigit] at this
      have hc := (isDigit_not_special this).2.2.2
      simp [firstIs, hc]

theorem parseObjField_fmtInt (h : Header) {z : Int} (hz : 0 ≤ z) (hz2 : z < 2147483648) :
    parseObjField h (fmtInt z) = some z := by
  obtain ⟨h1, _, h3, _, _⟩ := fmtInt_facts hz
  simp [parseObjField, h1, h3 hz2]

theorem parseSignField_fmtInt (h : Header) {z : Int} (hv : FValidSign h z = true) :
    parseSignField h (fmtInt z) = some z := by
  have hz : 0 ≤ z := by
    simp only [FValidSign, FBetween, Bool.and_eq_true, decide_eq_true_eq] at hv
    omega
  have hz2 : z < 2147483648 := by
    have := h.cSign_int
    simp only [FValidSign, FBetween, Bool.and_eq_true, decide_eq_true_eq] at hv
    omega
  obtain ⟨h1, _, h3, _, h5⟩ := fmtInt_facts hz
  simp [parseSignField, h1, h3 hz2, h5, hv]

theorem parseHouseField_fmtInt {z : Int} (h1 : 1 ≤ z) (h2 : z ≤ 12) :
    parseHouseField (fmtInt z) = some z := by
  obtain ⟨_, _, h3, _, h5⟩ := fmtInt_facts (show 0 ≤ z by omega)
  have : FBetween z 1 12 = true := by simp [FBetween, h1, h2]
  simp [parseHouseField, h3 (by omega), h5, this]

theorem NParseAspectKey_fmtInt (h : Header) {z : Int} (h1 : 0 ≤ z) (h2 : z ≤ h.cAspect) :
    NParseAspectKey h (fmtInt z) = z := by
  have hz2 : z < 2147483648 := by
    have := h.cAspect_int
    omega
  obtain ⟨d1, _, d3, _, _⟩ := fmtInt_facts h1
  simp [NParseAspectKey, d1, d3 hz2, h1, h2]

theorem findName_nil_of_star {table : Nat → Sz} {start n : Nat}
    (hs : findName table ['*'] start n = none) : ∀ i, start ≤ i → i < start + n →
    FEqSzI ['*'] (table i) = false := by
  induction n generalizing start with
  | zero => intro i h1 h2; omega
  | succ n ih =>
    intro i h1 h2
    by_cases he : FEqSzI ['*'] (table start) = true
    · simp [findName, he] at hs
    · simp only [findName, he] at hs
      by_cases hi : i = start
      · subst hi; simpa using he
      · exact ih hs i (by omega) (by omega)

theorem FParseComboKey_star_object (h : Header) (rest : Sz)
    (hstar : findName h.szObjName ['*'] 0 h.objMax = none) :
    FParseComboKey h ('*' :: '+' :: rest) = none := by
  unfold FParseComboKey
  rcases hn : h.cchSzMax - 1 with _ | _ | n
  · simp [splitPlus]
  · simp [splitPlus]
  · simp [splitPlus, parseObjField, firstDigit, isDigit, hstar]

theorem FParseAspectComboKey_star_object (h : Header) (rest : Sz)
    (hstar : findName h.szObjName ['*'] 0 h.objMax = none) :
    FParseAspectComboKey h ('*' :: '+' :: rest) = none := by
  unfold FParseAspectComboKey
  rcases hn : h.cchSzMax - 1 with _ | _ | n
  · simp [splitPlus]
  · simp [splitPlus]
  · simp [splitPlus, parseObjField, firstDigit, isDigit, hstar]

/-- C5, evaluated on the code: for a valid object id, a valid sign id and a
house in `1..12` whose key fits the key buffer, the keys `obj+sign+house`,
`obj+sign+*` and `obj+*+house` built by `SzGetComboInterpretation` are
accepted by `FParseComboKey` and decode to the same triple with `-1` for each
`*`; the fourth key `*+sign+*` is rejected, because the object field has no
wildcard case and `*` is no object name. -/
theorem combo_key_decode (h : Header) (obj sign house : Int)
    (hobj : h.FValidObj obj = true) (hobj0 : 0 ≤ obj)
    (hsign : FValidSign h sign = true) (hh1 : 1 ≤ house) (hh2 : house ≤ 12)
    (hlen : (keyDDD obj sign house).length < h.cchSzMax)
    (hstar : findName h.szObjName ['*'] 0 h.objMax = none) :
    FParseComboKey h (keyDDD obj sign house) = some (obj, sign, house) ∧
    FParseComboKey h (keyDDS obj sign) = some (obj, sign, -1) ∧
    FParseComboKey h (keyDSD obj house) = some (obj, -1, house) ∧
    FParseComboKey h (keySDS sign) = none := by
  have hsign0 : 0 ≤ sign := by
    simp only [FValidSign, FBetween, Bool.and_eq_true, decide_eq_true_eq] at hsign
    omega
  obtain ⟨_, po, _, lo, _⟩ := fmtInt_facts hobj0
  obtain ⟨_, ps, _, ls, _⟩ := fmtInt_facts hsign0
  obtain ⟨_, ph, _, lh, _⟩ := fmtInt_facts (show 0 ≤ house by omega)
  simp only [keyDDD, List.length_append, List.length_cons] at hlen
  refine ⟨?_, ?_, ?_, FParseComboKey_star_object h _ hstar⟩
  · rw [FParseComboKey_eq_some]
    refine ⟨fmtInt obj, fmtInt sign ++ '+' :: fmtInt house, fmtInt sign, fmtInt house,
      ?_, parseObjField_fmtInt h hobj0 (h.FValidObj_int obj hobj).2, Or.inl hobj,
      splitPlus_append _ ps, parseSignField_fmtInt h hsign, parseHouseField_fmtInt hh1 hh2⟩
    rw [List.take_of_length_le]
    · exact splitPlus_append _ po
    · simp only [keyDDD, List.length_append, List.length_cons]; omega
  · rw [FParseComboKey_eq_some]
    refine ⟨fmtInt obj, fmtInt sign ++ ['+', '*'], fmtInt sign, ['*'],
      ?_, parseObjField_fmtInt h hobj0 (h.FValidObj_int obj hobj).2, Or.inl hobj,
      splitPlus_append _ ps, parseSignField_fmtInt h hsign, parseHouseField_star []⟩
    rw [List.take_of_length_le]
    · exact splitPlus_append _ po
    · simp only [keyDDS, List.length_append, List.length_cons, List.length_nil]; omega
  · rw [FParseComboKey_eq_some]
    refine ⟨fmtInt obj, '*' :: '+' :: fmtInt house, ['*'], fmtInt house,
      ?_, parseObjField_fmtInt h hobj0 (h.FValidObj_int obj hobj).2, Or.inl hobj,
      splitPlus_append (f := ['*']) _ (by decide),
      parseSignField_star h [], parseHouseField_fmtInt hh1 hh2⟩
    rw [List.take_of_length_le]
    · exact splitPlus_append _ po
    · simp only [keyDSD, List.length_append, List.length_cons]; omega

/-- C5 at the sample header, for the Sun (1) in Aries (1) in the first
house: `*+1+*` is rejected. -/
theorem combo_key_decode_witness :
    keySDS 1 = "*+1+*".toList ∧ FParseComboKey sampleHeader "*+1+*".toList = none :=
  ⟨by decide,
   (combo_key_decode sampleHeader 1 1 1 (by decide) (by decide) (by decide) (by decide)
     (by decide) (by decide) (by decide)).2.2.2⟩

theorem NParseAspectKey_star (h : Header)
    (hstar : findName h.szAspectName ['*'] 1 h.cAspect = none) :
    NParseAspectKey h ['*'] = -1 := by
  simp [NParseAspectKey, firstDigit, isDigit, hstar]

/-- C6, evaluated on the code: for valid object ids and an aspect id in
`0..cAspect` whose key fits the key buffer, `FParseAspectComboKey` accepts the
key `obj1+obj2+asp` and decodes it to the same triple, but rejects the two
wildcard keys `obj1+obj2+*` and `*+*+asp` that `SzGetAspectComboInterpretation`
also builds, `*` being neither an aspect name nor an object name.  A file
whose `[aspect_combinations]` section holds `0+4+*: X` therefore loads no
aspect-combo entry, and the query (0,4,1) on the loaded style, made current,
gives no result. -/
theorem aspect_key_decode (h : Header) (obj1 obj2 asp : Int)
    (hv1 : h.FValidObj obj1 = true) (h01 : 0 ≤ obj1)
    (hv2 : h.FValidObj obj2 = true) (h02 : 0 ≤ obj2)
    (ha1 : 0 ≤ asp) (ha2 : asp ≤ h.cAspect)
    (hlen : (keyDDD obj1 obj2 asp).length < h.cchSzMax)
    (hstarO : findName h.szObjName ['*'] 0 h.objMax = none)
    (hstarA : findName h.szAspectName ['*'] 1 h.cAspect = none) :
    FParseAspectComboKey h (keyDDD obj1 obj2 asp) = some (obj1, obj2, asp) ∧
    FParseAspectComboKey h (keyDDS obj1 obj2) = none ∧
    FParseAspectComboKey h (keySSD asp) = none ∧
    (loadedStyle sampleHeader "f".toList
        "[aspect_combinations]\n0+4+*: X\n".toList).aspectCombos = [] ∧
    SzGetAspectComboInterpretation
        (loadAsCurrent sampleHeader "f".toList "[aspect_combinations]\n0+4+*: X\n".toList)
        0 4 1 = none := by
  obtain ⟨_, po, _, lo, _⟩ := fmtInt_facts h01
  obtain ⟨_, ps, _, ls, s5⟩ := fmtInt_facts h02
  obtain ⟨_, ph, _, lh, _⟩ := fmtInt_facts ha1
  simp only [keyDDD, List.length_append, List.length_cons] at hlen
  refine ⟨?_, ?_, FParseAspectComboKey_star_object h _ hstarO, by decide, by decide⟩
  · rw [FParseAspectComboKey_eq_some]
    refine ⟨fmtInt obj1, fmtInt obj2 ++ '+' :: fmtInt asp, fmtInt obj2, fmtInt asp,
      ?_, parseObjField_fmtInt h h01 (h.FValidObj_int obj1 hv1).2, Or.inl hv1,
      splitPlus_append _ ps, ?_, Or.inr hv2, NParseAspectKey_fmtInt h ha1 ha2, ha1⟩
    · rw [List.take_of_length_le]
      · exact splitPlus_append _ po
      · simp only [keyDDD, List.length_append, List.length_cons]; omega
    · simp only [parseObj2Field, s5]
      exact parseObjField_fmtInt h h02 (h.FValidObj_int obj2 hv2).2
  · cases hk : FParseAspectComboKey h (keyDDS obj1 obj2) with
    | none => rfl
    | some t =>
      exfalso
      obtain ⟨a, b, c⟩ := t
      obtain ⟨f1, r1, f2, r2, e1, _, _, e4, _, _, e7, e8⟩ :=
        (FParseAspectComboKey_eq_some ..).mp hk
      rw [List.take_of_length_le
        (by simp only [keyDDS, List.length_append, List.length_cons, List.length_nil]; omega),
        keyDDS, splitPlus_append _ po] at e1
      cases e1
      rw [show fmtInt obj2 ++ ['+', '*'] = fmtInt obj2 ++ '+' :: ['*'] from rfl,
        splitPlus_append _ ps] at e4
      cases e4
      rw [NParseAspectKey_star h hstarA] at e7
      omega

/-- C6 at the sample header, for the objects 0 and 4 and the aspect 1: the
key `0+4+*` is rejected. -/
theorem aspect_key_decode_witness :
    keyDDS 0 4 = "0+4+*".toList ∧
    FParseAspectComboKey sampleHeader "0+4+*".toList = none :=
  ⟨by decide,
   (aspect_key_decode sampleHeader 0 4 1 (by decide) (by decide) (by decide) (by decide)
     (by decide) (by decide) (by decide) (by decide) (by decide)).2.1⟩

/-! ## The single-file loader (C2, C10) -/

theorem fgets_append (room : Nat) (s : Sz) : (fgets room s).1 ++ (fgets room s).2 = s := by
  induction room generalizing s with
  | zero => cases s <;> rfl
  | succ room ih =>
    cases s with
    | nil => rfl
    | cons c cs =>
      by_cases hc : c = '\n'
      · simp [fgets, hc]
      · simp [fgets, hc, ih cs]

theorem fgets_rest_length (room : Nat) (s : Sz) (hs : s ≠ []) :
    (fgets (room + 1) s).2.length < s.length := by
  cases s with
  | nil => exact absurd rfl hs
  | cons c cs =>
    have h := congrArg List.length (fgets_append room cs)
    simp only [List.length_append] at h
    by_cases hc : c = '\n'
    · simp [fgets, hc]
    · simp only [fgets, hc, if_false, List.length_cons]
      omega

/-- The reads of a loader lose nothing: with a line buffer of at least two
characters the lines read, put end to end, are the content of the file (the
bound on the number of reads is never reached). -/
theorem readLines_flatten (cch fuel : Nat) (s : Sz) (h2 : 2 ≤ cch) (hf : s.length ≤ fuel) :
    (readLines cch fuel s).flatten = s := by
  induction fuel generalizing s with
  | zero =>
    have : s = [] := List.length_eq_zero.mp (by omega)
    subst this
    rfl
  | succ fuel ih =>
    by_cases hs : s = []
    · subst hs; rfl
    · obtain ⟨room, hroom⟩ : ∃ room, cch - 1 = room + 1 := ⟨cch - 2, by omega⟩
      have hlt := fgets_rest_length room s hs
      simp only [readLines, hs, if_false, List.flatten_cons, hroom]
      rw [← hroom, ih _ (by rw [hroom]; omega), hroom]
      exact fgets_append _ s

theorem fileLines_flatten (cch : Nat) (content : Sz) (h2 : 2 ≤ cch) :
    (fileLines cch content).flatten = content :=
  readLines_flatten cch content.length content h2 (le_refl _)

theorem startsLikeName_fmtInt (z : Int) (rest : Sz) :
    startsLikeName (fmtInt z ++ rest) = false := by
  cases z with
  | ofNat n =>
    have hd := fmtNat_firstDigit n
    show startsLikeName (fmtNat n ++ rest) = false
    cases hf : fmtNat n with
    | nil => rw [hf] at hd; cases hd
    | cons c cs =>
      rw [hf] at hd
      simp only [firstDigit] at hd
      simp [startsLikeName, hd]
  | negSucc n => simp [fmtInt, startsLikeName]

theorem lowestWithKey_singleton (k key : Sz) (v : Option Sz) :
    lowestWithKey k [{ key := some key, value := v }] =
      if key = k then some { key := some key, value := v } else none := by
  by_cases hk : key = k <;> simp [lowestWithKey, List.find?, hk]

/-- C2, evaluated on the code: the loader stores an accepted key as it is
written, not as it decodes (first part), and a style whose only combo entry
is `key: V`, with no default text, answers the query (obj, sign, house) with
`V` only if `key` is literally one of the four decimal texts the resolver
builds (second part); a key that starts like a name, with a character that
is no digit, `-` or `*`, is found by no query (third part).  So the accepted
keys `Sun+Aries+1` and `01+1+1`, which
both decode to (1, 1, 1), are loaded but never found by the query (1, 1, 1),
whereas `1+1+1` is. -/
theorem named_key_lookup :
    (∀ (h : Header) (style : InterpretationStyle) (key V : Sz) (t : Int × Int × Int),
      FParseComboKey h key = some t →
      (processValue h 5 style key V).combos =
        style.combos ++ [{ key := some key, value := some V }]) ∧
    (∀ (im : InterpretationManager) (style : InterpretationStyle) (key V : Sz)
      (obj sign house : Int),
      currentStyle? im = some style →
      style.combos = [{ key := some key, value := some V }] →
      style.defaultLocation = none →
      SzGetComboInterpretation im obj sign house = some V →
      key = keyDDD obj sign house ∨ key = keyDDS obj sign ∨
        key = keyDSD obj house ∨ key = keySDS sign) ∧
    (∀ (im : InterpretationManager) (style : InterpretationStyle) (key V : Sz)
      (obj sign house : Int),
      currentStyle? im = some style →
      style.combos = [{ key := some key, value := some V }] →
      style.defaultLocation = none →
      startsLikeName key = true →
      SzGetComboInterpretation im obj sign house = none) ∧
    FParseComboKey sampleHeader "Sun+Aries+1".toList = some (1, 1, 1) ∧
    (loadedStyle sampleHeader "f".toList "[combinations]\nSun+Aries+1: V\n".toList).combos =
      [entry "Sun+Aries+1" "V"] ∧
    SzGetComboInterpretation
      (loadAsCurrent sampleHeader "f".toList "[combinations]\nSun+Aries+1: V\n".toList)
      1 1 1 = none ∧
    FParseComboKey sampleHeader "01+1+1".toList = some (1, 1, 1) ∧
    SzGetComboInterpretation
      (loadAsCurrent sampleHeader "f".toList "[combinations]\n01+1+1: V\n".toList)
      1 1 1 = none ∧
    SzGetComboInterpretation
      (loadAsCurrent sampleHeader "f".toList "[combinations]\n1+1+1: V\n".toList)
      1 1 1 = some "V".toList := by
  refine ⟨?_, ?_, ?_, by decide, by decide, by decide, by decide, by decide, by decide⟩
  · intro h style key V t ht
    simp [processValue, ht, appendCombo]
  swap
  · intro im style key V obj sign house hcur hc hd hname
    rw [SzGetComboInterpretation_of_style hcur]
    have n1 : ¬ key = keyDDD obj sign house :=
      fun e => by rw [e, keyDDD, startsLikeName_fmtInt] at hname; cases hname
    have n2 : ¬ key = keyDDS obj sign :=
      fun e => by rw [e, keyDDS, startsLikeName_fmtInt] at hname; cases hname
    have n3 : ¬ key = keyDSD obj house :=
      fun e => by rw [e, keyDSD, startsLikeName_fmtInt] at hname; cases hname
    have n4 : ¬ key = keySDS sign :=
      fun e => by rw [e] at hname; exact absurd hname (by simp [keySDS, startsLikeName])
    simp [comboFallback, hc, hd, lowestWithKey_singleton, n1, n2, n3, n4]
  · intro im style key V obj sign house hcur hc hd hres
    rw [SzGetComboInterpretation_of_style hcur] at hres
    simp only [comboFallback, hc, hd, lowestWithKey_singleton] at hres
    by_cases h1 : key = keyDDD obj sign house
    · exact Or.inl h1
    · by_cases h2 : key = keyDDS obj sign
      · exact Or.inr (Or.inl h2)
      · by_cases h3 : key = keyDSD obj house
        · exact Or.inr (Or.inr (Or.inl h3))
        · by_cases h4 : key = keySDS sign
          · exact Or.inr (Or.inr (Or.inr h4))
          · simp [h1, h2, h3, h4] at hres

theorem getLast?_cons_of_some {a x : Char} {l : Sz} (h : l.getLast? = some x) :
    (a :: l).getLast? = some x := by
  cases l with
  | nil => simp at h
  | cons b bs => rw [List.getLast?_cons_cons]; exact h

theorem skipSpTab_getLast_newline (line : Sz) :
    (skipSpTab (line ++ ['\n'])).getLast? = some '\n' := by
  induction line with
  | nil => decide
  | cons c cs ih =>
    by_cases hc : c = ' ' ∨ c = '\t'
    · simp only [List.cons_append, skipSpTab, hc, if_true]
      exact ih
    · simp only [List.cons_append, skipSpTab, hc, if_false]
      show ((c :: cs) ++ ['\n']).getLast? = some '\n'
      rw [List.getLast?_append]
      rfl

/-- C10, evaluated on the code: in any section and whatever was loaded
before, the three newline-terminated lines `k: a \`, `b \`, `c` make the
loader process the pair once, with the key `k` and the value `a b c`
followed by the newline of the last line.  In general the last line of a
continuation, the one without a backslash, is appended with only its leading
blanks removed, so the value of a pair whose last line is newline-terminated
ends with that newline.  Loaded under `[templates]` as `default_location`,
the three lines give the text `a b c` plus newline. -/
theorem continuation_keeps_newline (h : Header) (st : LoadState)
    (hst : st.fContinuation = false) :
    loadLine h (loadLine h (loadLine h st "k: a \\\n".toList) "b \\\n".toList) "c\n".toList =
      { st with
        style := processValue h st.iSection st.style "k".toList "a b c\n".toList,
        fContinuation := false,
        szContinuation := none,
        szContinuationKey := some "k".toList } ∧
    (∀ held line : Sz, (continueLine held (line ++ ['\n'])).1 = false →
      (continueLine held (line ++ ['\n'])).2 =
          trimEnd isSpTab held ++ ' ' :: skipSpTab (line ++ ['\n']) ∧
      (continueLine held (line ++ ['\n'])).2.getLast? = some '\n') ∧
    (loadedStyle sampleHeader "f".toList
        "[templates]\ndefault_location: a \\\nb \\\nc\n".toList).defaultLocation =
      some "a b c\n".toList := by
  refine ⟨?_, ?_, by decide⟩
  swap
  · intro held line hc
    have hval : (continueLine held (line ++ ['\n'])).2 =
        trimEnd isSpTab held ++ ' ' :: skipSpTab (line ++ ['\n']) := by
      simp only [continueLine] at hc ⊢
      rw [hc]
      rfl
    refine ⟨hval, ?_⟩
    rw [hval, List.getLast?_append,
      getLast?_cons_of_some (skipSpTab_getLast_newline line)]
    rfl
  have e1 : stripLine "k: a \\\n".toList = (true, "k: a ".toList) := by decide
  have e2 : firstIs '[' (skipBlank "k: a ".toList) = false := by decide
  have e3 : ParseLine "k: a ".toList = some ("k".toList, "a".toList) := by decide
  have e4 : continueLine "a".toList "b \\\n".toList = (true, "a b ".toList) := by decide
  have e5 : continueLine "a b ".toList "c\n".toList = (false, "a b c\n".toList) := by decide
  have s1 : loadLine h st "k: a \\\n".toList = holding st "k".toList "a".toList := by
    unfold loadLine
    rw [hst]
    simp only [e1, e2, e3]
    rfl
  have s2 : loadLine h (holding st "k".toList "a".toList) "b \\\n".toList =
      holding st "k".toList "a b ".toList := by
    unfold loadLine
    simp only [holding, e4]
    rfl
  rw [s1, s2]
  unfold loadLine
  simp only [holding, e5]
  rfl

/-- C10 at the state before the first line, in no section. -/
theorem continuation_keeps_newline_witness :
    (loadLine sampleHeader
      (loadLine sampleHeader
        (loadLine sampleHeader (initLoad []) "k: a \\\n".toList) "b \\\n".toList)
      "c\n".toList).szContinuationKey = some "k".toList :=
  congrArg LoadState.szContinuationKey
    (continuation_keeps_newline sampleHeader (initLoad []) rfl).1

/-! ## The aspect query (C20) -/

/-- C20: `SzGetAspectInterpretation` gives the same result for any two orb
values.  The result is no result when the current-style index is outside
`[0, styleCount)`, the current style is absent or not loaded, or `asp` is out
of the range `0..cAspect`; otherwise it is the content of the slot
`aspectInteract[asp]` of the current style, no result when the slot is
empty. -/
theorem SzGetAspectInterpretation_slot (h : Header) (im : InterpretationManager)
    (asp o1 o2 : Int) :
    SzGetAspectInterpretation h im asp o1 = SzGetAspectInterpretation h im asp o2 ∧
    ((im.currentStyle < 0 ∨ im.styleCount ≤ im.currentStyle ∨
        im.style im.currentStyle = none ∨
        (∃ s, im.style im.currentStyle = some s ∧ s.fLoaded = false) ∨
        asp < 0 ∨ asp > h.cAspect) →
      SzGetAspectInterpretation h im asp o1 = none) ∧
    (∀ style : InterpretationStyle,
      0 ≤ im.currentStyle → im.currentStyle < im.styleCount →
      im.style im.currentStyle = some style → style.fLoaded = true →
      0 ≤ asp → asp ≤ h.cAspect →
      SzGetAspectInterpretation h im asp o1 = style.aspectInteract asp ∧
      (style.aspectInteract asp = none → SzGetAspectInterpretation h im asp o1 = none)) := by
  refine ⟨rfl, ?_, ?_⟩
  · intro hbad
    unfold SzGetAspectInterpretation
    rcases hbad with hb | hb | hb | hb | hb | hb
    · rw [currentStyle?_eq_none (Or.inl hb)]
    · rw [currentStyle?_eq_none (Or.inr (Or.inl hb))]
    · rw [currentStyle?_eq_none (Or.inr (Or.inr (Or.inl hb)))]
    · rw [currentStyle?_eq_none (Or.inr (Or.inr (Or.inr hb)))]
    · cases currentStyle? im with
      | none => rfl
      | some st => simp [hb]
    · cases currentStyle? im with
      | none => rfl
      | some st => simp [hb]
  · intro style h0 h1 hs hl ha0 ha1
    have hcur := currentStyle?_eq_some h0 h1 hs hl
    have hin : ¬ (asp < 0 ∨ asp > (h.cAspect : Int)) := by omega
    have hres : SzGetAspectInterpretation h im asp o1 = style.aspectInteract asp := by
      simp only [SzGetAspectInterpretation, hcur]
      rw [if_neg hin]
    exact ⟨hres, fun he => hres.trans he⟩

/-- C20 at a concrete registry: the slot of aspect 1 holds a text, which the
query returns for the orbs 0 and 7; aspect 9 is out of range. -/
theorem SzGetAspectInterpretation_slot_witness :
    SzGetAspectInterpretation sampleHeader
        (loadAsCurrent sampleHeader "f".toList "[aspects]\n1: fuses with\n".toList) 1 0 =
      some "fuses with".toList ∧
    SzGetAspectInterpretation sampleHeader
        (loadAsCurrent sampleHeader "f".toList "[aspects]\n1: fuses with\n".toList) 1 7 =
      some "fuses with".toList ∧
    SzGetAspectInterpretation sampleHeader
        (loadAsCurrent sampleHeader "f".toList "[aspects]\n1: fuses with\n".toList) 9 0 =
      none :=
  ⟨by decide,
   ((SzGetAspectInterpretation_slot sampleHeader
      (loadAsCurrent sampleHeader "f".toList "[aspects]\n1: fuses with\n".toList) 1 7 0).1).trans
      (by decide),
   (SzGetAspectInterpretation_slot sampleHeader
      (loadAsCurrent sampleHeader "f".toList "[aspects]\n1: fuses with\n".toList) 9 0 0).2.1
      (Or.inr (Or.inr (Or.inr (Or.inr (Or.inr (by decide))))))⟩

/-! ## The per-folder loader: continuation (C11) -/

theorem aisLine_start (h : Header) (st : AisState) (hst : st.fContinuation = false) :
    aisLine h st "1: a \\\n".toList = aisHolding st "1".toList "a ".toList := by
  have e0 : (firstIs '#' "1: a \\\n".toList || firstIs '\n' "1: a \\\n".toList ||
      firstIs '\r' "1: a \\\n".toList) = false := by decide
  have e1 : firstIs '[' "1: a \\\n".toList = false := by decide
  have e2 : splitColon "1: a \\\n".toList = some ("1".toList, " a \\\n".toList) := by decide
  have e3 : lastIsBackslash (trimEndKeepFirst isTrail (skipSpTab " a \\\n".toList)) = true := by
    decide
  have e4 : (trimEndKeepFirst isTrail (skipSpTab " a \\\n".toList)).dropLast = "a ".toList := by
    decide
  have e5 : trimEndKeepFirst isTrail (skipSpTab "1".toList) = "1".toList := by decide
  unfold aisLine
  rw [e0, e1, hst]
  simp only [e2, e3, e4, e5]
  rfl

/-- C11, evaluated on the code: in any section and whatever was merged
before, the three lines `1: a \`, `b \`, `c` make the per-folder loader store
the pair once, with the key `1` and the value `a  b  c`, two spaces at each
joint: the blank in front of a continuation backslash stays in the held text
and a further space is put in at the join.  In general the held text is
taken over as it is.  Merged under `[planet_meanings]`, the three lines store
`a  b  c` for object 1. -/
theorem ais_continuation_double_space (h : Header) (st : AisState)
    (hst : st.fContinuation = false) :
    aisLine h (aisLine h (aisLine h st "1: a \\\n".toList) "b \\\n".toList) "c\n".toList =
      { st with
        style := aisStore h st.iSection st.style "1".toList "a  b  c".toList,
        fContinuation := false,
        szContinuation := some "a  b  c".toList,
        szContinuationKey := some "1".toList } ∧
    (∀ held line : Sz, ∃ t : Sz, (aisContinue held line).2 = held ++ ' ' :: t) ∧
    (FLoadAISFileIntoStyle sampleHeader [] (newStyle [])
        (some "[planet_meanings]\n1: a \\\nb \\\nc\n".toList)).2.planetMeaning 1 =
      some "a  b  c".toList := by
  refine ⟨?_, ?_, by decide⟩
  · rw [aisLine_start h st hst]
    have b0 : (firstIs '#' "b \\\n".toList || firstIs '\n' "b \\\n".toList ||
        firstIs '\r' "b \\\n".toList) = false := by decide
    have b1 : firstIs '[' "b \\\n".toList = false := by decide
    have b2 : aisContinue "a ".toList "b \\\n".toList = (true, "a  b ".toList) := by decide
    have c0 : (firstIs '#' "c\n".toList || firstIs '\n' "c\n".toList ||
        firstIs '\r' "c\n".toList) = false := by decide
    have c1 : firstIs '[' "c\n".toList = false := by decide
    have c2 : aisContinue "a  b ".toList "c\n".toList = (false, "a  b  c".toList) := by decide
    have s2 : aisLine h (aisHolding st "1".toList "a ".toList) "b \\\n".toList =
        aisHolding st "1".toList "a  b ".toList := by
      unfold aisLine
      rw [b0, b1]
      simp only [aisHolding, b2]
      rfl
    rw [s2]
    unfold aisLine
    rw [c0, c1]
    simp only [aisHolding, c2]
    rfl
  · intro held line
    unfold aisContinue
    split
    · exact ⟨_, rfl⟩
    · exact ⟨_, rfl⟩

/-- C11 at the state before the first line of a file. -/
theorem ais_continuation_double_space_witness :
    (aisLine sampleHeader
      (aisLine sampleHeader
        (aisLine sampleHeader (aisInit [] (newStyle [])) "1: a \\\n".toList) "b \\\n".toList)
      "c\n".toList).szContinuation = some "a  b  c".toList :=
  congrArg AisState.szContinuation
    (ais_continuation_double_space sampleHeader (aisInit [] (newStyle [])) rfl).1

/-! ## The folder metadata file (C12, C13) -/

theorem firstIs_lineAfterParse_aux (cut key : Sz) (c0 : Char) (rest : Sz)
    (hbody : skipBlank cut = c0 :: rest) (hc0 : c0 ≠ '[')
    (hkey : key = [] ∨ key.head? = some c0) :
    firstIs '[' (blankRun cut ++ key) = false := by
  induction cut with
  | nil => simp [skipBlank] at hbody
  | cons c cs ih =>
    by_cases hb : c = ' ' ∨ c = '\t' ∨ c = '\r' ∨ c = '\n'
    · simp only [skipBlank, hb, if_true] at hbody
      simp only [blankRun, hb, if_true, List.cons_append, firstIs, decide_eq_false_iff_not]
      rcases hb with hb | hb | hb | hb <;> subst hb <;> decide
    · simp only [skipBlank, hb, if_false, List.cons.injEq] at hbody
      simp only [blankRun, hb, if_false, List.nil_append]
      rcases hkey with hkey | hkey
      · subst hkey; rfl
      · cases key with
        | nil => rfl
        | cons x xs =>
          simp only [List.head?_cons, Option.some.injEq] at hkey
          subst hkey
          have := hbody.1
          subst this
          simpa [firstIs] using hc0

/-- A line `ParseLine` reports content for does not read as a section header
afterwards: the header test of `FLoadStyleConfig` that follows the call can
never succeed. -/
theorem firstIs_lineAfterParse {sz key value : Sz} (h : ParseLine sz = some (key, value)) :
    firstIs '[' (lineAfterParse sz key) = false := by
  unfold ParseLine at h
  cases hbody : skipBlank (cutComment sz) with
  | nil => simp [hbody] at h
  | cons c cs =>
    simp only [hbody] at h
    by_cases hc : c = '['
    · simp [hc] at h
    · simp only [hc, if_false] at h
      cases hsp : splitColon (c :: cs) with
      | none => simp [hsp] at h
      | some kv =>
        obtain ⟨k, v⟩ := kv
        simp only [hsp] at h
        by_cases hv : skipBlank3 v = []
        · simp [hv] at h
        · simp only [hv, if_false, Option.some.injEq, Prod.mk.injEq] at h
          obtain ⟨hkey, _⟩ := h
          obtain ⟨_, _, hcat, _⟩ := splitColon_some hsp
          have hk_body : k <+: (c :: cs) := ⟨':' :: v, hcat.symm⟩
          have hkey_k : key <+: k := by rw [← hkey]; exact trimEnd_initial _ _
          apply firstIs_lineAfterParse_aux (cutComment sz) key c cs hbody hc
          cases hkk : key with
          | nil => exact Or.inl rfl
          | cons x xs =>
            right
            have h1 := head?_of_initial hkey_k x (by rw [hkk]; rfl)
            have h2 := head?_of_initial hk_body x h1
            simp only [List.head?_cons, Option.some.injEq] at h2
            rw [h2]; rfl

theorem configLine_outside (st : ConfigState) (line : Sz) (hst : st.inMetadata = false) :
    configLine st line = st := by
  unfold configLine
  cases hp : ParseLine line with
  | none => rfl
  | some kv =>
    obtain ⟨k, v⟩ := kv
    simp only [firstIs_lineAfterParse hp, hst]
    rfl

theorem configLines_outside (lines : List Sz) (st : ConfigState) (hst : st.inMetadata = false) :
    lines.foldl configLine st = st := by
  induction lines with
  | nil => rfl
  | cons l ls ih => rw [List.foldl_cons, configLine_outside st l hst, ih]

/-- What `FLoadStyleConfig` makes of any file it can open: no key is ever
honoured, and the display name is the folder name. -/
theorem FLoadStyleConfig_any (h : Header) (folder : InterpretationFolder) (content : Sz) :
    FLoadStyleConfig h folder (some content) =
      (true, { clearFolder folder with displayName := folder.name }) := by
  have hfix := configLines_outside (fileLines h.cchSzMax content)
    { folder := clearFolder folder, inMetadata := false } rfl
  show (true, defaultDisplayName ((fileLines h.cchSzMax content).foldl configLine
    { folder := clearFolder folder, inMetadata := false }).folder) = _
  rw [hfix]
  rfl

/-- C12, evaluated on the code: for every metadata file made of the header
line `[metadata]`, a line `name: N` and a line `author: A`, `FLoadStyleConfig`
returns success but leaves the author unset and sets the display name to the
directory name of the folder, not to `N`.  `ParseLine`, called first on every
line, reports no content for the header line, so the header test that
follows is never reached with a header and no key is read inside the
section.  The file of the scenario gives the folder `modern` the display
name `modern` and no author. -/
theorem FLoadStyleConfig_metadata_unread (h : Header) (folder : InterpretationFolder)
    (N A : Sz) :
    FLoadStyleConfig h folder
        (some ("[metadata]\nname: ".toList ++ N ++ "\nauthor: ".toList ++ A ++ "\n".toList)) =
      (true, { clearFolder folder with displayName := folder.name }) ∧
    ParseLine "[metadata]\n".toList = none ∧
    (FLoadStyleConfig sampleHeader (folderNamed "modern" "/styles/modern")
        (some "[metadata]\nname: Modern\nauthor: Jane\n".toList)).2.displayName =
      some "modern".toList ∧
    (FLoadStyleConfig sampleHeader (folderNamed "modern" "/styles/modern")
        (some "[metadata]\nname: Modern\nauthor: Jane\n".toList)).2.author = none :=
  ⟨FLoadStyleConfig_any h folder _, by decide, by decide, by decide⟩

/-- C13: for every metadata file that can be opened, `FLoadStyleConfig`
returns success and leaves the folder, which has a directory name, with a
display name set; a key read while the loader is not inside `[metadata]`,
before any header or under another section, sets no folder field; and
whenever the reading loop has set no display name, the display name is the
directory name of the folder. -/
theorem FLoadStyleConfig_display_name (h : Header) (folder : InterpretationFolder)
    (content n : Sz) (hn : folder.name = some n) :
    (FLoadStyleConfig h folder (some content)).1 = true ∧
    (FLoadStyleConfig h folder (some content)).2.displayName ≠ none ∧
    (∀ (st : ConfigState) (line : Sz), st.inMetadata = false →
      (configLine st line).folder = st.folder) ∧
    (((fileLines h.cchSzMax content).foldl configLine
          { folder := clearFolder folder, inMetadata := false }).folder.displayName = none →
      (FLoadStyleConfig h folder (some content)).2.displayName = some n) := by
  have hname : ((fileLines h.cchSzMax content).foldl configLine
        { folder := clearFolder folder, inMetadata := false }).folder.name = some n := by
    rw [configLines_outside (fileLines h.cchSzMax content)
      { folder := clearFolder folder, inMetadata := false } rfl]
    exact hn
  refine ⟨rfl, ?_, ?_, ?_⟩
  · simp only [FLoadStyleConfig, defaultDisplayName]
    split
    · simp [hname]
    · assumption
  · intro st line hst
    unfold configLine
    cases hp : ParseLine line with
    | none => rfl
    | some kv =>
      obtain ⟨k, v⟩ := kv
      simp only
      split
      · rfl
      · simp [hst]
  · intro hnone
    simp only [FLoadStyleConfig, defaultDisplayName, hnone, if_true]
    exact hname

/-- C13 at a file whose only key stands before any header: the folder
`modern` keeps no author and gets its directory name as display name. -/
theorem FLoadStyleConfig_display_name_witness :
    (FLoadStyleConfig sampleHeader (folderNamed "modern" "/styles/modern")
        (some "author: Jane\n".toList)).2.displayName ≠ none ∧
    (FLoadStyleConfig sampleHeader (folderNamed "modern" "/styles/modern")
        (some "author: Jane\n".toList)).2.author = none :=
  ⟨(FLoadStyleConfig_display_name sampleHeader (folderNamed "modern" "/styles/modern")
      "author: Jane\n".toList "modern".toList rfl).2.1, by decide⟩

/-! ## Activation (C14, C15) -/

theorem findFolder_eq_none (p : InterpretationFolder → Bool) (l : List InterpretationFolder)
    (k : Nat) (hno : ∀ f ∈ l, p f = false) : findFolder p l k = none := by
  induction l generalizing k with
  | nil => rfl
  | cons f fs ih =>
    have hf := hno f (List.mem_cons_self _ _)
    simp only [findFolder, hf]
    exact ih (k + 1) (fun g hg => hno g (List.mem_cons_of_mem _ hg))

theorem findFolder_first (p : InterpretationFolder → Bool) (l : List InterpretationFolder)
    (k i : Nat) (f : InterpretationFolder) (hi : l[i]? = some f) (hp : p f = true)
    (hfirst : ∀ j : Nat, j < i → ∀ g : InterpretationFolder, l[j]? = some g → p g = false) :
    findFolder p l k = some (k + i, f) := by
  induction l generalizing k i with
  | nil => simp at hi
  | cons a as ih =>
    cases i with
    | zero =>
      have : a = f := by simpa using hi
      subst this
      simp [findFolder, hp]
    | succ i =>
      have ha : p a = false := hfirst 0 (by omega) a (by simp)
      simp only [findFolder, ha]
      have := ih (k + 1) i (by simpa using hi)
        (fun j hj g hg => hfirst (j + 1) (by omega) g (by simpa using hg))
      have e : k + 1 + i = k + (i + 1) := by omega
      rw [this, e]
      rfl

theorem setActiveFlag_get (l : List InterpretationFolder) (i : Nat) :
    (setActiveFlag l i)[i]? = (l[i]?).map (fun f => { f with fActive := true }) := by
  induction l generalizing i with
  | nil => simp [setActiveFlag]
  | cons a as ih =>
    cases i with
    | zero => simp [setActiveFlag]
    | succ i => simpa [setActiveFlag] using ih i

theorem ensureFolders_of_pos (h : Header) (disk : Disk) (ifm : InterpretationFolderManager)
    (hpos : 1 ≤ ifm.folderCount) : ensureFolders h disk ifm = ifm := by
  unfold ensureFolders
  rw [if_neg (Nat.ne_of_gt hpos)]

theorem FInitInterpretationFolders_ok (h : Header) (disk : Disk)
    (ifm : InterpretationFolderManager) : (FInitInterpretationFolders h disk ifm).1 = true := by
  unfold FInitInterpretationFolders ScanInterpretationFolders
  simp only [decide_eq_true_eq]
  split
  · exact le_refl _
  · exact Int.ofNat_nonneg _

/-- C14: for every state of the two registries and every name that equals,
up to case, neither the directory name nor the display name of any folder of
the registry the search runs on, `FSetActiveStyle` returns failure and leaves
the style registry as it was.  When the folder registry already holds a
folder, the search runs on it without a scan, and the folder registry is
left as it was too. -/
theorem FSetActiveStyle_not_found (h : Header) (disk : Disk) (r : Registries) (szName : Sz)
    (hno : ∀ f ∈ (ensureFolders h disk r.ifm).folder,
      eqNameI f.name szName = false ∧ eqNameI f.displayName szName = false) :
    (FSetActiveStyle h disk r szName).1 = false ∧
    (FSetActiveStyle h disk r szName).2.im = r.im ∧
    (1 ≤ r.ifm.folderCount →
      ensureFolders h disk r.ifm = r.ifm ∧ (FSetActiveStyle h disk r szName).2.ifm = r.ifm) := by
  have hfind : findFolder (fun f => eqNameI f.name szName || eqNameI f.displayName szName)
      (ensureFolders h disk r.ifm).folder 0 = none :=
    findFolder_eq_none _ _ _ (fun f hf => by simp [(hno f hf).1, (hno f hf).2])
  have hres : FSetActiveStyle h disk r szName =
      (false, { r with ifm := ensureFolders h disk r.ifm }) := by
    unfold FSetActiveStyle
    split
    · rfl
    · rw [hfind]
  rw [hres]
  refine ⟨rfl, rfl, fun hpos => ?_⟩
  have := ensureFolders_of_pos h disk r.ifm hpos
  exact ⟨this, this⟩

/-- C14 at a registry holding the folder `modern`: the name `other` is not
found, and both registries stay as they were. -/
theorem FSetActiveStyle_not_found_witness :
    (FSetActiveStyle sampleHeader sampleDisk
        ⟨emptyRegistry, { emptyFolders with folder := [folderNamed "modern" "/styles/modern"] }⟩
        "other".toList).1 = false ∧
    (FSetActiveStyle sampleHeader sampleDisk
        ⟨emptyRegistry, { emptyFolders with folder := [folderNamed "modern" "/styles/modern"] }⟩
        "other".toList).2.ifm =
      { emptyFolders with folder := [folderNamed "modern" "/styles/modern"] } :=
  ⟨(FSetActiveStyle_not_found sampleHeader sampleDisk
      ⟨emptyRegistry, { emptyFolders with folder := [folderNamed "modern" "/styles/modern"] }⟩
      "other".toList (by decide)).1,
   ((FSetActiveStyle_not_found sampleHeader sampleDisk
      ⟨emptyRegistry, { emptyFolders with folder := [folderNamed "modern" "/styles/modern"] }⟩
      "other".toList (by decide)).2.2 (by decide)).2⟩

/-- C15: for every state of the registries with fewer than `cMaxStyle`
styles and every name that matches, up to case, the directory name or the
display name of a registered folder, `FSetActiveStyle` returns success.  The
first matching folder `i` in registry order has its active flag set and the
active index is `i`; a new style with its loaded flag set is stored at the
index `n` of the old style count, the style count becomes `n + 1`, the
current-style index becomes `n`, and the styles at the other indices are
unchanged. -/
theorem FSetActiveStyle_found (h : Header) (disk : Disk) (r : Registries) (szName : Sz)
    (i : Nat) (folder : InterpretationFolder)
    (hcount : r.im.styleCount < h.cMaxStyle)
    (hi : r.ifm.folder[i]? = some folder)
    (hmatch : eqNameI folder.name szName = true ∨ eqNameI folder.displayName szName = true)
    (hfirst : ∀ j : Nat, j < i → ∀ g : InterpretationFolder, r.ifm.folder[j]? = some g →
      eqNameI g.name szName = false ∧ eqNameI g.displayName szName = false) :
    (FSetActiveStyle h disk r szName).1 = true ∧
    (FSetActiveStyle h disk r szName).2.ifm.activeFolder = i ∧
    (FSetActiveStyle h disk r szName).2.ifm.folder[i]? = some { folder with fActive := true } ∧
    (∃ style : InterpretationStyle,
      (FSetActiveStyle h disk r szName).2.im.style r.im.styleCount = some style ∧
      style.fLoaded = true) ∧
    (FSetActiveStyle h disk r szName).2.im.styleCount = r.im.styleCount + 1 ∧
    (FSetActiveStyle h disk r szName).2.im.currentStyle = r.im.styleCount ∧
    (∀ j : Int, j < r.im.styleCount →
      (FSetActiveStyle h disk r szName).2.im.style j = r.im.style j) := by
  have hpos : 1 ≤ r.ifm.folderCount := by
    have := (List.getElem?_eq_some_iff.mp hi).1
    unfold InterpretationFolderManager.folderCount
    omega
  have hens := ensureFolders_of_pos h disk r.ifm hpos
  have hfind : findFolder (fun f => eqNameI f.name szName || eqNameI f.displayName szName)
      (ensureFolders h disk r.ifm).folder 0 = some (i, folder) := by
    rw [hens]
    have := findFolder_first (fun f => eqNameI f.name szName || eqNameI f.displayName szName)
      r.ifm.folder 0 i folder hi (by rcases hmatch with hm | hm <;> simp [hm])
      (fun j hj g hg => by simp [(hfirst j hj g hg).1, (hfirst j hj g hg).2])
    simpa using this
  have hres : FSetActiveStyle h disk r szName =
      activateFolder h disk { r with ifm := r.ifm } i folder := by
    unfold FSetActiveStyle
    rw [if_neg (by omega), hfind, hens]
  rw [hres]
  unfold activateFolder
  rw [if_neg (by simpa using hcount)]
  refine ⟨rfl, rfl, ?_, ⟨folderStyle h disk folder folder.path, by simp, rfl⟩, rfl, rfl, ?_⟩
  · simp only [setActiveFlag_get, hi, Option.map_some']
  · intro j hj
    have : j ≠ r.im.styleCount := by omega
    simp [this]

/-- C15 at a registry holding the folder `modern` and no style: the name
`MODERN` activates folder 0 and makes the new style 0 the current one. -/
theorem FSetActiveStyle_found_witness :
    (FSetActiveStyle sampleHeader sampleDisk
        ⟨emptyRegistry, { emptyFolders with folder := [folderNamed "modern" "/styles/modern"] }⟩
        "MODERN".toList).1 = true ∧
    (FSetActiveStyle sampleHeader sampleDisk
        ⟨emptyRegistry, { emptyFolders with folder := [folderNamed "modern" "/styles/modern"] }⟩
        "MODERN".toList).2.im.currentStyle = 0 :=
  ⟨(FSetActiveStyle_found sampleHeader sampleDisk
      ⟨emptyRegistry, { emptyFolders with folder := [folderNamed "modern" "/styles/modern"] }⟩
      "MODERN".toList 0 (folderNamed "modern" "/styles/modern") (by decide) rfl
      (Or.inl (by decide)) (fun j hj => absurd hj (by omega))).1,
   (FSetActiveStyle_found sampleHeader sampleDisk
      ⟨emptyRegistry, { emptyFolders with folder := [folderNamed "modern" "/styles/modern"] }⟩
      "MODERN".toList 0 (folderNamed "modern" "/styles/modern") (by decide) rfl
      (Or.inl (by decide)) (fun j hj => absurd hj (by omega))).2.2.2.2.2.1⟩

/-! ## Growth of the collections (C16) -/

theorem take_succ_set (l : List InterpretationCombo) (n : Nat) (e : InterpretationCombo)
    (hn : n < l.length) : (l.set n e).take (n + 1) = l.take n ++ [e] := by
  induction l generalizing n with
  | nil => simp at hn
  | cons a as ih =>
    cases n with
    | zero => simp
    | succ n =>
      simp only [List.length_cons] at hn
      simp [ih n (by omega)]

theorem copyCombos_length (combos : List InterpretationCombo) (n : Nat)
    (fresh : List InterpretationCombo) : (copyCombos combos n fresh).length = fresh.length := by
  induction n with
  | zero => rfl
  | succ n ih => simp [copyCombos, ih]

theorem copyCombos_take (combos : List InterpretationCombo) (n : Nat)
    (fresh : List InterpretationCombo) (h1 : n ≤ combos.length) (h2 : n ≤ fresh.length) :
    (copyCombos combos n fresh).take n = combos.take n := by
  induction n with
  | zero => simp
  | succ n ih =>
    have hlen : n < (copyCombos combos n fresh).length := by
      rw [copyCombos_length]; omega
    have hget : combos[n]? = some (combos.getD n { key := none, value := none }) := by
      rw [List.getD_eq_getElem?_getD, List.getElem?_eq_getElem (by omega)]
      rfl
    simp only [copyCombos]
    rw [take_succ_set _ _ _ hlen, ih (by omega) (by omega), List.take_succ, hget]
    rfl

theorem take_eq_getElem? {l1 l2 : List InterpretationCombo} {n : Nat}
    (h : l1.take n = l2.take n) (i : Nat) (hi : i < n) : l1[i]? = l2[i]? := by
  rw [← List.getElem?_take_of_lt hi, h, List.getElem?_take_of_lt hi]

/-- The append of the single-file loader, slot by slot, adds the entry at the
end of the entries whether or not the array has to grow. -/
theorem growAppend_entries (a : ComboArray) (fresh : List InterpretationCombo)
    (e : InterpretationCombo) (hslots : a.slots.length = a.alloc) (hcount : a.count ≤ a.alloc)
    (hfresh : fresh.length = a.alloc + COMBO_ALLOC) :
    (growAppend a fresh e).entries = a.entries ++ [e] := by
  unfold growAppend ComboArray.entries
  split
  · have hc : a.count < (copyCombos a.slots a.count fresh).length := by
      rw [copyCombos_length, hfresh]; unfold COMBO_ALLOC; omega
    simp only
    rw [take_succ_set _ _ _ hc, copyCombos_take _ _ _ (by omega) (by rw [hfresh]; omega)]
  · simp only
    rw [take_succ_set _ _ _ (by omega)]

/-- The append of the per-folder loader, slot by slot, adds the entry at the
end of the entries as long as the count is below the ceiling. -/
theorem growAppendCapped_entries (step ceiling : Nat) (a : ComboArray)
    (fresh : List InterpretationCombo) (e : InterpretationCombo)
    (hslots : a.slots.length = a.alloc) (hcount : a.count ≤ a.alloc)
    (hstep : 0 < step) (hbelow : a.count < ceiling)
    (hfresh : fresh.length = min (a.alloc + step) ceiling) :
    (growAppendCapped step ceiling a fresh e).entries = a.entries ++ [e] := by
  unfold growAppendCapped ComboArray.entries
  split
  · have hmin : a.count < min (a.alloc + step) ceiling := by
      rw [Nat.lt_min]; omega
    rw [if_neg (by omega)]
    have hc : a.count < (copyCombos a.slots a.count fresh).length := by
      rw [copyCombos_length, hfresh]; exact hmin
    simp only
    rw [take_succ_set _ _ _ hc, copyCombos_take _ _ _ (by omega) (by rw [hfresh]; omega)]
  · simp only
    rw [take_succ_set _ _ _ (by omega)]

/-- C16: in both loaders, appending an entry to a combo or aspect-combo array
whose count equals its capacity, below any ceiling, copies the old entries
into the new block: the first `count` slots hold the same entries at the same
indices as before, the slot at index `count` holds the new entry, and the
entries after the append are the entries before it with the new entry added
at the end, whatever the new block held.  The collections of a style, kept
as the lists of their entries, change accordingly in `FLoadInterpretationStyle`
(capacity plus 64) and in `FLoadAISFileIntoStyle` (capacity plus 500 up to 2000,
plus 250 up to 1000). -/
theorem growth_keeps_content (a : ComboArray) (fresh : List InterpretationCombo)
    (e : InterpretationCombo) (hslots : a.slots.length = a.alloc) (hfull : a.count = a.alloc) :
    (fresh.length = a.alloc + COMBO_ALLOC →
      (∀ i : Nat, i < a.count → (growAppend a fresh e).slots[i]? = a.slots[i]?) ∧
      (growAppend a fresh e).slots[a.count]? = some e ∧
      (growAppend a fresh e).entries = a.entries ++ [e] ∧
      (growAppend a fresh e).count = a.count + 1 ∧
      (growAppend a fresh e).alloc = a.alloc + COMBO_ALLOC) ∧
    (∀ step ceiling : Nat, 0 < step → a.alloc < ceiling →
      fresh.length = min (a.alloc + step) ceiling →
      (∀ i : Nat, i < a.count →
        (growAppendCapped step ceiling a fresh e).slots[i]? = a.slots[i]?) ∧
      (growAppendCapped step ceiling a fresh e).slots[a.count]? = some e ∧
      (growAppendCapped step ceiling a fresh e).entries = a.entries ++ [e] ∧
      (growAppendCapped step ceiling a fresh e).count = a.count + 1 ∧
      (growAppendCapped step ceiling a fresh e).alloc = min (a.alloc + step) ceiling) ∧
    (∀ (style : InterpretationStyle) (key value : Sz),
      (style.comboCount = style.comboAlloc →
        (appendCombo style key value).combos =
            style.combos ++ [{ key := some key, value := some value }] ∧
          (appendCombo style key value).comboAlloc = style.comboAlloc + COMBO_ALLOC ∧
        (style.comboAlloc < 2000 →
          (appendComboCapped style key value).combos =
              style.combos ++ [{ key := some key, value := some value }] ∧
            (appendComboCapped style key value).comboAlloc =
              min (style.comboAlloc + 500) 2000)) ∧
      (style.aspectComboCount = style.aspectComboAlloc →
        (appendAspectCombo style key value).aspectCombos =
            style.aspectCombos ++ [{ key := some key, value := some value }] ∧
          (appendAspectCombo style key value).aspectComboAlloc =
            style.aspectComboAlloc + COMBO_ALLOC ∧
        (style.aspectComboAlloc < 1000 →
          (appendAspectComboCapped style key value).aspectCombos =
              style.aspectCombos ++ [{ key := some key, value := some value }] ∧
            (appendAspectComboCapped style key value).aspectComboAlloc =
              min (style.aspectComboAlloc + 250) 1000))) := by
  refine ⟨fun hfresh => ?_, fun step ceiling hstep hceil hfresh => ?_, fun style key value => ?_⟩
  · have hent := growAppend_entries a fresh e hslots (by omega) hfresh
    have hg : growAppend a fresh e =
        { slots := (copyCombos a.slots a.count fresh).set a.count e,
          count := a.count + 1, alloc := a.alloc + COMBO_ALLOC } := by
      unfold growAppend
      rw [if_pos (by omega)]
    have hc : a.count < (copyCombos a.slots a.count fresh).length := by
      rw [copyCombos_length, hfresh]; unfold COMBO_ALLOC; omega
    have hcopy := copyCombos_take a.slots a.count fresh (by omega) (by rw [hfresh]; omega)
    refine ⟨fun i hi => ?_, ?_, hent, by rw [hg], by rw [hg]⟩
    · rw [hg]
      show ((copyCombos a.slots a.count fresh).set a.count e)[i]? = a.slots[i]?
      rw [List.getElem?_set_ne (by omega)]
      exact take_eq_getElem? hcopy i hi
    · rw [hg]
      exact List.getElem?_set_self hc
  · have hmin : a.count < min (a.alloc + step) ceiling := by
      rw [Nat.lt_min]; omega
    have hent := growAppendCapped_entries step ceiling a fresh e hslots (by omega) hstep
      (by omega) hfresh
    have hg : growAppendCapped step ceiling a fresh e =
        { slots := (copyCombos a.slots a.count fresh).set a.count e,
          count := a.count + 1, alloc := min (a.alloc + step) ceiling } := by
      unfold growAppendCapped
      rw [if_pos (by omega), if_neg (by omega)]
    have hc : a.count < (copyCombos a.slots a.count fresh).length := by
      rw [copyCombos_length, hfresh]; exact hmin
    have hcopy := copyCombos_take a.slots a.count fresh (by omega) (by rw [hfresh]; omega)
    refine ⟨fun i hi => ?_, ?_, hent, by rw [hg], by rw [hg]⟩
    · rw [hg]
      show ((copyCombos a.slots a.count fresh).set a.count e)[i]? = a.slots[i]?
      rw [List.getElem?_set_ne (by omega)]
      exact take_eq_getElem? hcopy i hi
    · rw [hg]
      exact List.getElem?_set_self hc
  · constructor
    · intro hfullc
      refine ⟨rfl, ?_, fun hlt => ?_⟩
      · simp only [appendCombo]
        rw [if_pos (by omega)]
      · have hmin : style.comboCount < min (style.comboAlloc + 500) 2000 := by
          rw [Nat.lt_min]; omega
        unfold appendComboCapped
        rw [if_pos (by omega), if_neg (by omega)]
        exact ⟨rfl, rfl⟩
    · intro hfullc
      refine ⟨rfl, ?_, fun hlt => ?_⟩
      · simp only [appendAspectCombo]
        rw [if_pos (by omega)]
      · have hmin : style.aspectComboCount < min (style.aspectComboAlloc + 250) 1000 := by
          rw [Nat.lt_min]; omega
        unfold appendAspectComboCapped
        rw [if_pos (by omega), if_neg (by omega)]
        exact ⟨rfl, rfl⟩

/-- C16 at an array of two entries with capacity two: the third entry goes
into the new block after the first two. -/
theorem growth_keeps_content_witness :
    (growAppend ⟨[entry "0+1+1" "A", entry "0+1+*" "B"], 2, 2⟩
        (List.replicate 66 ⟨none, none⟩) (entry "0+*+1" "C")).entries =
      [entry "0+1+1" "A", entry "0+1+*" "B", entry "0+*+1" "C"] :=
  ((growth_keeps_content ⟨[entry "0+1+1" "A", entry "0+1+*" "B"], 2, 2⟩
      (List.replicate 66 ⟨none, none⟩) (entry "0+*+1" "C") rfl rfl).1 (by decide)).2.2.1

/-! ## Ceilings of the per-folder merge (C17) -/

/-- A property of the two collections and their capacities that both capped
appends keep is kept by every pair the per-folder loader stores. -/
theorem aisStore_keeps (P : InterpretationStyle → Prop)
    (hcongr : ∀ s t : InterpretationStyle, s.combos = t.combos → s.comboAlloc = t.comboAlloc →
      s.aspectCombos = t.aspectCombos → s.aspectComboAlloc = t.aspectComboAlloc → P s → P t)
    (hc : ∀ s k v, P s → P (appendComboCapped s k v))
    (ha : ∀ s k v, P s → P (appendAspectComboCapped s k v))
    (h : Header) (sec : Nat) (s : InterpretationStyle) (k v : Sz) (hs : P s) :
    P (aisStore h sec s k v) := by
  unfold aisStore
  split
  · split
    · exact hcongr s _ rfl rfl rfl rfl hs
    · exact hs
  · split
    · exact hcongr s _ rfl rfl rfl rfl hs
    · exact hs
  · split
    · exact hcongr s _ rfl rfl rfl rfl hs
    · exact hs
  · split
    · exact hc s k v hs
    · exact hs
  · split
    · exact ha s k v hs
    · exact hs
  · exact hs

/-- A line of the per-folder loader changes the style by storing one pair, or
not at all. -/
theorem aisLine_style (h : Header) (st : AisState) (line : Sz) :
    (aisLine h st line).style = st.style ∨
      ∃ k v : Sz, (aisLine h st line).style = aisStore h st.iSection st.style k v := by
  unfold aisLine
  split
  · exact Or.inl rfl
  · split
    · exact Or.inl rfl
    · split
      · split
        · exact Or.inl rfl
        · exact Or.inr ⟨_, _, rfl⟩
      · split
        · exact Or.inl rfl
        · split
          · exact Or.inl rfl
          · exact Or.inr ⟨_, _, rfl⟩

theorem aisLines_keep (P : InterpretationStyle → Prop)
    (hstore : ∀ (h : Header) (sec : Nat) (s : InterpretationStyle) (k v : Sz),
      P s → P (aisStore h sec s k v))
    (h : Header) (lines : List Sz) (st : AisState) (hs : P st.style) :
    P ((lines.foldl (aisLine h) st).style) := by
  induction lines generalizing st with
  | nil => exact hs
  | cons l ls ih =>
    rw [List.foldl_cons]
    apply ih
    rcases aisLine_style h st l with he | ⟨k, v, he⟩
    · rw [he]; exact hs
    · rw [he]; exact hstore h _ _ k v hs

theorem aisStore_combo (h : Header) (s : InterpretationStyle) (k v : Sz)
    (hk : (sscanf3 k).1 > 0 ∧ (sscanf3 k).2.1 > 0 ∧ (sscanf3 k).2.2 > 0) :
    aisStore h 5 s k v = appendComboCapped s k v := by
  simp only [aisStore]
  rw [if_pos hk]

theorem filledStyle_eq (n : Nat) (hn : n ≤ 2000) :
    filledStyle n =
      { newStyle [] with
        combos := List.replicate n (entry "1+1+1" "A"),
        comboAlloc := 500 * ((n + 499) / 500) } := by
  induction n with
  | zero => rfl
  | succ n ih =>
    have hstep : filledStyle (n + 1) =
        aisStore sampleHeader 5 (filledStyle n) "1+1+1".toList "A".toList := by
      unfold filledStyle
      rw [Function.iterate_succ_apply']
    rw [hstep, ih (by omega), aisStore_combo _ _ _ _ (by decide)]
    have hy : List.replicate n (entry "1+1+1" "A") ++
        [{ key := some "1+1+1".toList, value := some "A".toList }] =
        List.replicate (n + 1) (entry "1+1+1" "A") := by
      rw [List.replicate_succ']
      rfl
    unfold appendComboCapped
    simp only [InterpretationStyle.comboCount, List.length_replicate]
    by_cases hfull : n ≥ 500 * ((n + 499) / 500)
    · have hx : min (500 * ((n + 499) / 500) + 500) 2000 = 500 * ((n + 1 + 499) / 500) := by
        rw [Nat.min_def]
        split <;> omega
      rw [if_pos hfull, if_neg (by rw [hx]; omega), hx, hy]
    · have hx : 500 * ((n + 499) / 500) = 500 * ((n + 1 + 499) / 500) := by omega
      rw [if_neg hfull, hy, hx]

/-- The full style is the one that 2000 accepted entries of `[combinations]`
leave in a freshly allocated style, and one entry more leaves it as it is. -/
theorem fullComboStyle_reached :
    filledStyle 2000 = fullComboStyle ∧ filledStyle 2001 = fullComboStyle := by
  have h2000 : filledStyle 2000 = fullComboStyle := filledStyle_eq 2000 (by decide)
  refine ⟨h2000, ?_⟩
  have hstep : filledStyle 2001 =
      aisStore sampleHeader 5 (filledStyle 2000) "1+1+1".toList "A".toList := by
    unfold filledStyle
    rw [Function.iterate_succ_apply']
  rw [hstep, h2000, aisStore_combo _ _ _ _ (by decide)]
  unfold appendComboCapped
  simp only [InterpretationStyle.comboCount, fullComboStyle, List.length_replicate]
  rw [if_pos (by decide), if_pos (by decide)]

theorem allSet_append (l : List InterpretationCombo) (k v : Sz) (hl : AllSet l) :
    AllSet (l ++ [{ key := some k, value := some v }]) := by
  intro e he
  rcases List.mem_append.mp he with he | he
  · exact hl e he
  · exact ⟨k, v, by simpa using he⟩

theorem invariant_congr (s t : InterpretationStyle) (h1 : s.combos = t.combos)
    (h2 : s.comboAlloc = t.comboAlloc) (h3 : s.aspectCombos = t.aspectCombos)
    (h4 : s.aspectComboAlloc = t.aspectComboAlloc) (hs : StoreInvariant s) :
    StoreInvariant t := by
  unfold StoreInvariant InterpretationStyle.comboCount InterpretationStyle.aspectComboCount
    at hs ⊢
  rw [← h1, ← h2, ← h3, ← h4]
  exact hs

theorem appendCombo_invariant (s : InterpretationStyle) (k v : Sz) (hs : StoreInvariant s) :
    StoreInvariant (appendCombo s k v) := by
  obtain ⟨h1, h2, h3, h4⟩ := hs
  unfold InterpretationStyle.comboCount at h1
  refine ⟨?_, h2, allSet_append _ k v h3, h4⟩
  simp only [appendCombo, InterpretationStyle.comboCount, List.length_append,
    List.length_singleton, COMBO_ALLOC]
  split <;> omega

theorem appendAspectCombo_invariant (s : InterpretationStyle) (k v : Sz)
    (hs : StoreInvariant s) : StoreInvariant (appendAspectCombo s k v) := by
  obtain ⟨h1, h2, h3, h4⟩ := hs
  unfold InterpretationStyle.aspectComboCount at h2
  refine ⟨h1, ?_, h3, allSet_append _ k v h4⟩
  simp only [appendAspectCombo, InterpretationStyle.aspectComboCount, List.length_append,
    List.length_singleton, COMBO_ALLOC]
  split <;> omega

theorem appendComboCapped_invariant (s : InterpretationStyle) (k v : Sz)
    (hs : StoreInvariant s) : StoreInvariant (appendComboCapped s k v) := by
  obtain ⟨h1, h2, h3, h4⟩ := hs
  unfold InterpretationStyle.comboCount at h1
  unfold appendComboCapped
  simp only [InterpretationStyle.comboCount]
  split
  · split
    · exact ⟨h1, h2, h3, h4⟩
    · refine ⟨?_, h2, allSet_append _ k v h3, h4⟩
      simp only [InterpretationStyle.comboCount, List.length_append, List.length_singleton]
      omega
  · refine ⟨?_, h2, allSet_append _ k v h3, h4⟩
    simp only [InterpretationStyle.comboCount, List.length_append, List.length_singleton]
    omega

theorem appendAspectComboCapped_invariant (s : InterpretationStyle) (k v : Sz)
    (hs : StoreInvariant s) : StoreInvariant (appendAspectComboCapped s k v) := by
  obtain ⟨h1, h2, h3, h4⟩ := hs
  unfold InterpretationStyle.aspectComboCount at h2
  unfold appendAspectComboCapped
  simp only [InterpretationStyle.aspectComboCount]
  split
  · split
    · exact ⟨h1, h2, h3, h4⟩
    · refine ⟨h1, ?_, h3, allSet_append _ k v h4⟩
      simp only [InterpretationStyle.aspectComboCount, List.length_append,
        List.length_singleton]
      omega
  · refine ⟨h1, ?_, h3, allSet_append _ k v h4⟩
    simp only [InterpretationStyle.aspectComboCount, List.length_append, List.length_singleton]
    omega

/-- A property of the two collections and their capacities that both appends
of the single-file loader keep is kept by every pair that loader processes. -/
theorem processValue_keeps (P : InterpretationStyle → Prop)
    (hcongr : ∀ s t : InterpretationStyle, s.combos = t.combos → s.comboAlloc = t.comboAlloc →
      s.aspectCombos = t.aspectCombos → s.aspectComboAlloc = t.aspectComboAlloc → P s → P t)
    (hc : ∀ s k v, P s → P (appendCombo s k v))
    (ha : ∀ s k v, P s → P (appendAspectCombo s k v))
    (h : Header) (sec : Nat) (s : InterpretationStyle) (k v : Sz) (hs : P s) :
    P (processValue h sec s k v) := by
  unfold processValue
  split
  · split
    · exact hcongr s _ rfl rfl rfl rfl hs
    · split
      · exact hcongr s _ rfl rfl rfl rfl hs
      · split
        · exact hcongr s _ rfl rfl rfl rfl hs
        · exact hs
  · dsimp only
    split
    · exact hcongr s _ rfl rfl rfl rfl hs
    · exact hs
  · dsimp only
    split
    · exact hcongr s _ rfl rfl rfl rfl hs
    · exact hs
  · dsimp only
    split
    · exact hcongr s _ rfl rfl rfl rfl hs
    · exact hs
  · split
    · exact hc s k v hs
    · exact hs
  · dsimp only
    split
    · exact hcongr s _ rfl rfl rfl rfl hs
    · exact hs
  · split
    · exact ha s k v hs
    · exact hs
  · split
    · exact hcongr s _ rfl rfl rfl rfl hs
    · split
      · exact hcongr s _ rfl rfl rfl rfl hs
      · exact hs
  · exact hs

/-- A line of the single-file loader changes the style by processing one
pair, or not at all. -/
theorem loadLine_style (h : Header) (st : LoadState) (line : Sz) :
    (loadLine h st line).style = st.style ∨
      ∃ k v : Sz, (loadLine h st line).style = processValue h st.iSection st.style k v := by
  unfold loadLine
  split
  · split
    · exact Or.inr ⟨_, _, rfl⟩
    · exact Or.inl rfl
  · split
    · exact Or.inl rfl
    · split
      · exact Or.inl rfl
      · split
        · exact Or.inl rfl
        · exact Or.inr ⟨_, _, rfl⟩

theorem loadLines_keep (P : InterpretationStyle → Prop)
    (hstore : ∀ (h : Header) (sec : Nat) (s : InterpretationStyle) (k v : Sz),
      P s → P (processValue h sec s k v))
    (h : Header) (lines : List Sz) (st : LoadState) (hs : P st.style) :
    P ((lines.foldl (loadLine h) st).style) := by
  induction lines generalizing st with
  | nil => exact hs
  | cons l ls ih =>
    rw [List.foldl_cons]
    apply ih
    rcases loadLine_style h st l with he | ⟨k, v, he⟩
    · rw [he]; exact hs
    · rw [he]; exact hstore h _ _ k v hs

theorem processValue_invariant (h : Header) (sec : Nat) (s : InterpretationStyle) (k v : Sz)
    (hs : StoreInvariant s) : StoreInvariant (processValue h sec s k v) :=
  processValue_keeps StoreInvariant invariant_congr appendCombo_invariant
    appendAspectCombo_invariant h sec s k v hs

theorem aisStore_invariant (h : Header) (sec : Nat) (s : InterpretationStyle) (k v : Sz)
    (hs : StoreInvariant s) : StoreInvariant (aisStore h sec s k v) :=
  aisStore_keeps StoreInvariant invariant_congr appendComboCapped_invariant
    appendAspectComboCapped_invariant h sec s k v hs

theorem invariant_of_fresh {s : InterpretationStyle} (hs : FreshStore s) :
    StoreInvariant s := by
  obtain ⟨h1, h2, h3, h4⟩ := hs
  unfold StoreInvariant InterpretationStyle.comboCount InterpretationStyle.aspectComboCount
    AllSet
  rw [h1, h2, h3, h4]
  simp

theorem allSet_index {l : List InterpretationCombo} (hl : AllSet l) (i : Nat)
    (hi : i < l.length) :
    ∃ (e : InterpretationCombo) (k v : Sz), l[i]? = some e ∧ e.key = some k ∧
      e.value = some v := by
  obtain ⟨k, v, he⟩ := hl l[i] (List.getElem_mem hi)
  exact ⟨l[i], k, v, List.getElem?_eq_getElem hi, by rw [he], by rw [he]⟩

/-- C18: the style a loader starts from, freshly allocated with both counts
and capacities 0, satisfies the invariant of the style store; every line
processed by `FLoadInterpretationStyle` and every line processed by
`FLoadAISFileIntoStyle` keeps it, so that it holds after every line of any
file; and under the invariant `comboCount <= comboAlloc`,
`aspectComboCount <= aspectComboAlloc`, and every index below a count holds an
entry with a key and a value. -/
theorem store_invariant (h : Header) :
    (∀ szFile : Sz, FreshStore (newStyle szFile)) ∧
    (∀ s : InterpretationStyle, FreshStore s → StoreInvariant s) ∧
    (∀ (st : LoadState) (line : Sz), StoreInvariant st.style →
      StoreInvariant (loadLine h st line).style) ∧
    (∀ (st : AisState) (line : Sz), StoreInvariant st.style →
      StoreInvariant (aisLine h st line).style) ∧
    (∀ (szFile : Sz) (lines : List Sz),
      StoreInvariant ((lines.foldl (loadLine h) (initLoad szFile)).style)) ∧
    (∀ (junk : Sz) (style : InterpretationStyle) (lines : List Sz), FreshStore style →
      StoreInvariant ((lines.foldl (aisLine h) (aisInit junk style)).style)) ∧
    (∀ s : InterpretationStyle, StoreInvariant s →
      s.comboCount ≤ s.comboAlloc ∧ s.aspectComboCount ≤ s.aspectComboAlloc ∧
      (∀ i : Nat, i < s.comboCount →
        ∃ (e : InterpretationCombo) (k v : Sz), s.combos[i]? = some e ∧ e.key = some k ∧
          e.value = some v) ∧
      (∀ i : Nat, i < s.aspectComboCount →
        ∃ (e : InterpretationCombo) (k v : Sz), s.aspectCombos[i]? = some e ∧
          e.key = some k ∧ e.value = some v)) := by
  refine ⟨fun _ => ⟨rfl, rfl, rfl, rfl⟩, fun s hs => invariant_of_fresh hs, ?_, ?_, ?_, ?_, ?_⟩
  · intro st line hs
    rcases loadLine_style h st line with he | ⟨k, v, he⟩
    · rw [he]; exact hs
    · rw [he]; exact processValue_invariant h _ _ k v hs
  · intro st line hs
    rcases aisLine_style h st line with he | ⟨k, v, he⟩
    · rw [he]; exact hs
    · rw [he]; exact aisStore_invariant h _ _ k v hs
  · intro szFile lines
    exact loadLines_keep StoreInvariant processValue_invariant h lines _
      (invariant_of_fresh ⟨rfl, rfl, rfl, rfl⟩)
  · intro junk style lines hf
    exact aisLines_keep StoreInvariant aisStore_invariant h lines _ (invariant_of_fresh hf)
  · intro s hs
    exact ⟨hs.1, hs.2.1, fun i hi => allSet_index hs.2.2.1 i hi,
      fun i hi => allSet_index hs.2.2.2 i hi⟩

/-- C18 at a file with two combo entries: after its lines the count 2 is
within the capacity 64. -/
theorem store_invariant_witness :
    (loadedStyle sampleHeader [] "[combinations]\n1+1+1: A\n1+1+*: B\n".toList).comboCount = 2 ∧
    (loadedStyle sampleHeader [] "[combinations]\n1+1+1: A\n1+1+*: B\n".toList).comboAlloc = 64 ∧
    StoreInvariant
      ((["[combinations]\n".toList, "1+1+1: A\n".toList].foldl (loadLine sampleHeader)
        (initLoad [])).style) :=
  ⟨by decide, by decide,
   (store_invariant sampleHeader).2.2.2.2.1 [] ["[combinations]\n".toList, "1+1+1: A\n".toList]⟩

/-! ## Duplicate keys (C19) -/

theorem lowestWithKey_first (k : Sz) (pre rest : List InterpretationCombo) (v : Option Sz)
    (hpre : ¬ hasKey k pre) :
    lowestWithKey k (pre ++ { key := some k, value := v } :: rest) =
      some { key := some k, value := v } := by
  induction pre with
  | nil => simp [lowestWithKey, List.find?]
  | cons a as ih =>
    have ha : ¬ a.key = some k := fun e => hpre ⟨a, List.mem_cons_self _ _, e⟩
    have has : ¬ hasKey k as := fun ⟨e, he, hk⟩ => hpre ⟨e, List.mem_cons_of_mem _ he, hk⟩
    have := ih has
    simp only [lowestWithKey, List.cons_append, List.find?, ha, decide_False] at this ⊢
    exact this

theorem combos_initial_refl (s : InterpretationStyle) :
    s.combos <+: s.combos ∧ s.aspectCombos <+: s.aspectCombos :=
  ⟨List.prefix_refl _, List.prefix_refl _⟩

/-- Processing a pair never removes or changes an entry: the collections
before are initial parts of the collections after. -/
theorem processValue_initial (h : Header) (sec : Nat) (s0 s : InterpretationStyle) (k v : Sz)
    (hs : s0.combos <+: s.combos ∧ s0.aspectCombos <+: s.aspectCombos) :
    s0.combos <+: (processValue h sec s k v).combos ∧
      s0.aspectCombos <+: (processValue h sec s k v).aspectCombos :=
  processValue_keeps
    (fun t => s0.combos <+: t.combos ∧ s0.aspectCombos <+: t.aspectCombos)
    (fun a b h1 _ h3 _ ha => by
      show s0.combos <+: b.combos ∧ s0.aspectCombos <+: b.aspectCombos
      rw [← h1, ← h3]; exact ha)
    (fun a _ _ ha => ⟨ha.1.trans (List.prefix_append _ _), ha.2⟩)
    (fun a _ _ ha => ⟨ha.1, ha.2.trans (List.prefix_append _ _)⟩)
    h sec s k v hs

/-- C19: in `FLoadInterpretationStyle` every accepted combo pair, and every
accepted aspect-combo pair, adds one entry at the end of its collection,
whether or not the key is already there; no line removes or changes an
entry, the collections before a run of lines being initial parts of the
collections after it; and a query for which a key is the first key of the
fallback chain present in the collection returns the value of the first
entry with that key.  Loaded from a file that lists `1+1+1` twice, the
collection holds both entries in file order and the query (1,1,1) returns
the first value; the same holds for the aspect-combo key `1+2+1`. -/
theorem duplicates_first_wins (h : Header) :
    (∀ (style : InterpretationStyle) (key value : Sz) (t : Int × Int × Int),
      FParseComboKey h key = some t →
      (processValue h 5 style key value).combos =
        style.combos ++ [{ key := some key, value := some value }]) ∧
    (∀ (style : InterpretationStyle) (key value : Sz) (t : Int × Int × Int),
      FParseAspectComboKey h key = some t →
      (processValue h 8 style key value).aspectCombos =
        style.aspectCombos ++ [{ key := some key, value := some value }]) ∧
    (∀ (lines : List Sz) (st : LoadState),
      st.style.combos <+: (lines.foldl (loadLine h) st).style.combos ∧
      st.style.aspectCombos <+: (lines.foldl (loadLine h) st).style.aspectCombos) ∧
    (∀ (im : InterpretationManager) (style : InterpretationStyle) (k : Sz)
      (pre rest : List InterpretationCombo) (v : Option Sz) (obj sign house : Int),
      currentStyle? im = some style →
      style.combos = pre ++ { key := some k, value := v } :: rest → ¬ hasKey k pre →
      FirstInComboChain k style.combos obj sign house →
      SzGetComboInterpretation im obj sign house = v) ∧
    (∀ (im : InterpretationManager) (style : InterpretationStyle) (k : Sz)
      (pre rest : List InterpretationCombo) (v : Option Sz) (obj1 obj2 asp : Int),
      currentStyle? im = some style →
      style.aspectCombos = pre ++ { key := some k, value := v } :: rest → ¬ hasKey k pre →
      FirstInAspectChain k style.aspectCombos obj1 obj2 asp →
      SzGetAspectComboInterpretation im obj1 obj2 asp = v) ∧
    (loadedStyle sampleHeader [] "[combinations]\n1+1+1: A\n1+1+*: W\n1+1+1: B\n".toList).combos =
      [entry "1+1+1" "A", entry "1+1+*" "W", entry "1+1+1" "B"] ∧
    SzGetComboInterpretation
      (loadAsCurrent sampleHeader [] "[combinations]\n1+1+1: A\n1+1+*: W\n1+1+1: B\n".toList)
      1 1 1 = some "A".toList ∧
    (loadedStyle sampleHeader [] "[aspect_combinations]\n1+2+1: A\n1+2+1: B\n".toList).aspectCombos =
      [entry "1+2+1" "A", entry "1+2+1" "B"] ∧
    SzGetAspectComboInterpretation
      (loadAsCurrent sampleHeader [] "[aspect_combinations]\n1+2+1: A\n1+2+1: B\n".toList)
      1 2 1 = some "A".toList := by
  refine ⟨?_, ?_, ?_, ?_, ?_, by decide, by decide, by decide, by decide⟩
  · intro style key value t ht
    simp [processValue, ht, appendCombo]
  · intro style key value t ht
    simp [processValue, ht, appendAspectCombo]
  · intro lines st
    exact loadLines_keep
      (fun t => st.style.combos <+: t.combos ∧ st.style.aspectCombos <+: t.aspectCombos)
      (fun h sec s k v hs => processValue_initial h sec st.style s k v hs)
      h lines st (combos_initial_refl st.style)
  · intro im style k pre rest v obj sign house hcur hc hpre hchain
    rw [SzGetComboInterpretation_of_style hcur]
    have hlow : lowestWithKey k style.combos = some { key := some k, value := v } := by
      rw [hc]; exact lowestWithKey_first k pre rest v hpre
    unfold comboFallback
    rcases hchain with rfl | ⟨rfl, n1⟩ | ⟨rfl, n1, n2⟩ | ⟨rfl, n1, n2, n3⟩
    · rw [hlow]
    · rw [(lowestWithKey_eq_none _ _).mpr n1, hlow]
    · rw [(lowestWithKey_eq_none _ _).mpr n1, (lowestWithKey_eq_none _ _).mpr n2, hlow]
    · rw [(lowestWithKey_eq_none _ _).mpr n1, (lowestWithKey_eq_none _ _).mpr n2,
        (lowestWithKey_eq_none _ _).mpr n3, hlow]
  · intro im style k pre rest v obj1 obj2 asp hcur hc hpre hchain
    rw [SzGetAspectComboInterpretation_of_style hcur]
    have hlow : lowestWithKey k style.aspectCombos = some { key := some k, value := v } := by
      rw [hc]; exact lowestWithKey_first k pre rest v hpre
    unfold aspectComboFallback
    rcases hchain with rfl | ⟨rfl, n1⟩ | ⟨rfl, n1, n2⟩
    · rw [hlow]
    · rw [(lowestWithKey_eq_none _ _).mpr n1, hlow]
    · rw [(lowestWithKey_eq_none _ _).mpr n1, (lowestWithKey_eq_none _ _).mpr n2, hlow]

/-- C19 at the collection `1+1+*: W`, `1+1+1: A`, `1+1+1: B`: the query
(1,1,1) returns `A`, the value of the first of the two entries keyed
`1+1+1`. -/
theorem duplicates_first_wins_witness :
    SzGetComboInterpretation
        (registryOf (styleOf [entry "1+1+*" "W", entry "1+1+1" "A", entry "1+1+1" "B"] []))
        1 1 1 = some "A".toList :=
  (duplicates_first_wins sampleHeader).2.2.2.1
    (registryOf (styleOf [entry "1+1+*" "W", entry "1+1+1" "A", entry "1+1+1" "B"] []))
    (styleOf [entry "1+1+*" "W", entry "1+1+1" "A", entry "1+1+1" "B"] [])
    "1+1+1".toList [entry "1+1+*" "W"] [entry "1+1+1" "B"] (some "A".toList) 1 1 1
    (currentStyle?_eq_some (by decide) (by decide) rfl rfl) rfl
    (by rintro ⟨e, he, hk⟩
        simp only [List.mem_singleton] at he
        subst he
        exact absurd hk (by decide))
    (Or.inl (by decide))

/-! ## The single-file loader and the registry (C29) -/

theorem currentStyle?_load (h : Header) (im : InterpretationManager) (szFile : Sz)
    (file : Option Sz) :
    currentStyle? (FLoadInterpretationStyle h im szFile file).2 = currentStyle? im := by
  cases file with
  | none => rfl
  | some content =>
    unfold currentStyle? FLoadInterpretationStyle
    dsimp only
    by_cases hc : im.currentStyle < 0 ∨ im.currentStyle ≥ im.styleCount
    · rw [if_pos hc, if_pos hc]
    · rw [if_neg hc, if_neg hc]
      have hne : im.currentStyle ≠ im.styleCount := by omega
      rw [if_neg hne]

/-- C29: `FLoadInterpretationStyle` does not register what it loads.  For
every registry and every file that opens, the call returns success and writes
the new style into the style list at index `styleCount`; the other slots, the
style count, the current-style index and the path list stay as they were, so
each of the three resolvers returns, for every query, what it returned before
the load; and a second successful load writes the same slot again: the
registry after two loads is the registry after the second load alone. -/
theorem FLoadInterpretationStyle_unregistered (h : Header) (im : InterpretationManager)
    (szFile content : Sz) :
    (FLoadInterpretationStyle h im szFile (some content)).1 = true ∧
    (FLoadInterpretationStyle h im szFile (some content)).2.style im.styleCount =
      some (loadedStyle h szFile content) ∧
    (∀ j : Int, j ≠ im.styleCount →
      (FLoadInterpretationStyle h im szFile (some content)).2.style j = im.style j) ∧
    (FLoadInterpretationStyle h im szFile (some content)).2.styleCount = im.styleCount ∧
    (FLoadInterpretationStyle h im szFile (some content)).2.currentStyle = im.currentStyle ∧
    (FLoadInterpretationStyle h im szFile (some content)).2.stylePath = im.stylePath ∧
    (∀ obj sign house : Int,
      SzGetComboInterpretation (FLoadInterpretationStyle h im szFile (some content)).2
        obj sign house = SzGetComboInterpretation im obj sign house) ∧
    (∀ asp nOrb : Int,
      SzGetAspectInterpretation h (FLoadInterpretationStyle h im szFile (some content)).2
        asp nOrb = SzGetAspectInterpretation h im asp nOrb) ∧
    (∀ obj1 obj2 asp : Int,
      SzGetAspectComboInterpretation (FLoadInterpretationStyle h im szFile (some content)).2
        obj1 obj2 asp = SzGetAspectComboInterpretation im obj1 obj2 asp) ∧
    (∀ szFile2 content2 : Sz,
      (FLoadInterpretationStyle h (FLoadInterpretationStyle h im szFile (some content)).2
        szFile2 (some content2)).2 =
      (FLoadInterpretationStyle h im szFile2 (some content2)).2) := by
  have hcur := currentStyle?_load h im szFile (some content)
  refine ⟨rfl, ?_, ?_, rfl, rfl, rfl, ?_, ?_, ?_, ?_⟩
  · simp [FLoadInterpretationStyle]
  · intro j hj
    simp [FLoadInterpretationStyle, hj]
  · intro obj sign house
    unfold SzGetComboInterpretation
    rw [hcur]
  · intro asp nOrb
    unfold SzGetAspectInterpretation
    rw [hcur]
  · intro obj1 obj2 asp
    unfold SzGetAspectComboInterpretation
    rw [hcur]
  · intro szFile2 content2
    unfold FLoadInterpretationStyle
    dsimp only
    congr 1
    funext j
    by_cases hj : j = im.styleCount
    · rw [if_pos hj, if_pos hj]
    · rw [if_neg hj, if_neg hj, if_neg hj]

/-- C29 at the empty registry: after a load the style stands in slot 0, the
style count is still 0 and the current-style index still -1, and the combo
query for an entry of the file has no result. -/
theorem FLoadInterpretationStyle_unregistered_witness :
    ((FLoadInterpretationStyle sampleHeader emptyRegistry "f".toList
        (some "[combinations]\n1+1+1: A\n".toList)).2.style 0).map (fun s => s.combos) =
      some [entry "1+1+1" "A"] ∧
    (FLoadInterpretationStyle sampleHeader emptyRegistry "f".toList
        (some "[combinations]\n1+1+1: A\n".toList)).2.styleCount = 0 ∧
    (FLoadInterpretationStyle sampleHeader emptyRegistry "f".toList
        (some "[combinations]\n1+1+1: A\n".toList)).2.currentStyle = -1 ∧
    SzGetComboInterpretation (FLoadInterpretationStyle sampleHeader emptyRegistry "f".toList
        (some "[combinations]\n1+1+1: A\n".toList)).2 1 1 1 = none := by
  have hw := FLoadInterpretationStyle_unregistered sampleHeader emptyRegistry "f".toList
    "[combinations]\n1+1+1: A\n".toList
  refine ⟨?_, hw.2.2.2.1, hw.2.2.2.2.1, ?_⟩
  · have h2 := hw.2.1
    have e : emptyRegistry.styleCount = 0 := rfl
    rw [e] at h2
    rw [h2]
    decide
  · rw [hw.2.2.2.2.2.2.1]
    decide

/-! ## Activation with a full style list (C30) -/

/-- C30: a failed activation is not atomic.  For every state of the
registries whose style list holds `cMaxStyle` styles or more and every name
that matches, up to case, the directory name or the display name of a
registered folder, `FSetActiveStyle` returns failure and leaves the style
registry (style list, style count, current-style index) as it was; yet the
first matching folder `i` has its active flag set, and the active index and
the active path designate it. -/
theorem FSetActiveStyle_full (h : Header) (disk : Disk) (r : Registries) (szName : Sz)
    (i : Nat) (folder : InterpretationFolder)
    (hfull : r.im.styleCount ≥ h.cMaxStyle)
    (hi : r.ifm.folder[i]? = some folder)
    (hmatch : eqNameI folder.name szName = true ∨ eqNameI folder.displayName szName = true)
    (hfirst : ∀ j : Nat, j < i → ∀ g : InterpretationFolder, r.ifm.folder[j]? = some g →
      eqNameI g.name szName = false ∧ eqNameI g.displayName szName = false) :
    (FSetActiveStyle h disk r szName).1 = false ∧
    (FSetActiveStyle h disk r szName).2.im = r.im ∧
    (FSetActiveStyle h disk r szName).2.ifm.folder[i]? = some { folder with fActive := true } ∧
    (FSetActiveStyle h disk r szName).2.ifm.activeFolder = i ∧
    (FSetActiveStyle h disk r szName).2.ifm.activePath = folder.path := by
  have hpos : 1 ≤ r.ifm.folderCount := by
    have := (List.getElem?_eq_some_iff.mp hi).1
    unfold InterpretationFolderManager.folderCount
    omega
  have hens := ensureFolders_of_pos h disk r.ifm hpos
  have hfind : findFolder (fun f => eqNameI f.name szName || eqNameI f.displayName szName)
      (ensureFolders h disk r.ifm).folder 0 = some (i, folder) := by
    rw [hens]
    have := findFolder_first (fun f => eqNameI f.name szName || eqNameI f.displayName szName)
      r.ifm.folder 0 i folder hi (by rcases hmatch with hm | hm <;> simp [hm])
      (fun j hj g hg => by simp [(hfirst j hj g hg).1, (hfirst j hj g hg).2])
    simpa using this
  have hres : FSetActiveStyle h disk r szName =
      activateFolder h disk { r with ifm := r.ifm } i folder := by
    unfold FSetActiveStyle
    rw [if_neg (by omega), hfind, hens]
  rw [hres]
  unfold activateFolder
  rw [if_pos hfull]
  refine ⟨rfl, rfl, ?_, rfl, rfl⟩
  simp only [setActiveFlag_get, hi, Option.map_some']

/-- C30 at a registry holding the folder `modern` and a full style list: the
name `modern` is refused, and folder 0 is flagged active all the same. -/
theorem FSetActiveStyle_full_witness :
    (FSetActiveStyle sampleHeader sampleDisk
        ⟨{ emptyRegistry with styleCount := 4 },
          { emptyFolders with folder := [folderNamed "modern" "/styles/modern"] }⟩
        "modern".toList).1 = false ∧
    (FSetActiveStyle sampleHeader sampleDisk
        ⟨{ emptyRegistry with styleCount := 4 },
          { emptyFolders with folder := [folderNamed "modern" "/styles/modern"] }⟩
        "modern".toList).2.ifm.activeFolder = 0 :=
  ⟨(FSetActiveStyle_full sampleHeader sampleDisk
      ⟨{ emptyRegistry with styleCount := 4 },
        { emptyFolders with folder := [folderNamed "modern" "/styles/modern"] }⟩
      "modern".toList 0 (folderNamed "modern" "/styles/modern") (by decide) rfl
      (Or.inl (by decide)) (fun j hj => absurd hj (by omega))).1,
   (FSetActiveStyle_full sampleHeader sampleDisk
      ⟨{ emptyRegistry with styleCount := 4 },
        { emptyFolders with folder := [folderNamed "modern" "/styles/modern"] }⟩
      "modern".toList 0 (folderNamed "modern" "/styles/modern") (by decide) rfl
      (Or.inl (by decide)) (fun j hj => absurd hj (by omega))).2.2.2.1⟩

/-! ## Empty values of the line parser (C28) -/

/-- C28, evaluated on the code: `ParseLine` tests the value for emptiness
before it removes the trailing white space and backslashes, so a value made
only of characters that the trailing trim removes passes the test and comes
out empty.  The line `k: \` is reported as content with the key `k` and an
empty value, with or without its newline, and so is a line `k:` followed by
its newline. -/
theorem ParseLine_empty_value :
    ParseLine "k: \\".toList = some ("k".toList, []) ∧
    ParseLine "k: \\\n".toList = some ("k".toList, []) ∧
    ParseLine "k:\n".toList = some ("k".toList, []) ∧
    ParseLine "k: \\ \\\n".toList = some ("k".toList, []) := by
  decide

/-! ## Sections of the per-folder loader (C21) -/

theorem aisStore_style_fields (h : Header) (sec : Nat) (s : InterpretationStyle) (k v : Sz) :
    (aisStore h sec s k v).defaultLocation = s.defaultLocation ∧
    (aisStore h sec s k v).defaultAspect = s.defaultAspect ∧
    (aisStore h sec s k v).aspectInteract = s.aspectInteract ∧
    (aisStore h sec s k v).aspectTherefore = s.aspectTherefore ∧
    (aisStore h sec s k v).signDesire = s.signDesire ∧
    (aisStore h sec s k v).name = s.name ∧
    (aisStore h sec s k v).author = s.author ∧
    (aisStore h sec s k v).version = s.version := by
  unfold aisStore
  split
  · split <;> exact ⟨rfl, rfl, rfl, rfl, rfl, rfl, rfl, rfl⟩
  · split <;> exact ⟨rfl, rfl, rfl, rfl, rfl, rfl, rfl, rfl⟩
  · split <;> exact ⟨rfl, rfl, rfl, rfl, rfl, rfl, rfl, rfl⟩
  · split
    · unfold appendComboCapped
      split
      · split <;> exact ⟨rfl, rfl, rfl, rfl, rfl, rfl, rfl, rfl⟩
      · exact ⟨rfl, rfl, rfl, rfl, rfl, rfl, rfl, rfl⟩
    · exact ⟨rfl, rfl, rfl, rfl, rfl, rfl, rfl, rfl⟩
  · split
    · unfold appendAspectComboCapped
      split
      · split <;> exact ⟨rfl, rfl, rfl, rfl, rfl, rfl, rfl, rfl⟩
      · exact ⟨rfl, rfl, rfl, rfl, rfl, rfl, rfl, rfl⟩
    · exact ⟨rfl, rfl, rfl, rfl, rfl, rfl, rfl, rfl⟩
  · exact ⟨rfl, rfl, rfl, rfl, rfl, rfl, rfl, rfl⟩

/-- C21 fails on the code: merged by `FLoadAISFileIntoStyle`, the file with
`default_location: T` under `[templates]` leaves `defaultLocation` unset, and
the file with `1: T` under `[aspects]` leaves `aspectInteract[1]` unset, while
`FLoadInterpretationStyle` builds from the same files a style with
`defaultLocation` and `aspectInteract[1]` set to `T`. -/
theorem ais_sections_counterexample :
    (FLoadAISFileIntoStyle sampleHeader [] (newStyle [])
        (some "[templates]\ndefault_location: T\n".toList)).2.defaultLocation = none ∧
    (loadedStyle sampleHeader [] "[templates]\ndefault_location: T\n".toList).defaultLocation =
      some "T".toList ∧
    (FLoadAISFileIntoStyle sampleHeader [] (newStyle [])
        (some "[aspects]\n1: T\n".toList)).2.aspectInteract 1 = none ∧
    (loadedStyle sampleHeader [] "[aspects]\n1: T\n".toList).aspectInteract 1 =
      some "T".toList := by
  decide

/-- C21 as amended: the per-folder loader recognises six section names,
`metadata`, `planet_meanings`, `sign_descriptions`, `house_areas`,
`combinations` and `aspect_combinations`; every other name, `aspects` and
`templates` included, selects no section, and a pair read in no section or
under `metadata` leaves the style as it was.  Whatever file is merged into
whatever style, `defaultLocation`, `defaultAspect`, `aspectInteract`,
`aspectTherefore`, `signDesire` and the three metadata texts of the style
stay as they were.  `FLoadInterpretationStyle` gives `[aspects]` and
`[templates]` the sections 6 and 7, where a pair `default_location: T` sets
`defaultLocation` to `T`. -/
theorem ais_sections (h : Header) :
    (∀ szSection : Sz, aisSectionOf szSection ≠ 0 →
      FEqSzI szSection "metadata".toList = true ∨
      FEqSzI szSection "planet_meanings".toList = true ∨
      FEqSzI szSection "sign_descriptions".toList = true ∨
      FEqSzI szSection "house_areas".toList = true ∨
      FEqSzI szSection "combinations".toList = true ∨
      FEqSzI szSection "aspect_combinations".toList = true) ∧
    aisSectionOf "aspects".toList = 0 ∧ aisSectionOf "templates".toList = 0 ∧
    (∀ (st : AisState) (szLine : Sz), firstIs '[' szLine = true →
      (scanSection szLine = some "aspects".toList ∨
        scanSection szLine = some "templates".toList) →
      (aisLine h st szLine).iSection = 0 ∧ (aisLine h st szLine).style = st.style) ∧
    (∀ (style : InterpretationStyle) (key value : Sz),
      aisStore h 0 style key value = style ∧ aisStore h 1 style key value = style) ∧
    (∀ (junk : Sz) (style : InterpretationStyle) (file : Option Sz),
      (FLoadAISFileIntoStyle h junk style file).2.defaultLocation = style.defaultLocation ∧
      (FLoadAISFileIntoStyle h junk style file).2.defaultAspect = style.defaultAspect ∧
      (FLoadAISFileIntoStyle h junk style file).2.aspectInteract = style.aspectInteract ∧
      (FLoadAISFileIntoStyle h junk style file).2.aspectTherefore = style.aspectTherefore ∧
      (FLoadAISFileIntoStyle h junk style file).2.signDesire = style.signDesire ∧
      (FLoadAISFileIntoStyle h junk style file).2.name = style.name ∧
      (FLoadAISFileIntoStyle h junk style file).2.author = style.author ∧
      (FLoadAISFileIntoStyle h junk style file).2.version = style.version) ∧
    sectionOfHeader "[aspects]".toList = 6 ∧ sectionOfHeader "[templates]".toList = 7 ∧
    (∀ (style : InterpretationStyle) (value : Sz),
      (processValue h 7 style "default_location".toList value).defaultLocation =
        some value) := by
  refine ⟨?_, by decide, by decide, ?_, fun _ _ _ => ⟨rfl, rfl⟩, ?_, by decide, by decide, ?_⟩
  · intro szSection hne
    unfold aisSectionOf at hne
    by_cases h1 : FEqSzI szSection "metadata".toList = true
    · exact Or.inl h1
    by_cases h2 : FEqSzI szSection "planet_meanings".toList = true
    · exact Or.inr (Or.inl h2)
    by_cases h3 : FEqSzI szSection "sign_descriptions".toList = true
    · exact Or.inr (Or.inr (Or.inl h3))
    by_cases h4 : FEqSzI szSection "house_areas".toList = true
    · exact Or.inr (Or.inr (Or.inr (Or.inl h4)))
    by_cases h5 : FEqSzI szSection "combinations".toList = true
    · exact Or.inr (Or.inr (Or.inr (Or.inr (Or.inl h5))))
    by_cases h6 : FEqSzI szSection "aspect_combinations".toList = true
    · exact Or.inr (Or.inr (Or.inr (Or.inr (Or.inr h6))))
    rw [if_neg h1, if_neg h2, if_neg h3, if_neg h4, if_neg h5, if_neg h6] at hne
    exact absurd rfl hne
  · intro st szLine hbr hsec
    have hnot : (firstIs '#' szLine || firstIs '\n' szLine || firstIs '\r' szLine) = false := by
      cases szLine with
      | nil => rfl
      | cons c cs =>
        simp only [firstIs, decide_eq_true_eq] at hbr
        subst hbr
        rfl
    have e1 : aisSectionOf "aspects".toList = 0 := by decide
    have e2 : aisSectionOf "templates".toList = 0 := by decide
    unfold aisLine
    rw [hnot, hbr]
    rcases hsec with hs | hs
    · rw [hs]
      exact ⟨e1, rfl⟩
    · rw [hs]
      exact ⟨e2, rfl⟩
  · intro junk style file
    cases file with
    | none => exact ⟨rfl, rfl, rfl, rfl, rfl, rfl, rfl, rfl⟩
    | some content =>
      have key := aisLines_keep
        (fun s => s.defaultLocation = style.defaultLocation ∧
          s.defaultAspect = style.defaultAspect ∧
          s.aspectInteract = style.aspectInteract ∧
          s.aspectTherefore = style.aspectTherefore ∧
          s.signDesire = style.signDesire ∧
          s.name = style.name ∧ s.author = style.author ∧ s.version = style.version)
        (fun h sec s k v hs => by
          obtain ⟨a1, a2, a3, a4, a5, a6, a7, a8⟩ := aisStore_style_fields h sec s k v
          obtain ⟨b1, b2, b3, b4, b5, b6, b7, b8⟩ := hs
          exact ⟨a1.trans b1, a2.trans b2, a3.trans b3, a4.trans b4, a5.trans b5,
            a6.trans b6, a7.trans b7, a8.trans b8⟩)
        h (fileLines h.cchSzLine content) (aisInit junk style)
        ⟨rfl, rfl, rfl, rfl, rfl, rfl, rfl, rfl⟩
      exact key
  · intro style value
    have e : FEqSzI "default_location".toList "default_location".toList = true := by decide
    simp only [processValue, e, if_true]

/-! ## Composite keys in the per-folder loader (C26) -/

theorem isLetter_not_special {c : Char} (h : isLetter c = true) :
    isDigit c = false ∧ isspace c = false ∧ c ≠ '-' ∧ c ≠ '+' := by
  refine ⟨?_, ?_, ?_, ?_⟩
  · cases hd : isDigit c with
    | false => rfl
    | true =>
      simp only [isDigit, Bool.and_eq_true, decide_eq_true_eq] at hd
      simp only [isLetter, Bool.or_eq_true, Bool.and_eq_true, decide_eq_true_eq] at h
      rcases h with ⟨h1, _⟩ | ⟨h1, _⟩
      · exact absurd (Char.le_trans h1 hd.2) (by decide)
      · exact absurd (Char.le_trans h1 hd.2) (by decide)
  · cases hs : isspace c with
    | false => rfl
    | true =>
      simp only [isspace, Bool.or_eq_true, decide_eq_true_eq] at hs
      rcases hs with ((((hs | hs) | hs) | hs) | hs) | hs <;> subst hs <;>
        exact absurd h (by decide)
  · rintro rfl; exact absurd h (by decide)
  · rintro rfl; exact absurd h (by decide)

theorem scanInt_of_plain {c : Char} (t : Sz) (hs : isspace c = false) (hm : c ≠ '-')
    (hp : c ≠ '+') :
    scanInt (c :: t) =
      if firstDigit (c :: t) then
        some (cIntOf false (scanDigits (c :: t) 0).1, (scanDigits (c :: t) 0).2)
      else none := by
  unfold scanInt
  have hd : (c :: t).dropWhile isspace = c :: t := by simp [List.dropWhile, hs]
  rw [hd]
  split
  · rename_i r heq
    simp only [List.cons.injEq] at heq
    exact absurd heq.1 hm
  · rename_i r heq
    simp only [List.cons.injEq] at heq
    exact absurd heq.1 hp
  · rfl

theorem scanInt_starOrName {f : Sz} (hf : starOrName f = true) : scanInt f = none := by
  cases f with
  | nil => simp [starOrName] at hf
  | cons c t =>
    simp only [starOrName, Bool.or_eq_true, decide_eq_true_eq] at hf
    rcases hf with hc | hc
    · subst hc
      rw [scanInt_of_plain t (by decide) (by decide) (by decide)]
      rfl
    · obtain ⟨h1, h2, h3, h4⟩ := isLetter_not_special hc
      rw [scanInt_of_plain t h2 h3 h4]
      simp [firstDigit, h1]

theorem firstDigit_starOrName {f : Sz} (hf : starOrName f = true) : firstDigit f = false := by
  cases f with
  | nil => rfl
  | cons c t =>
    simp only [starOrName, Bool.or_eq_true, decide_eq_true_eq] at hf
    rcases hf with hc | hc
    · subst hc; rfl
    · exact (isLetter_not_special hc).1

theorem scanDigits_append (ds rest : Sz) (acc : Nat) (hds : ∀ c ∈ ds, isDigit c = true)
    (hrest : firstDigit rest = false) :
    scanDigits (ds ++ rest) acc = (atoiDigits ds acc, rest) := by
  induction ds generalizing acc with
  | nil =>
    cases rest with
    | nil => rfl
    | cons c cs =>
      simp only [firstDigit] at hrest
      simp [scanDigits, atoiDigits, hrest]
  | cons d ds ih =>
    have hd := hds d (List.mem_cons_self _ _)
    simp only [List.cons_append, scanDigits, atoiDigits, hd, if_true]
    exact ih _ (fun c hc => hds c (List.mem_cons_of_mem _ hc))

theorem atoiDigits_fmtNat (n : Nat) : atoiDigits (fmtNat n) 0 = n := by
  unfold fmtNat
  rw [atoiDigits_fmtNatAux _ _ _ (Nat.lt_succ_self n)]
  rfl

theorem scanInt_fmtNat (n : Nat) (rest : Sz) (hrest : firstDigit rest = false) :
    scanInt (fmtNat n ++ rest) = some (cIntOf false n, rest) := by
  have hfd := fmtNat_firstDigit n
  cases hf : fmtNat n with
  | nil => simp [hf, firstDigit] at hfd
  | cons d ds =>
    rw [hf] at hfd
    simp only [firstDigit] at hfd
    obtain ⟨h1, h2, h3, _⟩ := isDigit_not_special hfd
    rw [List.cons_append, scanInt_of_plain _ h1 h2 h3]
    have hfirst : firstDigit (d :: (ds ++ rest)) = true := hfd
    rw [if_pos hfirst]
    have hsd : scanDigits (d :: (ds ++ rest)) 0 = (atoiDigits (fmtNat n) 0, rest) := by
      rw [← List.cons_append, ← hf]
      exact scanDigits_append _ _ _ (fmtNat_digits n) hrest
    rw [hsd, atoiDigits_fmtNat]

theorem sscanf3_one (a : Nat) (rest : Sz) (hrest : firstDigit rest = false)
    (hstop : ∀ r, rest = '+' :: r → scanInt r = none) :
    sscanf3 (fmtNat a ++ rest) = (cIntOf false a, 0, 0) := by
  unfold sscanf3
  rw [scanInt_fmtNat a rest hrest]
  cases rest with
  | nil => rfl
  | cons c r =>
    dsimp only
    by_cases hc : c = '+'
    · subst hc
      rw [if_pos rfl, hstop r rfl]
    · rw [if_neg hc]

theorem sscanf3_two (a b : Nat) (rest : Sz) (hrest : firstDigit rest = false) :
    ∃ c : Int, sscanf3 (fmtNat a ++ '+' :: (fmtNat b ++ rest)) =
        (cIntOf false a, cIntOf false b, c) ∧
      ((∀ r, rest = '+' :: r → scanInt r = none) → c = 0) := by
  unfold sscanf3
  rw [scanInt_fmtNat a _ (by rfl)]
  dsimp only
  rw [if_pos rfl, scanInt_fmtNat b rest hrest]
  cases rest with
  | nil => exact ⟨0, rfl, fun _ => rfl⟩
  | cons c r =>
    dsimp only
    by_cases hc : c = '+'
    · subst hc
      rw [if_pos rfl]
      cases hs : scanInt r with
      | none => exact ⟨0, rfl, fun _ => rfl⟩
      | some p =>
        refine ⟨p.1, rfl, fun hstop => ?_⟩
        rw [hstop r rfl] at hs
        exact absurd hs (by simp)
    · rw [if_neg hc]
      exact ⟨0, rfl, fun _ => rfl⟩

theorem sscanf3_starOrName {f : Sz} (hf : starOrName f = true) : sscanf3 f = (0, 0, 0) := by
  unfold sscanf3
  rw [scanInt_starOrName hf]

/-- C26, evaluated on the code: under `[aspect_combinations]` the per-folder
loader tests the first two numbers of a key only (`obj > 0 && sign > 0`); the
third is read and never tested, unlike under `[combinations]`.  Merged from a
file, the entries keyed `1+4+*` and `1+4` are stored there, where the same
two keys under `[combinations]` store nothing.  In general, with the numbers
read as C `int`s: an entry changes the style only if its key reads as three
positive integers under `[combinations]`, as two under
`[aspect_combinations]`; under `[combinations]` every key with a `*` or a
name as one of its three fields, or with fewer than three fields, leaves the
style unchanged, and so does under `[aspect_combinations]` every key with a
`*` or a name as first or second field, or with one field only; but a key
that starts with two positive numbers is appended under
`[aspect_combinations]` whatever follows them, a `*`, a name or nothing. -/
theorem ais_composite_keys (h : Header) (style : InterpretationStyle) (value : Sz) :
    (FLoadAISFileIntoStyle sampleHeader [] (newStyle [])
        (some "[aspect_combinations]\n1+4+*: X\n1+4: Y\n".toList)).2.aspectCombos =
      [entry "1+4+*" "X", entry "1+4" "Y"] ∧
    (FLoadAISFileIntoStyle sampleHeader [] (newStyle [])
        (some "[combinations]\n1+4+*: X\n1+4: Y\n".toList)).2.combos = [] ∧
    (∀ key : Sz, aisStore h 5 style key value ≠ style →
      0 < (sscanf3 key).1 ∧ 0 < (sscanf3 key).2.1 ∧ 0 < (sscanf3 key).2.2) ∧
    (∀ key : Sz, aisStore h 6 style key value ≠ style →
      0 < (sscanf3 key).1 ∧ 0 < (sscanf3 key).2.1) ∧
    (∀ (a b : Nat) (f : Sz), starOrName f = true →
      aisStore h 5 style f value = style ∧
      aisStore h 5 style (fmtNat a ++ '+' :: f) value = style ∧
      aisStore h 5 style (fmtNat a ++ '+' :: (fmtNat b ++ '+' :: f)) value = style ∧
      aisStore h 6 style f value = style ∧
      aisStore h 6 style (fmtNat a ++ '+' :: f) value = style) ∧
    (∀ a b : Nat,
      aisStore h 5 style (fmtNat a) value = style ∧
      aisStore h 5 style (fmtNat a ++ '+' :: fmtNat b) value = style ∧
      aisStore h 6 style (fmtNat a) value = style) ∧
    (∀ (a b : Nat) (rest : Sz), 0 < a → a < 2147483648 → 0 < b → b < 2147483648 →
      firstDigit rest = false →
      aisStore h 6 style (fmtNat a ++ '+' :: (fmtNat b ++ rest)) value =
        appendAspectComboCapped style (fmtNat a ++ '+' :: (fmtNat b ++ rest)) value) ∧
    (∀ key : Sz, style.aspectComboCount < 1000 → style.aspectComboCount ≤ style.aspectComboAlloc →
      (appendAspectComboCapped style key value).aspectCombos =
        style.aspectCombos ++ [{ key := some key, value := some value }]) := by
  refine ⟨by decide, by decide, ?_, ?_, ?_, ?_, ?_, ?_⟩
  · intro key hne
    by_contra hcon
    apply hne
    simp only [aisStore]
    rw [if_neg hcon]
  · intro key hne
    by_contra hcon
    apply hne
    simp only [aisStore]
    rw [if_neg hcon]
  · intro a b f hf
    have k1 : sscanf3 f = (0, 0, 0) := sscanf3_starOrName hf
    have k2 : sscanf3 (fmtNat a ++ '+' :: f) = (cIntOf false a, 0, 0) :=
      sscanf3_one a ('+' :: f) rfl (fun r hr => by
        simp only [List.cons.injEq, true_and] at hr
        rw [← hr]
        exact scanInt_starOrName hf)
    obtain ⟨c, k3, hc⟩ := sscanf3_two a b ('+' :: f) rfl
    have hc0 : c = 0 := hc (fun r hr => by
      simp only [List.cons.injEq, true_and] at hr
      rw [← hr]
      exact scanInt_starOrName hf)
    subst hc0
    refine ⟨?_, ?_, ?_, ?_, ?_⟩
    · simp only [aisStore]
      rw [if_neg (by rw [k1]; simp)]
    · simp only [aisStore]
      rw [if_neg (by rw [k2]; simp)]
    · simp only [aisStore]
      rw [if_neg (by rw [k3]; simp)]
    · simp only [aisStore]
      rw [if_neg (by rw [k1]; simp)]
    · simp only [aisStore]
      rw [if_neg (by rw [k2]; simp)]
  · intro a b
    have k1 : sscanf3 (fmtNat a) = (cIntOf false a, 0, 0) := by
      have := sscanf3_one a [] rfl (fun r hr => by simp at hr)
      simpa using this
    obtain ⟨c, k2, hc⟩ := sscanf3_two a b [] rfl
    have hc0 : c = 0 := hc (fun r hr => by simp at hr)
    subst hc0
    rw [List.append_nil] at k2
    refine ⟨?_, ?_, ?_⟩
    · simp only [aisStore]
      rw [if_neg (by rw [k1]; simp)]
    · simp only [aisStore]
      rw [if_neg (by rw [k2]; simp)]
    · simp only [aisStore]
      rw [if_neg (by rw [k1]; simp)]
  · intro a b rest ha ha2 hb hb2 hrest
    obtain ⟨c, k, _⟩ := sscanf3_two a b rest hrest
    rw [cIntOf_small ha2, cIntOf_small hb2] at k
    simp only [aisStore]
    have ha' : (0 : Int) < (a : Int) := by exact_mod_cast ha
    have hb' : (0 : Int) < (b : Int) := by exact_mod_cast hb
    rw [if_pos (by rw [k]; exact ⟨ha', hb'⟩)]
  · intro key hlt hle
    unfold appendAspectComboCapped
    split
    · rw [if_neg (by rw [Nat.min_def]; split <;> omega)]
    · rfl

/-- C26 at the fresh style: under `[aspect_combinations]` the key `1+4+*` is
appended, under `[combinations]` it is ignored. -/
theorem ais_composite_keys_witness :
    aisStore sampleHeader 6 (newStyle []) (fmtNat 1 ++ '+' :: (fmtNat 4 ++ "+*".toList))
        "X".toList =
      appendAspectComboCapped (newStyle []) (fmtNat 1 ++ '+' :: (fmtNat 4 ++ "+*".toList))
        "X".toList ∧
    aisStore sampleHeader 5 (newStyle []) (fmtNat 1 ++ '+' :: (fmtNat 4 ++ '+' :: "*".toList))
        "X".toList = newStyle [] :=
  ⟨(ais_composite_keys sampleHeader (newStyle []) "X".toList).2.2.2.2.2.2.1 1 4 "+*".toList
      (by decide) (by decide) (by decide) (by decide) rfl,
   ((ais_composite_keys sampleHeader (newStyle []) "X".toList).2.2.2.2.1 1 4 "*".toList
      rfl).2.2.1⟩

/-! ## Lines met while a continuation is in progress (C27) -/

/-- C27 fails on the code for the per-folder loader: with the pair `1: a \`
held, `FLoadAISFileIntoStyle` takes the line `[house_areas]` as a section
header and the lines `# c` and the empty line as lines to skip; the held
value gets none of them, and the line `b` that follows completes the pair,
under `[house_areas]` in the first file.  `FLoadInterpretationStyle` appends
the line `[house_areas]` to the held value and stays in its section. -/
theorem continuation_recognition_counterexample :
    (FLoadAISFileIntoStyle sampleHeader [] (newStyle [])
        (some "[planet_meanings]\n1: a \\\n[house_areas]\nb\n".toList)).2.houseArea 1 =
      some "a  b".toList ∧
    (FLoadAISFileIntoStyle sampleHeader [] (newStyle [])
        (some "[planet_meanings]\n1: a \\\n[house_areas]\nb\n".toList)).2.planetMeaning 1 =
      none ∧
    (FLoadAISFileIntoStyle sampleHeader [] (newStyle [])
        (some "[planet_meanings]\n1: a \\\n# c\nb\n".toList)).2.planetMeaning 1 =
      some "a  b".toList ∧
    (FLoadAISFileIntoStyle sampleHeader [] (newStyle [])
        (some "[planet_meanings]\n1: a \\\n\nb\n".toList)).2.planetMeaning 1 =
      some "a  b".toList ∧
    (loadedStyle sampleHeader []
        "[planet_meanings]\n1: a \\\n[house_areas]\nb\n".toList).planetMeaning 1 =
      some "a [house_areas]\n".toList ∧
    (loadedStyle sampleHeader []
        "[planet_meanings]\n1: a \\\n[house_areas]\nb\n".toList).houseArea 1 = none := by
  decide

/-- C27 as amended.  In `FLoadInterpretationStyle`, while a continuation is
in progress, every physical line, a blank one or one that begins with `[` or
`#` included, is handled as a continuation line: the section stays as it is,
the line without its leading blanks is appended after a space to the held
value, and the pair is processed with that value when the line does not end
in a backslash.  In `FLoadAISFileIntoStyle` a line whose first character is
`#`, a newline or a carriage return is skipped, and a line whose first
character is `[` is taken as a section header, whether or not a continuation
is in progress: the held pair stays as it is, and the header sets the
section.  Every other line met there during a continuation is appended to
the held value, a line of blanks included. -/
theorem continuation_recognition (h : Header) :
    (∀ (st : LoadState) (held szLine : Sz),
      st.fContinuation = true → st.szContinuation = some held →
      (loadLine h st szLine).iSection = st.iSection ∧
      (loadLine h st szLine).fContinuation = (continueLine held szLine).1 ∧
      ((continueLine held szLine).1 = true →
        (loadLine h st szLine).szContinuation = some (continueLine held szLine).2 ∧
        (loadLine h st szLine).style = st.style) ∧
      ((continueLine held szLine).1 = false →
        (loadLine h st szLine).style =
          processValue h st.iSection st.style (st.szContinuationKey.getD [])
            (continueLine held szLine).2) ∧
      (endsBackslash (trimEnd isSpTab (trimEnd isNlCr (skipSpTab szLine))) = false →
        continueLine held szLine = (false, trimEnd isSpTab held ++ ' ' :: skipSpTab szLine))) ∧
    (∀ (st : AisState) (szLine : Sz),
      (firstIs '#' szLine = true ∨ firstIs '\n' szLine = true ∨ firstIs '\r' szLine = true) →
      aisLine h st szLine = st) ∧
    (∀ (st : AisState) (szLine szSection : Sz),
      firstIs '[' szLine = true → scanSection szLine = some szSection →
      (aisLine h st szLine).iSection = aisSectionOf szSection ∧
      (aisLine h st szLine).style = st.style ∧
      (aisLine h st szLine).fContinuation = st.fContinuation ∧
      (aisLine h st szLine).szContinuation = st.szContinuation ∧
      (aisLine h st szLine).szContinuationKey = st.szContinuationKey) ∧
    (∀ (st : AisState) (held key szLine : Sz),
      st.fContinuation = true → st.szContinuation = some held →
      st.szContinuationKey = some key →
      firstIs '#' szLine = false → firstIs '\n' szLine = false → firstIs '\r' szLine = false →
      firstIs '[' szLine = false →
      (aisLine h st szLine).iSection = st.iSection ∧
      (aisLine h st szLine).szContinuation = some (aisContinue held szLine).2 ∧
      (aisLine h st szLine).fContinuation = (aisContinue held szLine).1 ∧
      ((aisContinue held szLine).1 = false →
        (aisLine h st szLine).style =
          aisStore h st.iSection st.style key (aisContinue held szLine).2)) := by
  refine ⟨?_, ?_, ?_, ?_⟩
  · intro st held szLine hf hs
    have hl : loadLine h st szLine =
        if !(continueLine held szLine).1 then
          processAndRelease h
            { st with
              fContinuation := false, szContinuation := some (continueLine held szLine).2 }
            (st.szContinuationKey.getD []) (continueLine held szLine).2
        else
          { st with
            fContinuation := true, szContinuation := some (continueLine held szLine).2 } := by
      unfold loadLine
      rw [hf, hs]
    rw [hl]
    cases hc : (continueLine held szLine).1 with
    | true =>
      refine ⟨rfl, rfl, fun _ => ⟨rfl, rfl⟩, fun hx => absurd hx (by simp), ?_⟩
      intro hb
      unfold continueLine at hc
      simp only [hb] at hc
      exact absurd hc (by simp)
    | false =>
      refine ⟨rfl, rfl, fun hx => absurd hx (by simp), fun _ => rfl, ?_⟩
      intro hb
      unfold continueLine
      simp only [hb]
      rfl
  · intro st szLine hfirst
    have hor : (firstIs '#' szLine || firstIs '\n' szLine || firstIs '\r' szLine) = true := by
      rcases hfirst with h1 | h1 | h1 <;> simp [h1]
    unfold aisLine
    rw [hor]
    rfl
  · intro st szLine szSection hbr hsec
    have hnot : (firstIs '#' szLine || firstIs '\n' szLine || firstIs '\r' szLine) = false := by
      cases szLine with
      | nil => rfl
      | cons c cs =>
        simp only [firstIs, decide_eq_true_eq] at hbr
        subst hbr
        rfl
    unfold aisLine
    rw [hnot, hbr, hsec]
    exact ⟨rfl, rfl, rfl, rfl, rfl⟩
  · intro st held key szLine hf hs hk h1 h2 h3 h4
    have hnot : (firstIs '#' szLine || firstIs '\n' szLine || firstIs '\r' szLine) = false := by
      rw [h1, h2, h3]
      rfl
    unfold aisLine
    rw [hnot, h4, if_neg (by simp), if_neg (by simp), hf, hs, hk]
    dsimp only
    cases hc : (aisContinue held szLine).1 with
    | true =>
      rw [if_pos rfl]
      exact ⟨rfl, rfl, rfl, fun hx => absurd hx (by simp)⟩
    | false =>
      rw [if_neg (by simp)]
      exact ⟨rfl, rfl, rfl, fun _ => rfl⟩

/-! ## One line read by both loaders (C22) -/

theorem dropWhile_append_last (P : Char → Bool) (r : Sz) (c : Char) (hc : P c = false) :
    (r ++ [c]).dropWhile P = r.dropWhile P ++ [c] := by
  induction r with
  | nil => simp [List.dropWhile, hc]
  | cons x xs ih =>
    by_cases hx : P x = true
    · simp only [List.cons_append, List.dropWhile_cons_of_pos hx, ih]
    · simp only [List.cons_append, List.dropWhile_cons_of_neg hx]

theorem trimEnd_cons (P : Char → Bool) (c : Char) (s : Sz) (hc : P c = false) :
    trimEnd P (c :: s) = c :: trimEnd P s := by
  unfold trimEnd
  rw [List.reverse_cons, dropWhile_append_last P _ c hc]
  simp

theorem trimEnd_of_last (P : Char → Bool) (s : Sz)
    (h : ∀ d, s.getLast? = some d → P d = false) : trimEnd P s = s := by
  unfold trimEnd
  rw [dropWhile_eq_self_of_head P s.reverse (fun c hc => h c (by
    rw [List.head?_reverse] at hc; exact hc))]
  simp

theorem trimEnd_append_tail (P : Char → Bool) (s t : Sz) (ht : ∀ c ∈ t, P c = true) :
    trimEnd P (s ++ t) = trimEnd P s := by
  induction t using List.reverseRecOn with
  | nil => simp
  | append_singleton t c ih =>
    have hc : P c = true := ht c (by simp)
    have e : trimEnd P (s ++ (t ++ [c])) = trimEnd P (s ++ t) := by
      unfold trimEnd
      rw [← List.append_assoc, List.reverse_append, List.reverse_singleton,
        List.singleton_append, List.dropWhile_cons_of_pos hc]
    rw [e]
    exact ih (fun d hd => ht d (by simp [hd]))

theorem trimEndKeepFirst_append_tail (P : Char → Bool) (v t : Sz) (hv : v ≠ [])
    (hlast : ∀ d, v.getLast? = some d → P d = false) (ht : ∀ c ∈ t, P c = true) :
    trimEndKeepFirst P (v ++ t) = v := by
  cases v with
  | nil => exact absurd rfl hv
  | cons c cs =>
    simp only [List.cons_append, trimEndKeepFirst, List.cons.injEq, true_and]
    rw [trimEnd_append_tail P cs t ht]
    apply trimEnd_of_last
    intro d hd
    apply hlast d
    cases cs with
    | nil => simp at hd
    | cons x xs =>
      rw [List.getLast?_cons_cons]
      exact hd

theorem splitColon_append (k r : Sz) (hk : ':' ∉ k) :
    splitColon (k ++ ':' :: r) = some (k, r) := by
  induction k with
  | nil => simp [splitColon]
  | cons c cs ih =>
    have hc : c ≠ ':' := fun e => hk (by simp [e])
    have := ih (fun hm => hk (List.mem_cons_of_mem _ hm))
    simp [splitColon, hc, this]

theorem cutComment_self (s : Sz) (hs : ∀ c ∈ s, c ≠ '#' ∧ c ≠ ';') : cutComment s = s := by
  induction s with
  | nil => rfl
  | cons c cs ih =>
    have hc := hs c (List.mem_cons_self _ _)
    have hn : ¬ (c = '#' ∨ c = ';') := fun e => e.elim hc.1 hc.2
    simp only [cutComment, hn, if_false, List.cons.injEq, true_and]
    exact ih (fun d hd => hs d (List.mem_cons_of_mem _ hd))

theorem isDigit_plain {d : Char} (h : isDigit d = true) :
    d ≠ ':' ∧ d ≠ '#' ∧ d ≠ ';' ∧ d ≠ '[' ∧ d ≠ ' ' ∧ d ≠ '\t' ∧ d ≠ '\r' ∧ d ≠ '\n' ∧
      d ≠ '\\' := by
  refine ⟨?_, ?_, ?_, ?_, ?_, ?_, ?_, ?_, ?_⟩ <;> (rintro rfl; exact absurd h (by decide))

theorem fmtNat_cons (n : Nat) : ∃ d ds, fmtNat n = d :: ds ∧ isDigit d = true := by
  have hfd := fmtNat_firstDigit n
  cases hf : fmtNat n with
  | nil => simp [hf, firstDigit] at hfd
  | cons d ds =>
    rw [hf] at hfd
    exact ⟨d, ds, rfl, hfd⟩

theorem fmtNat_last (n : Nat) (d : Char) (hd : (fmtNat n).getLast? = some d) :
    isDigit d = true :=
  fmtNat_digits n d (List.mem_of_getLast?_eq_some hd)

theorem plainValue_facts {v : Sz} (hv : plainValue v = true) :
    ∃ c d, v.head? = some c ∧ v.getLast? = some d ∧ isWhite c = false ∧ valueTail d = false := by
  unfold plainValue at hv
  split at hv
  · rename_i c d hc hd
    simp only [Bool.and_eq_true, Bool.not_eq_true'] at hv
    exact ⟨c, d, hc, hd, hv.1, hv.2⟩
  · simp at hv

theorem valueTail_false {d : Char} (h : valueTail d = false) :
    isNlCr d = false ∧ isSpTab d = false ∧ isTrail d = false ∧ d ≠ '\\' := by
  simp only [valueTail, Bool.or_eq_false_iff, decide_eq_false_iff_not] at h
  obtain ⟨⟨⟨⟨h1, h2⟩, h3⟩, h4⟩, h5⟩ := h
  refine ⟨?_, ?_, ?_, h5⟩
  · simp [isNlCr, h3, h4]
  · simp [isSpTab, h1, h2]
  · simp [isTrail, h1, h2, h3, h4]

theorem isWhite_false {c : Char} (h : isWhite c = false) :
    c ≠ ' ' ∧ c ≠ '\t' ∧ c ≠ '\r' ∧ c ≠ '\n' := by
  simp only [isWhite, Bool.or_eq_false_iff, decide_eq_false_iff_not] at h
  exact ⟨h.1.1.1, h.1.1.2, h.1.2, h.2⟩

theorem skipSpTab_of_head (s : Sz) (c : Char) (t : Sz) (hs : s = c :: t) (h1 : c ≠ ' ')
    (h2 : c ≠ '\t') : skipSpTab s = s := by
  subst hs
  have hn : ¬ (c = ' ' ∨ c = '\t') := fun e => e.elim h1 h2
  simp only [skipSpTab, hn, if_false]

theorem skipBlank_of_head (s : Sz) (c : Char) (t : Sz) (hs : s = c :: t)
    (h : isWhite c = false) : skipBlank s = s := by
  subst hs
  obtain ⟨h1, h2, h3, h4⟩ := isWhite_false h
  have hn : ¬ (c = ' ' ∨ c = '\t' ∨ c = '\r' ∨ c = '\n') := by
    rintro (e | e | e | e)
    · exact h1 e
    · exact h2 e
    · exact h3 e
    · exact h4 e
  simp only [skipBlank, hn, if_false]

theorem isDigit_not_white {d : Char} (h : isDigit d = true) :
    isWhite d = false ∧ keyTail d = false ∧ isTrail d = false := by
  obtain ⟨_, _, _, _, h5, h6, h7, h8, _⟩ := isDigit_plain h
  refine ⟨?_, ?_, ?_⟩
  · simp [isWhite, h5, h6, h7, h8]
  · simp [keyTail, h5, h6, h7]
  · simp [isTrail, h5, h6, h7, h8]

theorem loadLine_idle (h : Header) (st : LoadState) (szLine : Sz)
    (hs : st.szContinuation = none) :
    loadLine h st szLine = loadLine h { st with fContinuation := false } szLine := by
  unfold loadLine
  dsimp only
  rw [hs]
  cases st.fContinuation <;> rfl

theorem processValue_house (h : Header) (style : InterpretationStyle) (n : Nat) (value : Sz)
    (h1 : 1 ≤ n) (h12 : n ≤ 12) :
    processValue h 4 style (fmtNat n) value =
      { style with houseArea := setAt style.houseArea (n : Int) (some value) } := by
  have hb : FBetween (n : Int) 1 12 = true := by
    simp only [FBetween, Bool.and_eq_true, decide_eq_true_eq]
    omega
  simp only [processValue, NFromSz_fmtNat n (by omega), hb, if_true]

theorem aisStore_house (h : Header) (style : InterpretationStyle) (n : Nat) (value : Sz)
    (h1 : 1 ≤ n) (h12 : n ≤ h.cSign) :
    aisStore h 4 style (fmtNat n) value =
      { style with houseArea := setAt style.houseArea (n : Int) (some value) } := by
  have hb : (n : Int) ≥ 1 ∧ (n : Int) ≤ (h.cSign : Int) := by omega
  have hc := h.cSign_int
  simp only [aisStore, NFromSz_fmtNat n (by omega)]
  rw [if_pos hb]

theorem isSpTab_true {c : Char} (h : isSpTab c = true) : c = ' ' ∨ c = '\t' := by
  simpa [isSpTab] using h

theorem isSpTab_tails {c : Char} (h : isSpTab c = true) :
    keyTail c = true ∧ valueTail c = true ∧ isTrail c = true ∧ isNlCr c = false ∧
      isDigit c = false ∧ c ≠ '#' ∧ c ≠ ';' ∧ c ≠ ':' ∧ c ≠ '[' ∧ c ≠ '\n' ∧ c ≠ '\r' := by
  rcases isSpTab_true h with rfl | rfl <;> decide

theorem isNlCr_tails {c : Char} (h : isNlCr c = true) : isTrail c = true := by
  have : c = '\n' ∨ c = '\r' := by simpa [isNlCr] using h
  rcases this with rfl | rfl <;> decide

theorem spacing_facts {sp : Spacing} (h : sp.ok = true) :
    (∀ c ∈ sp.beforeKey, isSpTab c = true) ∧ (∀ c ∈ sp.afterKey, isSpTab c = true) ∧
    (∀ c ∈ sp.beforeValue, isSpTab c = true) ∧ (∀ c ∈ sp.afterValue, isSpTab c = true) ∧
    (∀ c ∈ sp.lineEnd, isNlCr c = true) := by
  simp only [Spacing.ok, Bool.and_eq_true, List.all_eq_true] at h
  exact ⟨h.1.1.1.1, h.1.1.1.2, h.1.1.2, h.1.2, h.2⟩

theorem skipSpTab_blanks (sp s : Sz) (h : ∀ c ∈ sp, isSpTab c = true) :
    skipSpTab (sp ++ s) = skipSpTab s := by
  induction sp with
  | nil => rfl
  | cons c cs ih =>
    have hc := isSpTab_true (h c (List.mem_cons_self _ _))
    simp only [List.cons_append, skipSpTab, hc, if_true]
    exact ih (fun d hd => h d (List.mem_cons_of_mem _ hd))

theorem skipBlank_blanks (sp s : Sz) (h : ∀ c ∈ sp, isSpTab c = true) :
    skipBlank (sp ++ s) = skipBlank s := by
  induction sp with
  | nil => rfl
  | cons c cs ih =>
    have hc : c = ' ' ∨ c = '\t' ∨ c = '\r' ∨ c = '\n' := by
      rcases isSpTab_true (h c (List.mem_cons_self _ _)) with e | e
      · exact Or.inl e
      · exact Or.inr (Or.inl e)
    simp only [List.cons_append, skipBlank, hc, if_true]
    exact ih (fun d hd => h d (List.mem_cons_of_mem _ hd))

theorem skipBlank3_blanks (sp s : Sz) (h : ∀ c ∈ sp, isSpTab c = true) :
    skipBlank3 (sp ++ s) = skipBlank3 s := by
  induction sp with
  | nil => rfl
  | cons c cs ih =>
    have hc : c = ' ' ∨ c = '\t' ∨ c = '\r' := by
      rcases isSpTab_true (h c (List.mem_cons_self _ _)) with e | e
      · exact Or.inl e
      · exact Or.inr (Or.inl e)
    simp only [List.cons_append, skipBlank3, hc, if_true]
    exact ih (fun d hd => h d (List.mem_cons_of_mem _ hd))

theorem getLast?_append_blanks (a sp : Sz) (d x : Char) (ha : a.getLast? = some d)
    (hx : (a ++ sp).getLast? = some x) : x = d ∨ x ∈ sp := by
  rw [List.getLast?_append] at hx
  cases hsp : sp.getLast? with
  | none =>
    rw [hsp, ha] at hx
    simp only [Option.or, Option.some.injEq] at hx
    exact Or.inl hx.symm
  | some y =>
    rw [hsp] at hx
    simp only [Option.or, Option.some.injEq] at hx
    subst hx
    exact Or.inr (List.mem_of_getLast?_eq_some hsp)

theorem getLast?_append_value (a v : Sz) (d : Char) (hd : v.getLast? = some d) :
    (a ++ v).getLast? = some d := by
  rw [List.getLast?_append, hd]
  rfl

theorem firstIs_houseLine (sp1 r : Sz) (d0 c : Char) (h1 : ∀ y ∈ sp1, isSpTab y = true)
    (hd0 : isDigit d0 = true) (hc1 : isSpTab c = false) (hc2 : isDigit c = false) :
    firstIs c (sp1 ++ d0 :: r) = false := by
  cases sp1 with
  | nil =>
    simp only [List.nil_append, firstIs, decide_eq_false_iff_not]
    rintro rfl
    rw [hd0] at hc2
    exact absurd hc2 (by simp)
  | cons y ys =>
    simp only [List.cons_append, firstIs, decide_eq_false_iff_not]
    rintro rfl
    rw [h1 y (List.mem_cons_self _ _)] at hc1
    exact absurd hc1 (by simp)

/-- What `ParseLine` returns for a line `n: value` without its line end. -/
theorem ParseLine_plain (sp : Spacing) (n : Nat) (value : Sz) (hsp : sp.ok = true)
    (hv : plainValue value = true) (hc : ∀ c ∈ value, c ≠ '#' ∧ c ≠ ';') :
    ParseLine (sp.beforeKey ++ (fmtNat n ++ (sp.afterKey ++ ':' ::
      (sp.beforeValue ++ (value ++ sp.afterValue))))) = some (fmtNat n, value) := by
  obtain ⟨c, d, hhead, hlast, hcw, hdt⟩ := plainValue_facts hv
  obtain ⟨d0, ds, hf, hd0⟩ := fmtNat_cons n
  obtain ⟨s1, s2, s3, s4, _⟩ := spacing_facts hsp
  have hcut : cutComment (sp.beforeKey ++ (fmtNat n ++ (sp.afterKey ++ ':' ::
      (sp.beforeValue ++ (value ++ sp.afterValue))))) =
      sp.beforeKey ++ (fmtNat n ++ (sp.afterKey ++ ':' ::
        (sp.beforeValue ++ (value ++ sp.afterValue)))) := by
    apply cutComment_self
    intro x hx
    simp only [List.mem_append, List.mem_cons] at hx
    rcases hx with hx | hx | hx | hx | hx | hx | hx
    · exact ⟨(isSpTab_tails (s1 x hx)).2.2.2.2.2.1, (isSpTab_tails (s1 x hx)).2.2.2.2.2.2.1⟩
    · have := isDigit_plain (fmtNat_digits n x hx)
      exact ⟨this.2.1, this.2.2.1⟩
    · exact ⟨(isSpTab_tails (s2 x hx)).2.2.2.2.2.1, (isSpTab_tails (s2 x hx)).2.2.2.2.2.2.1⟩
    · subst hx
      exact ⟨by decide, by decide⟩
    · exact ⟨(isSpTab_tails (s3 x hx)).2.2.2.2.2.1, (isSpTab_tails (s3 x hx)).2.2.2.2.2.2.1⟩
    · exact hc x hx
    · exact ⟨(isSpTab_tails (s4 x hx)).2.2.2.2.2.1, (isSpTab_tails (s4 x hx)).2.2.2.2.2.2.1⟩
  have hskip : skipBlank (sp.beforeKey ++ (fmtNat n ++ (sp.afterKey ++ ':' ::
      (sp.beforeValue ++ (value ++ sp.afterValue))))) =
      d0 :: (ds ++ (sp.afterKey ++ ':' :: (sp.beforeValue ++ (value ++ sp.afterValue)))) := by
    rw [skipBlank_blanks _ _ s1, hf]
    exact skipBlank_of_head _ d0 _ rfl (isDigit_not_white hd0).1
  have hsplit : splitColon
      (d0 :: (ds ++ (sp.afterKey ++ ':' :: (sp.beforeValue ++ (value ++ sp.afterValue))))) =
      some (fmtNat n ++ sp.afterKey, sp.beforeValue ++ (value ++ sp.afterValue)) := by
    have e : d0 :: (ds ++ (sp.afterKey ++ ':' ::
        (sp.beforeValue ++ (value ++ sp.afterValue)))) =
        (fmtNat n ++ sp.afterKey) ++ ':' :: (sp.beforeValue ++ (value ++ sp.afterValue)) := by
      rw [hf]
      simp
    rw [e]
    apply splitColon_append
    intro hm
    rcases List.mem_append.mp hm with hm | hm
    · exact (isDigit_plain (fmtNat_digits n _ hm)).1 rfl
    · exact (isSpTab_tails (s2 _ hm)).2.2.2.2.2.2.2.1 rfl
  have hkey : trimEnd keyTail (fmtNat n ++ sp.afterKey) = fmtNat n := by
    rw [trimEnd_append_tail keyTail _ _ (fun x hx => (isSpTab_tails (s2 x hx)).1)]
    exact trimEnd_of_last _ _ (fun x hx => (isDigit_not_white (fmtNat_last n x hx)).2.1)
  have hne : value ≠ [] := by
    intro e
    rw [e] at hhead
    simp at hhead
  have hv1 : skipBlank3 (sp.beforeValue ++ (value ++ sp.afterValue)) =
      value ++ sp.afterValue := by
    have hk : keyTail c = false := by
      obtain ⟨h1, h2, h3, _⟩ := isWhite_false hcw
      simp [keyTail, h1, h2, h3]
    rw [skipBlank3_blanks _ _ s3, skipBlank3_eq]
    apply dropWhile_eq_self_of_head
    intro x hx
    cases value with
    | nil => exact absurd rfl hne
    | cons y ys =>
      simp only [List.cons_append, List.head?_cons, Option.some.injEq] at hx hhead
      subst hx
      subst hhead
      exact hk
  have hne2 : value ++ sp.afterValue ≠ [] := by
    intro e
    exact hne (List.append_eq_nil.mp e).1
  have hval : trimEnd valueTail (value ++ sp.afterValue) = value := by
    rw [trimEnd_append_tail valueTail _ _ (fun x hx => (isSpTab_tails (s4 x hx)).2.1)]
    exact trimEnd_of_last _ _ (fun x hx => by
      rw [hlast] at hx
      simp only [Option.some.injEq] at hx
      subst hx
      exact hdt)
  have hbr : d0 ≠ '[' := (isDigit_plain hd0).2.2.2.1
  unfold ParseLine
  simp only [hcut, hskip, hsplit, hbr, if_false, hkey, hv1, hne2, hval]

theorem stripLine_house (sp : Spacing) (n : Nat) (value : Sz) (hsp : sp.ok = true)
    (hv : plainValue value = true) :
    stripLine (houseLine sp n value) =
      (false, sp.beforeKey ++ (fmtNat n ++ (sp.afterKey ++ ':' ::
        (sp.beforeValue ++ (value ++ sp.afterValue))))) := by
  obtain ⟨c, d, hhead, hlast, hcw, hdt⟩ := plainValue_facts hv
  obtain ⟨h1, h2, h3, h4⟩ := valueTail_false hdt
  obtain ⟨s1, s2, s3, s4, s5⟩ := spacing_facts hsp
  have hA0 : (sp.beforeKey ++ (fmtNat n ++ (sp.afterKey ++ ':' ::
      (sp.beforeValue ++ value)))).getLast? = some d := by
    have : sp.beforeKey ++ (fmtNat n ++ (sp.afterKey ++ ':' :: (sp.beforeValue ++ value))) =
        (sp.beforeKey ++ (fmtNat n ++ (sp.afterKey ++ ':' :: sp.beforeValue))) ++ value := by
      simp
    rw [this]
    exact getLast?_append_value _ _ d hlast
  have hA : sp.beforeKey ++ (fmtNat n ++ (sp.afterKey ++ ':' ::
      (sp.beforeValue ++ (value ++ sp.afterValue)))) =
      (sp.beforeKey ++ (fmtNat n ++ (sp.afterKey ++ ':' :: (sp.beforeValue ++ value)))) ++
        sp.afterValue := by
    simp
  have hline : houseLine sp n value =
      (sp.beforeKey ++ (fmtNat n ++ (sp.afterKey ++ ':' ::
        (sp.beforeValue ++ (value ++ sp.afterValue))))) ++ sp.lineEnd := by
    simp [houseLine]
  have e1 : trimEnd isNlCr (houseLine sp n value) =
      sp.beforeKey ++ (fmtNat n ++ (sp.afterKey ++ ':' ::
        (sp.beforeValue ++ (value ++ sp.afterValue)))) := by
    rw [hline, trimEnd_append_tail isNlCr _ _ s5]
    apply trimEnd_of_last
    intro x hx
    rw [hA] at hx
    rcases getLast?_append_blanks _ _ d x hA0 hx with rfl | hx
    · exact h1
    · exact (isSpTab_tails (s4 x hx)).2.2.2.1
  have e2 : trimEnd isSpTab (sp.beforeKey ++ (fmtNat n ++ (sp.afterKey ++ ':' ::
      (sp.beforeValue ++ (value ++ sp.afterValue))))) =
      sp.beforeKey ++ (fmtNat n ++ (sp.afterKey ++ ':' :: (sp.beforeValue ++ value))) := by
    rw [hA, trimEnd_append_tail isSpTab _ _ s4]
    exact trimEnd_of_last _ _ (fun x hx => by
      rw [hA0] at hx
      simp only [Option.some.injEq] at hx
      subst hx
      exact h2)
  have e3 : endsBackslash (sp.beforeKey ++ (fmtNat n ++ (sp.afterKey ++ ':' ::
      (sp.beforeValue ++ value)))) = false := by
    unfold endsBackslash
    rw [hA0]
    simp only [Option.some.injEq, decide_eq_false_iff_not]
    exact h4
  unfold stripLine
  simp only [e1, e2, e3]
  rfl

theorem loadLine_house (h : Header) (st : LoadState) (sp : Spacing) (n : Nat) (value : Sz)
    (hs : st.szContinuation = none) (hsp : sp.ok = true) (hv : plainValue value = true)
    (hc : ∀ c ∈ value, c ≠ '#' ∧ c ≠ ';') :
    (loadLine h st (houseLine sp n value)).style =
      processValue h st.iSection st.style (fmtNat n) value := by
  obtain ⟨d0, ds, hf, hd0⟩ := fmtNat_cons n
  obtain ⟨s1, _, _, _, _⟩ := spacing_facts hsp
  have e1 := stripLine_house sp n value hsp hv
  have e2 : firstIs '[' (skipBlank (sp.beforeKey ++ (fmtNat n ++ (sp.afterKey ++ ':' ::
      (sp.beforeValue ++ (value ++ sp.afterValue)))))) = false := by
    rw [skipBlank_blanks _ _ s1, hf, List.cons_append,
      skipBlank_of_head _ d0 _ rfl (isDigit_not_white hd0).1]
    simp only [firstIs, decide_eq_false_iff_not]
    exact (isDigit_plain hd0).2.2.2.1
  have e3 := ParseLine_plain sp n value hsp hv hc
  rw [loadLine_idle h st _ hs]
  unfold loadLine
  simp only [e1, e2, e3]
  rfl

theorem aisLine_house (h : Header) (st : AisState) (sp : Spacing) (n : Nat) (value : Sz)
    (hf : st.fContinuation = false) (hsp : sp.ok = true) (hv : plainValue value = true) :
    (aisLine h st (houseLine sp n value)).style =
      aisStore h st.iSection st.style (fmtNat n) value := by
  obtain ⟨c, d, hhead, hlast, hcw, hdt⟩ := plainValue_facts hv
  obtain ⟨t1, t2, t3, t4⟩ := valueTail_false hdt
  obtain ⟨w1, w2, w3, w4⟩ := isWhite_false hcw
  obtain ⟨d0, ds, hfm, hd0⟩ := fmtNat_cons n
  obtain ⟨p1, p2, p3, p4, p5, p6, p7, p8, p9⟩ := isDigit_plain hd0
  obtain ⟨s1, s2, s3, s4, s5⟩ := spacing_facts hsp
  have hline : houseLine sp n value = sp.beforeKey ++ d0 :: (ds ++ (sp.afterKey ++ ':' ::
      (sp.beforeValue ++ (value ++ (sp.afterValue ++ sp.lineEnd))))) := by
    simp [houseLine, hfm]
  have hnot : (firstIs '#' (houseLine sp n value) || firstIs '\n' (houseLine sp n value) ||
      firstIs '\r' (houseLine sp n value)) = false := by
    rw [hline, firstIs_houseLine _ _ d0 '#' s1 hd0 (by decide) (by decide),
      firstIs_houseLine _ _ d0 '\n' s1 hd0 (by decide) (by decide),
      firstIs_houseLine _ _ d0 '\r' s1 hd0 (by decide) (by decide)]
    rfl
  have hbr : firstIs '[' (houseLine sp n value) = false := by
    rw [hline]
    exact firstIs_houseLine _ _ d0 '[' s1 hd0 (by decide) (by decide)
  have hsplit : splitColon (houseLine sp n value) =
      some (sp.beforeKey ++ (fmtNat n ++ sp.afterKey),
        sp.beforeValue ++ (value ++ (sp.afterValue ++ sp.lineEnd))) := by
    have e : houseLine sp n value = (sp.beforeKey ++ (fmtNat n ++ sp.afterKey)) ++ ':' ::
        (sp.beforeValue ++ (value ++ (sp.afterValue ++ sp.lineEnd))) := by
      simp [houseLine]
    rw [e]
    apply splitColon_append
    intro hm
    simp only [List.mem_append] at hm
    rcases hm with hm | hm | hm
    · exact (isSpTab_tails (s1 _ hm)).2.2.2.2.2.2.2.1 rfl
    · exact (isDigit_plain (fmtNat_digits n _ hm)).1 rfl
    · exact (isSpTab_tails (s2 _ hm)).2.2.2.2.2.2.2.1 rfl
  have hkey : trimEndKeepFirst isTrail (skipSpTab (sp.beforeKey ++ (fmtNat n ++ sp.afterKey))) =
      fmtNat n := by
    rw [skipSpTab_blanks _ _ s1, hfm, List.cons_append,
      skipSpTab_of_head _ d0 (ds ++ sp.afterKey) rfl p5 p6, ← List.cons_append, ← hfm]
    exact trimEndKeepFirst_append_tail isTrail (fmtNat n) sp.afterKey (by rw [hfm]; simp)
      (fun x hx => (isDigit_not_white (fmtNat_last n x hx)).2.2)
      (fun x hx => (isSpTab_tails (s2 x hx)).2.2.1)
  have hne : value ≠ [] := by
    intro e
    rw [e] at hhead
    simp at hhead
  have hval : trimEndKeepFirst isTrail (skipSpTab
      (sp.beforeValue ++ (value ++ (sp.afterValue ++ sp.lineEnd)))) = value := by
    have s2' : skipSpTab (value ++ (sp.afterValue ++ sp.lineEnd)) =
        value ++ (sp.afterValue ++ sp.lineEnd) := by
      cases value with
      | nil => exact absurd rfl hne
      | cons x xs =>
        simp only [List.head?_cons, Option.some.injEq] at hhead
        subst hhead
        exact skipSpTab_of_head _ x (xs ++ (sp.afterValue ++ sp.lineEnd)) rfl w1 w2
    rw [skipSpTab_blanks _ _ s3, s2']
    exact trimEndKeepFirst_append_tail isTrail value _ hne
      (fun x hx => by
        rw [hlast] at hx
        simp only [Option.some.injEq] at hx
        subst hx
        exact t3)
      (fun x hx => by
        rcases List.mem_append.mp hx with hx | hx
        · exact (isSpTab_tails (s4 x hx)).2.2.1
        · exact isNlCr_tails (s5 x hx))
  have hlb : lastIsBackslash value = false := by
    unfold lastIsBackslash
    rw [hlast]
    simp only [Option.some.injEq, decide_eq_false_iff_not]
    exact t4
  unfold aisLine
  rw [hnot, hbr, hf]
  simp only [hsplit, hkey, hval, hlb]
  rfl

theorem aisStore_of_zero (h : Header) (sec : Nat) (style : InterpretationStyle) (k v : Sz)
    (hn : NFromSz k = 0) (hsc : sscanf3 k = (0, 0, 0)) :
    aisStore h sec style k v = style := by
  have k0 : ¬ ((0 : Int) ≥ 1) := by decide
  have k1 : ¬ ((0 : Int) > 0) := by decide
  unfold aisStore
  split
  · rw [hn, if_neg (fun hc => k0 hc.1)]
  · rw [hn, if_neg (fun hc => k0 hc.1)]
  · rw [hn, if_neg (fun hc => k0 hc.1)]
  · rw [hsc, if_neg (fun hc => k1 hc.1)]
  · rw [hsc, if_neg (fun hc => k1 hc.1)]
  · rfl

theorem aisStore_semicolon (h : Header) (sec : Nat) (style : InterpretationStyle) (t v : Sz) :
    aisStore h sec style (';' :: t) v = style := by
  have hn : NFromSz (';' :: t) = 0 := by
    unfold NFromSz
    have hd : (';' :: t).dropWhile isspace = ';' :: t := by
      have : isspace ';' = false := by decide
      simp [List.dropWhile, this]
    rw [hd]
    split
    · rename_i r heq
      simp only [List.cons.injEq] at heq
      exact absurd heq.1 (by decide)
    · rename_i r heq
      simp only [List.cons.injEq] at heq
      exact absurd heq.1 (by decide)
    · have hd0 : isDigit ';' = false := by decide
      have ha : atoiDigits (';' :: t) 0 = 0 := by
        unfold atoiDigits
        rw [hd0]
        rfl
      rw [ha]
      decide
  have hsc : sscanf3 (';' :: t) = (0, 0, 0) := by
    unfold sscanf3
    rw [scanInt_of_plain t (by decide) (by decide) (by decide)]
    have : firstDigit (';' :: t) = false := rfl
    rw [this]
    rfl
  exact aisStore_of_zero h sec style _ v hn hsc

theorem aisLine_semicolon (h : Header) (st : AisState) (rest : Sz)
    (hf : st.fContinuation = false) : (aisLine h st (';' :: rest)).style = st.style := by
  have hnot : (firstIs '#' (';' :: rest) || firstIs '\n' (';' :: rest) ||
      firstIs '\r' (';' :: rest)) = false := rfl
  have hbr : firstIs '[' (';' :: rest) = false := rfl
  unfold aisLine
  rw [hnot, hbr, hf]
  dsimp only
  cases hr : splitColon rest with
  | none =>
    have : splitColon (';' :: rest) = none := by
      simp [splitColon, hr]
    simp only [this]
    rfl
  | some kv =>
    obtain ⟨k, v⟩ := kv
    have hsp : splitColon (';' :: rest) = some (';' :: k, v) := by
      simp [splitColon, hr]
    have hkey : trimEndKeepFirst isTrail (skipSpTab (';' :: k)) = ';' :: trimEnd isTrail k := by
      have : skipSpTab (';' :: k) = ';' :: k := skipSpTab_of_head _ ';' k rfl (by decide) (by decide)
      rw [this]
      rfl
    simp only [hsp, hkey, Bool.false_eq_true, if_false]
    split
    · rfl
    · exact aisStore_semicolon h _ _ _ _

theorem stripLine_semicolon (rest : Sz) : ∃ t, (stripLine (';' :: rest)).2 = ';' :: t := by
  unfold stripLine
  dsimp only
  rw [trimEnd_cons isNlCr ';' rest (by decide),
    trimEnd_cons isSpTab ';' (trimEnd isNlCr rest) (by decide)]
  split
  · rename_i hb
    cases hy : trimEnd isSpTab (trimEnd isNlCr rest) with
    | nil =>
      rw [hy] at hb
      exact absurd hb (by decide)
    | cons y ys => exact ⟨(y :: ys).dropLast, by simp [List.dropLast]⟩
  · exact ⟨_, rfl⟩

theorem loadLine_semicolon (h : Header) (st : LoadState) (rest : Sz)
    (hs : st.szContinuation = none) : (loadLine h st (';' :: rest)).style = st.style := by
  obtain ⟨t, ht⟩ := stripLine_semicolon rest
  have e2 : firstIs '[' (skipBlank (';' :: t)) = false := by
    rw [skipBlank_of_head _ ';' t rfl (by decide)]
    rfl
  have e3 : ParseLine (';' :: t) = none := by
    unfold ParseLine
    simp [cutComment, skipBlank]
  rw [loadLine_idle h st _ hs]
  unfold loadLine
  simp only [ht, e2, e3]
  rfl

/-- C22 fails on the code: read by `FLoadAISFileIntoStyle`, the line
`3: home # note` under `[house_areas]` stores the text `home # note`, and the
line `3: home ; note` the text `home ; note`, while
`FLoadInterpretationStyle` stores `home` for either line. -/
theorem house_line_both_loaders_counterexample :
    (FLoadAISFileIntoStyle sampleHeader [] (newStyle [])
        (some "[house_areas]\n3: home # note\n".toList)).2.houseArea 3 =
      some "home # note".toList ∧
    (loadedStyle sampleHeader [] "[house_areas]\n3: home # note\n".toList).houseArea 3 =
      some "home".toList ∧
    (FLoadAISFileIntoStyle sampleHeader [] (newStyle [])
        (some "[house_areas]\n3: home ; note\n".toList)).2.houseArea 3 =
      some "home ; note".toList ∧
    (loadedStyle sampleHeader [] "[house_areas]\n3: home ; note\n".toList).houseArea 3 =
      some "home".toList := by
  decide

/-- C22 as amended, for a header with twelve signs.  For every house number
`n` in 1..12, every value that is not empty, has no white space in front and
neither white space nor a backslash at the end, and every spacing (runs of
spaces and tabs before and after the key and the value, any line end), the
line `n: value` read under `[house_areas]` outside a continuation makes
`FLoadAISFileIntoStyle` store the whole value in `houseArea[n]`, the
characters `#` and `;` and what follows them included: the per-folder loader
removes no comment from a value.  When the value holds no `#` and no `;`,
`FLoadInterpretationStyle` stores the same text for that line.  A line whose
first character is `;`, read outside a continuation, leaves the style as it
was in both loaders. -/
theorem house_line_both_loaders (h : Header) (sp : Spacing) (n : Nat) (value : Sz)
    (hn : 1 ≤ n ∧ n ≤ 12) (hsign : h.cSign = 12) (hsp : sp.ok = true)
    (hv : plainValue value = true) :
    (∀ st : AisState, st.fContinuation = false → st.iSection = 4 →
      (aisLine h st (houseLine sp n value)).style =
        { st.style with houseArea := setAt st.style.houseArea (n : Int) (some value) }) ∧
    (∀ st : LoadState, st.szContinuation = none → st.iSection = 4 →
      (∀ c ∈ value, c ≠ '#' ∧ c ≠ ';') →
      (loadLine h st (houseLine sp n value)).style =
        { st.style with houseArea := setAt st.style.houseArea (n : Int) (some value) }) ∧
    (∀ (st : AisState) (rest : Sz), st.fContinuation = false →
      (aisLine h st (';' :: rest)).style = st.style) ∧
    (∀ (st : LoadState) (rest : Sz), st.szContinuation = none →
      (loadLine h st (';' :: rest)).style = st.style) := by
  refine ⟨?_, ?_, fun st rest hf => aisLine_semicolon h st rest hf,
    fun st rest hs => loadLine_semicolon h st rest hs⟩
  · intro st hf hsec
    rw [aisLine_house h st sp n value hf hsp hv, hsec]
    exact aisStore_house h _ n value hn.1 (by rw [hsign]; exact hn.2)
  · intro st hs hsec hc
    rw [loadLine_house h st sp n value hs hsp hv hc, hsec]
    exact processValue_house h _ n value hn.1 hn.2

/-- C22 as amended, at the line `3: home # note` read under `[house_areas]`
at the start of a file, with a tab in front of the key and a carriage return
before the newline: the per-folder loader stores `home # note`. -/
theorem house_line_both_loaders_witness :
    (aisLine sampleHeader { aisInit [] (newStyle []) with iSection := 4 }
        (houseLine ⟨"\t".toList, [], " ".toList, " ".toList, "\r\n".toList⟩ 3
          "home # note".toList)).style.houseArea 3 = some "home # note".toList := by
  have hw := (house_line_both_loaders sampleHeader
    ⟨"\t".toList, [], " ".toList, " ".toList, "\r\n".toList⟩ 3 "home # note".toList
    ⟨by decide, by decide⟩ rfl (by decide) (by decide)).1
    { aisInit [] (newStyle []) with iSection := 4 } rfl rfl
  rw [hw]
  simp [setAt]

/-! ## The active flags of the folders (C25) -/

theorem setActiveFlag_other (l : List InterpretationFolder) (i j : Nat) (hj : j ≠ i) :
    (setActiveFlag l i)[j]? = l[j]? := by
  induction l generalizing i j with
  | nil => simp [setActiveFlag]
  | cons a as ih =>
    cases i with
    | zero =>
      cases j with
      | zero => exact absurd rfl hj
      | succ j => simp [setActiveFlag]
    | succ i =>
      cases j with
      | zero => simp [setActiveFlag]
      | succ j =>
        simp only [setActiveFlag, List.getElem?_cons_succ]
        exact ih i j (by omega)

/-- C25, evaluated on the code: `FSetActiveStyle` sets the active flag of the
folder it finds and clears no flag.  From the registries before the first
scan, on a disk with the style folders `a` and `b`, activating `a` and then
`b` succeeds both times and leaves both folders flagged active, with the
active index 1.  In general an activation leaves every folder other than the
one it finds as it was, a folder flagged active included. -/
theorem two_active_folders :
    (FSetActiveStyle sampleHeader twoFolderDisk ⟨emptyRegistry, emptyFolders⟩ "a".toList).1 =
      true ∧
    (FSetActiveStyle sampleHeader twoFolderDisk
      (activateAll sampleHeader twoFolderDisk ⟨emptyRegistry, emptyFolders⟩ ["a".toList])
      "b".toList).1 = true ∧
    (activateAll sampleHeader twoFolderDisk ⟨emptyRegistry, emptyFolders⟩
      ["a".toList, "b".toList]).ifm.folder.map (fun f => (f.name, f.fActive)) =
      [(some "a".toList, true), (some "b".toList, true)] ∧
    (activateAll sampleHeader twoFolderDisk ⟨emptyRegistry, emptyFolders⟩
      ["a".toList, "b".toList]).ifm.activeFolder = 1 ∧
    (∀ (h : Header) (disk : Disk) (r : Registries) (i j : Nat) (folder : InterpretationFolder),
      j ≠ i →
      (activateFolder h disk r i folder).2.ifm.folder[j]? = r.ifm.folder[j]?) := by
  refine ⟨by decide, by decide, by decide, by decide, ?_⟩
  intro h disk r i j folder hj
  unfold activateFolder
  split
  · exact setActiveFlag_other _ i j hj
  · exact setActiveFlag_other _ i j hj

/-! ## Dropped entries of the single-file loader (C23, C24) -/

theorem loadLine_continue_more (h : Header) (t : LoadState) (held c : Sz)
    (hf : t.fContinuation = true) (hs : t.szContinuation = some held)
    (hc : (continueLine held c).1 = true) :
    loadLine h t c =
      { t with fContinuation := true, szContinuation := some (continueLine held c).2 } := by
  unfold loadLine
  rw [hf, hs]
  dsimp only
  rw [hc]
  rfl

theorem loadLine_continue_done (h : Header) (t : LoadState) (held c : Sz)
    (hf : t.fContinuation = true) (hs : t.szContinuation = some held)
    (hc : (continueLine held c).1 = false) :
    loadLine h t c =
      processAndRelease h
        { t with fContinuation := false, szContinuation := some (continueLine held c).2 }
        (t.szContinuationKey.getD []) (continueLine held c).2 := by
  unfold loadLine
  rw [hf, hs]
  dsimp only
  rw [hc]
  rfl

theorem loadLines_complete (h : Header) (conts : List Sz) (held value : Sz) (t : LoadState)
    (hf : t.fContinuation = true) (hs : t.szContinuation = some held)
    (hv : completedValue held conts = some value) :
    (conts.foldl (loadLine h) t).style =
        processValue h t.iSection t.style (t.szContinuationKey.getD []) value ∧
    (conts.foldl (loadLine h) t).iSection = t.iSection ∧
    (conts.foldl (loadLine h) t).szContinuation = none := by
  induction conts generalizing held t with
  | nil => simp [completedValue] at hv
  | cons c cs ih =>
    rw [List.foldl_cons]
    unfold completedValue at hv
    cases hc : (continueLine held c).1 with
    | true =>
      rw [hc] at hv
      simp only [if_true] at hv
      rw [loadLine_continue_more h t held c hf hs hc]
      exact ih (continueLine held c).2 _ rfl rfl hv
    | false =>
      rw [hc] at hv
      simp only [Bool.false_eq_true, if_false] at hv
      by_cases hcs : cs = []
      · subst hcs
        simp only [if_true, Option.some.injEq] at hv
        subst hv
        rw [loadLine_continue_done h t held c hf hs hc]
        exact ⟨rfl, rfl, rfl⟩
      · rw [if_neg hcs] at hv
        exact absurd hv (by simp)

theorem loadLines_entry (h : Header) (e : List Sz) (key value : Sz) (s : LoadState)
    (hs : s.szContinuation = none) (he : entryPair e = some (key, value)) :
    (e.foldl (loadLine h) s).style = processValue h s.iSection s.style key value ∧
    (e.foldl (loadLine h) s).iSection = s.iSection ∧
    (e.foldl (loadLine h) s).szContinuation = none := by
  cases e with
  | nil => simp [entryPair] at he
  | cons l0 conts =>
    unfold entryPair at he
    dsimp only at he
    by_cases hh : firstIs '[' (skipBlank (stripLine l0).2) = true
    · rw [if_pos hh] at he
      exact absurd he (by simp)
    · rw [if_neg hh] at he
      have hh' : firstIs '[' (skipBlank (stripLine l0).2) = false := by simpa using hh
      cases hp : ParseLine (stripLine l0).2 with
      | none =>
        rw [hp] at he
        exact absurd he (by simp)
      | some kv =>
        obtain ⟨k, v0⟩ := kv
        rw [hp] at he
        dsimp only at he
        rw [List.foldl_cons, loadLine_idle h s l0 hs]
        cases hb : (stripLine l0).1 with
        | true =>
          rw [hb] at he
          simp only [if_true, Option.map_eq_some', Prod.mk.injEq] at he
          obtain ⟨v, hv, rfl, rfl⟩ := he
          have h1 : loadLine h { s with fContinuation := false } l0 =
              { s with
                fContinuation := true, szContinuation := some v0,
                szContinuationKey := some k } := by
            unfold loadLine
            simp only [hh', hp, hb]
            rfl
          rw [h1]
          exact loadLines_complete h conts v0 v _ rfl rfl hv
        | false =>
          rw [hb] at he
          simp only [Bool.false_eq_true, if_false] at he
          by_cases hcs : conts = []
          · subst hcs
            simp only [if_true, Option.some.injEq, Prod.mk.injEq] at he
            obtain ⟨rfl, rfl⟩ := he
            have h1 : loadLine h { s with fContinuation := false } l0 =
                processAndRelease h { s with fContinuation := false } k v0 := by
              unfold loadLine
              simp only [hh', hp, hb]
              rfl
            rw [h1]
            exact ⟨rfl, rfl, rfl⟩
          · rw [if_neg hcs] at he
            exact absurd he (by simp)

theorem sameToRest_refl (a : LoadState) : SameToRest a a :=
  ⟨rfl, rfl, rfl, Or.inr ⟨rfl, rfl⟩⟩

theorem sameToRest_idle (h : Header) (s : InterpretationStyle) (i : Nat) (ka kb : Option Sz)
    (l : Sz) :
    SameToRest
      (loadLine h
        { style := s, iSection := i, fContinuation := false, szContinuation := none,
          szContinuationKey := ka } l)
      (loadLine h
        { style := s, iSection := i, fContinuation := false, szContinuation := none,
          szContinuationKey := kb } l) := by
  unfold loadLine
  dsimp only
  by_cases hh : firstIs '[' (skipBlank (stripLine l).2) = true
  · rw [if_pos hh, if_pos hh]
    exact ⟨rfl, rfl, rfl, Or.inl rfl⟩
  · rw [if_neg hh, if_neg hh]
    cases hp : ParseLine (stripLine l).2 with
    | none => exact ⟨rfl, rfl, rfl, Or.inl rfl⟩
    | some kv =>
      obtain ⟨k, v⟩ := kv
      dsimp only
      cases hb : (stripLine l).1 with
      | true => exact ⟨rfl, rfl, rfl, Or.inr ⟨rfl, rfl⟩⟩
      | false => exact ⟨rfl, rfl, rfl, Or.inl rfl⟩

theorem sameToRest_loadLine (h : Header) (a b : LoadState) (l : Sz) (hab : SameToRest a b) :
    SameToRest (loadLine h a l) (loadLine h b l) := by
  obtain ⟨sa, ia, fa, ca, ka⟩ := a
  obtain ⟨sb, ib, fb, cb, kb⟩ := b
  obtain ⟨h1, h2, h3, h4⟩ := hab
  simp only at h1 h2 h3 h4
  subst h1 h2 h3
  cases ca with
  | none =>
    rw [loadLine_idle h _ l rfl, loadLine_idle h (LoadState.mk sa ia fb none kb) l rfl]
    exact sameToRest_idle h sa ia ka kb l
  | some held =>
    rcases h4 with h4 | ⟨h4, h5⟩
    · exact absurd h4 (by simp)
    · subst h4 h5
      exact sameToRest_refl _

theorem sameToRest_foldl (h : Header) (ls : List Sz) (a b : LoadState) (hab : SameToRest a b) :
    SameToRest (ls.foldl (loadLine h) a) (ls.foldl (loadLine h) b) := by
  induction ls generalizing a b with
  | nil => exact hab
  | cons l ls ih =>
    rw [List.foldl_cons, List.foldl_cons]
    exact ih _ _ (sameToRest_loadLine h a b l hab)

theorem loadLine_header (h : Header) (st : LoadState) (header : Sz)
    (hst : st.szContinuation = none)
    (hhead : firstIs '[' (skipBlank (stripLine header).2) = true) :
    (loadLine h st header).style = st.style ∧
    (loadLine h st header).iSection = sectionOfHeader (skipBlank (stripLine header).2) ∧
    (loadLine h st header).szContinuation = none := by
  rw [loadLine_idle h st header hst]
  unfold loadLine
  dsimp only
  rw [if_pos hhead]
  exact ⟨rfl, rfl, hst⟩

theorem loadLine_no_section (h : Header) (s : LoadState) (szLine : Sz) (hsec : s.iSection = 0) :
    (loadLine h s szLine).style = s.style := by
  rcases loadLine_style h s szLine with he | ⟨k, v, he⟩
  · exact he
  · rw [he, hsec]
    rfl

theorem loadLines_entries_dropped (h : Header) (mid : List (List Sz)) (s : LoadState)
    (hsec : s.iSection = 0) (hs : s.szContinuation = none)
    (hmid : ∀ e ∈ mid, (entryPair e).isSome = true) :
    (mid.flatten.foldl (loadLine h) s).style = s.style ∧
    (mid.flatten.foldl (loadLine h) s).iSection = 0 ∧
    (mid.flatten.foldl (loadLine h) s).szContinuation = none := by
  induction mid generalizing s with
  | nil => exact ⟨rfl, hsec, hs⟩
  | cons e es ih =>
    have hsome := hmid e (List.mem_cons_self _ _)
    cases hp : entryPair e with
    | none =>
      rw [hp] at hsome
      exact absurd hsome (by simp)
    | some kv =>
      obtain ⟨k, v⟩ := kv
      obtain ⟨e1, e2, e3⟩ := loadLines_entry h e k v s hs hp
      rw [List.flatten_cons, List.foldl_append]
      have e1' : (e.foldl (loadLine h) s).style = s.style := by
        rw [e1, hsec]
        rfl
      obtain ⟨i1, i2, i3⟩ := ih (e.foldl (loadLine h) s) (by rw [e2, hsec]) e3
        (fun e' he' => hmid e' (List.mem_cons_of_mem _ he'))
      exact ⟨i1.trans e1', i2, i3⟩

theorem loadedStyle_of_same (h : Header) (szFile c1 c2 : Sz)
    (hsame : SameToRest ((fileLines h.cchSzLine c1).foldl (loadLine h) (initLoad szFile))
      ((fileLines h.cchSzLine c2).foldl (loadLine h) (initLoad szFile)))
    (im : InterpretationManager) :
    (FLoadInterpretationStyle h im szFile (some c1)).1 = true ∧
    (FLoadInterpretationStyle h im szFile (some c1)).2 =
      (FLoadInterpretationStyle h im szFile (some c2)).2 := by
  refine ⟨rfl, ?_⟩
  have hl : loadedStyle h szFile c1 = loadedStyle h szFile c2 := by
    unfold loadedStyle
    rw [hsame.1]
  unfold FLoadInterpretationStyle
  dsimp only
  rw [hl]

/-- C23 fails on the code: after the header `[foo]`, whose name is none of the
eight recognised ones, the line `k: v \` is a `key: value` line that ends in
a backslash, and `FLoadInterpretationStyle` takes the line after it, the
header `[house_areas]`, as its continuation.  The section stays none and the
line `3: home` stores nothing, where the file without the line `k: v \`
stores `home` as the text of house 3.  The two loaded styles differ. -/
theorem unknown_section_dropped_counterexample :
    sectionOfHeader (skipBlank (stripLine "[foo]\n".toList).2) = 0 ∧
    ParseLine (stripLine "k: v \\\n".toList).2 = some ("k".toList, "v".toList) ∧
    (loadedStyle sampleHeader []
        "[foo]\nk: v \\\n[house_areas]\n3: home\n".toList).houseArea 3 = none ∧
    (loadedStyle sampleHeader []
        "[foo]\n[house_areas]\n3: home\n".toList).houseArea 3 = some "home".toList ∧
    loadedStyle sampleHeader [] "[foo]\nk: v \\\n[house_areas]\n3: home\n".toList ≠
      loadedStyle sampleHeader [] "[foo]\n[house_areas]\n3: home\n".toList := by
  refine ⟨by decide, by decide, by decide, by decide, fun heq => ?_⟩
  have h3 := congrArg (fun s => s.houseArea 3) heq
  revert h3
  decide

/-- C23 as amended.  In `FLoadInterpretationStyle`, after a line taken as a
section header whose name is none of the eight recognised ones, the section
is none, and in that section every line leaves the style as it was.  An entry
is one `key: value` line that does not end in a backslash, or a `key: value`
line ending in a backslash together with the lines that continue it.  For
every block of entries that follows such a header, the style after the header
and the block is the style before the header, and loading goes on from there
as if the block were not in the file: the style after the remaining lines is
the same with and without the block.  The same holds for a block of entries
met anywhere in the section none with no continuation in progress.  For two
files that differ by such a block only, the load of either succeeds and both
loads leave the same registry. -/
theorem unknown_section_dropped (h : Header) (st : LoadState) (header : Sz)
    (mid : List (List Sz)) (rest : List Sz)
    (hst : st.szContinuation = none)
    (hhead : firstIs '[' (skipBlank (stripLine header).2) = true)
    (hunknown : sectionOfHeader (skipBlank (stripLine header).2) = 0)
    (hmid : ∀ e ∈ mid, (entryPair e).isSome = true) :
    (loadLine h st header).iSection = 0 ∧
    (∀ (s : LoadState) (szLine : Sz), s.iSection = 0 → (loadLine h s szLine).style = s.style) ∧
    ((header :: mid.flatten).foldl (loadLine h) st).style = st.style ∧
    ((header :: (mid.flatten ++ rest)).foldl (loadLine h) st).style =
      ((header :: rest).foldl (loadLine h) st).style ∧
    (∀ (im : InterpretationManager) (szFile c1 c2 : Sz) (pre : List Sz),
      pre.foldl (loadLine h) (initLoad szFile) = st →
      fileLines h.cchSzLine c1 = pre ++ header :: (mid.flatten ++ rest) →
      fileLines h.cchSzLine c2 = pre ++ header :: rest →
      (FLoadInterpretationStyle h im szFile (some c1)).1 = true ∧
      (FLoadInterpretationStyle h im szFile (some c1)).2 =
        (FLoadInterpretationStyle h im szFile (some c2)).2) ∧
    (∀ s : LoadState, s.iSection = 0 → s.szContinuation = none →
      (mid.flatten.foldl (loadLine h) s).style = s.style ∧
      ((mid.flatten ++ rest).foldl (loadLine h) s).style = (rest.foldl (loadLine h) s).style) ∧
    (∀ (im : InterpretationManager) (szFile c1 c2 : Sz) (pre : List Sz),
      (pre.foldl (loadLine h) (initLoad szFile)).iSection = 0 →
      (pre.foldl (loadLine h) (initLoad szFile)).szContinuation = none →
      fileLines h.cchSzLine c1 = pre ++ (mid.flatten ++ rest) →
      fileLines h.cchSzLine c2 = pre ++ rest →
      (FLoadInterpretationStyle h im szFile (some c1)).1 = true ∧
      (FLoadInterpretationStyle h im szFile (some c1)).2 =
        (FLoadInterpretationStyle h im szFile (some c2)).2) := by
  obtain ⟨a1, a2, a3⟩ := loadLine_header h st header hst hhead
  rw [hunknown] at a2
  have hgen : ∀ s : LoadState, s.iSection = 0 → s.szContinuation = none →
      (mid.flatten.foldl (loadLine h) s).style = s.style ∧
      SameToRest ((mid.flatten ++ rest).foldl (loadLine h) s) (rest.foldl (loadLine h) s) := by
    intro s hsec hs
    obtain ⟨b1, b2, b3⟩ := loadLines_entries_dropped h mid s hsec hs hmid
    refine ⟨b1, ?_⟩
    rw [List.foldl_append]
    exact sameToRest_foldl h rest _ _ ⟨b1, b2.trans hsec.symm, b3.trans hs.symm, Or.inl b3⟩
  obtain ⟨b1, hrest0⟩ := hgen (loadLine h st header) a2 a3
  have hrest : SameToRest ((header :: (mid.flatten ++ rest)).foldl (loadLine h) st)
      ((header :: rest).foldl (loadLine h) st) := by
    rw [List.foldl_cons, List.foldl_cons]
    exact hrest0
  refine ⟨a2, fun s szLine hsec => loadLine_no_section h s szLine hsec, ?_, hrest.1, ?_,
    fun s hsec hs => ⟨(hgen s hsec hs).1, (hgen s hsec hs).2.1⟩, ?_⟩
  · rw [List.foldl_cons]
    exact b1.trans a1
  · intro im szFile c1 c2 pre hpre h1 h2
    apply loadedStyle_of_same
    rw [h1, h2, List.foldl_append, List.foldl_append, hpre]
    exact hrest
  · intro im szFile c1 c2 pre hsec hs h1 h2
    apply loadedStyle_of_same
    rw [h1, h2]
    have hthis := (hgen _ hsec hs).2
    simp only [List.foldl_append] at hthis ⊢
    exact hthis

/-- C23 at a file that starts with the unknown section `[foo]`, holding a
one-line entry and an entry continued over two lines: the house text that the
following section stores is the one stored without the two entries. -/
theorem unknown_section_dropped_witness :
    (("[foo]\n".toList ::
        ([["k: v\n".toList], ["a: b \\\n".toList, "c\n".toList]].flatten ++
          ["[house_areas]\n".toList, "3: home\n".toList])).foldl
      (loadLine sampleHeader) (initLoad [])).style.houseArea 3 =
    (("[foo]\n".toList :: ["[house_areas]\n".toList, "3: home\n".toList]).foldl
      (loadLine sampleHeader) (initLoad [])).style.houseArea 3 :=
  congrArg (fun s => s.houseArea 3)
    (unknown_section_dropped sampleHeader (initLoad []) "[foo]\n".toList
      [["k: v\n".toList], ["a: b \\\n".toList, "c\n".toList]]
      ["[house_areas]\n".toList, "3: home\n".toList] rfl (by decide) (by decide)
      (by decide)).2.2.2.1

/-- C24: in `FLoadInterpretationStyle`, an entry read under `[combinations]`
whose key `FParseComboKey` rejects, or under `[aspect_combinations]` whose key
`FParseAspectComboKey` rejects, is skipped: its lines leave the style and the
section as they were, and loading goes on as if the entry were not in the
file, so that the style after the remaining lines is the same with and
without the entry.  For two files that differ by such an entry only, the load
of either succeeds and both loads leave the same registry. -/
theorem rejected_key_skipped (h : Header) (st : LoadState) (e : List Sz) (key value : Sz)
    (rest : List Sz)
    (hst : st.szContinuation = none)
    (he : entryPair e = some (key, value))
    (hrej : (st.iSection = 5 ∧ FParseComboKey h key = none) ∨
      (st.iSection = 8 ∧ FParseAspectComboKey h key = none)) :
    (e.foldl (loadLine h) st).style = st.style ∧
    (e.foldl (loadLine h) st).iSection = st.iSection ∧
    ((e ++ rest).foldl (loadLine h) st).style = (rest.foldl (loadLine h) st).style ∧
    (∀ (im : InterpretationManager) (szFile c1 c2 : Sz) (pre : List Sz),
      pre.foldl (loadLine h) (initLoad szFile) = st →
      fileLines h.cchSzLine c1 = pre ++ (e ++ rest) →
      fileLines h.cchSzLine c2 = pre ++ rest →
      (FLoadInterpretationStyle h im szFile (some c1)).1 = true ∧
      (FLoadInterpretationStyle h im szFile (some c1)).2 =
        (FLoadInterpretationStyle h im szFile (some c2)).2) := by
  obtain ⟨e1, e2, e3⟩ := loadLines_entry h e key value st hst he
  have hskip : processValue h st.iSection st.style key value = st.style := by
    rcases hrej with ⟨hs, hk⟩ | ⟨hs, hk⟩
    · rw [hs]
      simp only [processValue, hk]
    · rw [hs]
      simp only [processValue, hk]
  have hsame : SameToRest (e.foldl (loadLine h) st) st :=
    ⟨e1.trans hskip, e2, e3.trans hst.symm, Or.inl e3⟩
  have hrest : SameToRest ((e ++ rest).foldl (loadLine h) st) (rest.foldl (loadLine h) st) := by
    rw [List.foldl_append]
    exact sameToRest_foldl h rest _ _ hsame
  refine ⟨e1.trans hskip, e2, hrest.1, ?_⟩
  intro im szFile c1 c2 pre hpre h1 h2
  apply loadedStyle_of_same
  rw [h1, h2]
  simp only [List.foldl_append, hpre] at hrest ⊢
  exact hrest

/-- C24 at the entry `Sun+1: x` under `[combinations]`, whose key has one
`+` only: the collection built from the lines that follow is the one built
without the entry. -/
theorem rejected_key_skipped_witness :
    ((["Sun+1: x\n".toList] ++ ["1+1+1: A\n".toList]).foldl (loadLine sampleHeader)
      { initLoad [] with iSection := 5 }).style.combos = [entry "1+1+1" "A"] := by
  have hw := (rejected_key_skipped sampleHeader { initLoad [] with iSection := 5 }
    ["Sun+1: x\n".toList] "Sun+1".toList "x".toList ["1+1+1: A\n".toList] rfl (by decide)
    (Or.inl ⟨rfl, by decide⟩)).2.2.1
  rw [hw]
  decide

end Astrolog
